import Mathlib

/-!
# A verification development for the multi-tape Turing machine simulator

Shallow embedding of `turing-project/machine.cc`, `parser.cc` and `checker.hh`.

Conventions of the embedding

* `std::string` and `std::vector<char>` are `List Char`; of a `char` only its ASCII
  classification matters.
* The tape is a doubly linked list of heap nodes between the two sentinels
  `_lm` and `_rm`, with `_cur` pointing at one node of the list.  It is
  embedded as a zipper: the nodes reached from `_cur` by following `_prev`
  (up to, not including, `_lm`), the node `_cur`, and the nodes reached by
  following `_next` (up to, not including, `_rm`).  The section on nodes and links
  embeds the same functions on the heap of nodes; `heap_reachable_rep` shows that
  every tape reached there represents a tape reached in the zipper.
* `int` cell indices are `Int`; signed overflow (undefined in the source) is
  not modelled.
* `std::vector::at` throws `std::out_of_range`; every function that uses it
  returns `Except Err _`.
-/

namespace TuringSim

/-! ## Primitives -/

/-- The exceptions (and the one undefined behaviour) the embedded code can end in. -/
inductive Err where
  /-- `parser_exception(msg)` -/
  | parser_exception (msg : String)
  /-- `std::out_of_range`, thrown by `vector::at` and `string::at` -/
  | out_of_range
  /-- `std::invalid_argument`, thrown by `std::stoi` -/
  | invalid_argument
  /-- `input_exception(index)` of `checker.hh` -/
  | input_exception (index : Nat)
  /-- the text iterator was advanced beyond `_end` and used again
      (undefined behaviour in the source) -/
  | past_end
  /-- the section loop of the embedding ran out of fuel (never happens, see `parse`) -/
  | fuel
  deriving DecidableEq, Repr

/-- `Tape::Direction`, the enumeration `{L, R, N}`. -/
inductive Direction where
  | L
  | R
  | N
  deriving DecidableEq, Repr

/-- Modelled from the spec: the class `State` of `machine.hh` (not among the sources),
a control state that is a name, with equality by name. -/
structure State where
  name : List Char
  deriving DecidableEq, Repr

/-- `vector::at(i)`: the element at `i`, or `std::out_of_range`. -/
def at_ {α : Type} (xs : List α) (i : Nat) : Except Err α :=
  match xs[i]? with
  | some x => Except.ok x
  | none => Except.error Err.out_of_range

/-! ## Tape -/

/-- The payload of a `Node`: `_content` and `_index` (the links `_next` and `_prev`
are the list structure of the zipper). -/
structure Node where
  content : Char
  index : Int
  deriving DecidableEq, Repr

/-- A `Tape`: `_blank`, and the nodes strictly between `_lm` and `_rm`.
`left` lists the nodes on the `_prev` side of `_cur`, nearest first, so its last
element is `_lm->_next`; `right` lists the nodes on the `_next` side of `_cur`,
nearest first, so its last element is `_rm->_prev`. -/
structure Tape where
  blank : Char
  left : List Node
  cur : Node
  right : List Node
  deriving DecidableEq, Repr

namespace Tape

/-- Modelled from the spec: `Tape::cur_sym` of `machine.hh` (not among the sources),
`read()`, the content at the cursor. -/
def cur_sym (t : Tape) : Char := t.cur.content

/-- Modelled from the spec: `Tape::cur_index` of `machine.hh` (not among the sources),
the index of the cursor cell. -/
def cur_index (t : Tape) : Int := t.cur.index

/-- Modelled from the spec: `Tape::write` of `machine.hh` (not among the sources),
which overwrites the cursor cell's content. -/
def write (t : Tape) (ch : Char) : Tape :=
  { t with cur := { t.cur with content := ch } }

/-- `Tape::move`.  Moving onto a sentinel first links a fresh blank node, whose index
is the cursor's index minus or plus one. -/
def move (t : Tape) : Direction → Tape
  | Direction.L =>
    match t.left with
    | [] =>
      { t with left := [], cur := ⟨t.blank, t.cur.index - 1⟩, right := t.cur :: t.right }
    | p :: ps => { t with left := ps, cur := p, right := t.cur :: t.right }
  | Direction.R =>
    match t.right with
    | [] =>
      { t with right := [], cur := ⟨t.blank, t.cur.index + 1⟩, left := t.cur :: t.left }
    | p :: ps => { t with right := ps, cur := p, left := t.cur :: t.left }
  | Direction.N => t

/-- `Tape::gc`.  The first loop unlinks `_lm->_next` while it is blank and is not
`_cur`; the second unlinks `_rm->_prev` while it is blank and is not `_cur`.  In the
zipper these are the far ends of `left` and `right`. -/
def gc (t : Tape) : Tape :=
  { t with
    left := t.left.rdropWhile (fun nd => nd.content == t.blank)
    right := t.right.rdropWhile (fun nd => nd.content == t.blank) }

/-- The nodes from `_lm->_next` to `_rm->_prev`, in `_next` order. -/
def nodes (t : Tape) : List Node := t.left.reverse ++ t.cur :: t.right

/-- `Tape::to_vec`: runs `gc`, then collects `(_content, _index)` from `_lm->_next`
up to `_rm`.  The tape is mutated by the `gc`, so the new tape is returned too. -/
def to_vec (t : Tape) : List (Char × Int) × Tape :=
  (t.gc.nodes.map (fun nd => (nd.content, nd.index)), t.gc)

/-- Modelled from the spec: `utils::strip` of `utils.hh` (not among the sources),
which strips the leading and the trailing occurrences of `ch`. -/
def strip (s : List Char) (ch : Char) : List Char :=
  (s.dropWhile (fun c => c == ch)).rdropWhile (fun c => c == ch)

/-- `Tape::to_string`: the contents from `_lm` itself (a sentinel, whose content is
`_blank`) up to `_rm`, stripped of blanks at both ends.  It does not run `gc`. -/
def to_string (t : Tape) : List Char :=
  strip (t.blank :: t.nodes.map (fun nd => nd.content)) t.blank

/-- `Tape::Tape(char blank, std::string input)`.  The first node gets the index
`input.size() - 1` (for the empty input the unsigned difference converts to `-1`); the
reversed input is written right to left, each write followed by `move(L)`, and a final
`move(R)` puts the cursor back. -/
def ctor (blank : Char) (input : List Char) : Tape :=
  let t0 : Tape := ⟨blank, [], ⟨blank, (input.length : Int) - 1⟩, []⟩
  (input.reverse.foldl (fun t ch => (t.write ch).move Direction.L) t0).move Direction.R

/-- `Tape::Tape(char blank)`, which delegates to `Tape(blank, "")`. -/
def ctor_blank (blank : Char) : Tape := ctor blank []

/-- The logical content of the cell with index `k`: the content of the materialised
node carrying that index, and the blank when no node carries it. -/
def read_at (t : Tape) (k : Int) : Char :=
  match t.nodes.find? (fun nd => nd.index == k) with
  | some nd => nd.content
  | none => t.blank

/-- Indices decrease by one along `left`, starting below `i`. -/
def chain_left : Int → List Node → Bool
  | _, [] => true
  | i, nd :: nds => nd.index == i - 1 && chain_left (i - 1) nds

/-- Indices increase by one along `right`, starting above `i`. -/
def chain_right : Int → List Node → Bool
  | _, [] => true
  | i, nd :: nds => nd.index == i + 1 && chain_right (i + 1) nds

/-- The linked cells carry consecutive indices, increasing in `_next` order. -/
def WF (t : Tape) : Prop :=
  chain_left t.cur.index t.left = true ∧ chain_right t.cur.index t.right = true

instance (t : Tape) : Decidable t.WF := inferInstanceAs (Decidable (_ ∧ _))

end Tape

/-- A tape is reachable when it is built by the constructor and then changed only by
`write`, `move` and `gc`. -/
inductive Reachable : Tape → Prop where
  | ctor (blank : Char) (input : List Char) : Reachable (Tape.ctor blank input)
  | write (t : Tape) (ch : Char) : Reachable t → Reachable (t.write ch)
  | move (t : Tape) (d : Direction) : Reachable t → Reachable (t.move d)
  | gc (t : Tape) : Reachable t → Reachable t.gc

/-! ## Transition -/

/-- Modelled from the spec: the class `Transition` of `machine.hh` (not among the
sources), with the fields in the order `parse_tran` passes them to the constructor. -/
structure Transition where
  old_state : State
  new_state : State
  old_syms : List Char
  new_syms : List Char
  dirs : List Direction
  n : Nat
  deriving DecidableEq, Repr

namespace Transition

/-- The `for` loop of `Transition::match`, with `k` iterations left and the loop
variable at `i`. -/
def match_loop (t : Transition) (cur_syms : List Char) : Nat → Nat → Except Err Bool
  | 0, _ => pure true
  | k + 1, i => do
    let o ← at_ t.old_syms i
    let wild_on_blank ← (if o == '*' then do
        let c ← at_ cur_syms i
        pure (c == '_')
      else pure false)
    if wild_on_blank then pure false
    else
      let o2 ← at_ t.old_syms i
      let differs ← (if o2 != '*' then do
          let c ← at_ cur_syms i
          let o3 ← at_ t.old_syms i
          pure (c != o3)
        else pure false)
      if differs then pure false
      else match_loop t cur_syms k (i + 1)

/-- `Transition::match`. -/
def match_ (t : Transition) (cur_state : State) (cur_syms : List Char) : Except Err Bool :=
  if cur_state != t.old_state then pure false
  else match_loop t cur_syms cur_syms.length 0

end Transition

/-! ## Machine -/

/-- The class `Machine`: `_n`, `_tapes`, `_transitions`, `_state`, `_n_step`. -/
structure Machine where
  n : Nat
  tapes : List Tape
  transitions : List Transition
  state : State
  n_step : Nat
  deriving DecidableEq, Repr

namespace Machine

/-- The tapes the constructor pushes after tape 0: one blank tape for each `i` with
`1 <= i < n`. -/
def blank_tapes (n : Nat) : List Tape :=
  (List.range (n - 1)).map (fun _ => Tape.ctor_blank '_')

/-- `Machine::Machine(n, input, transitions, initial_state)`.  Tape 0 is pushed
unconditionally; the loop `for (i = 1; i < _n; ++i)` pushes the others. -/
def ctor (n : Nat) (input : List Char) (transitions : List Transition)
    (initial_state : State) : Machine :=
  { n := n
    tapes := Tape.ctor '_' input :: blank_tapes n
    transitions := transitions
    state := initial_state
    n_step := 0 }

/-- Modelled from the spec: `Machine::n_tape` of `machine.hh` (not among the sources),
the tape count of the machine. -/
def n_tape (m : Machine) : Nat := m.n

/-- The first loop of `Machine::step`: the symbol under the cursor of every tape. -/
def cur_syms (m : Machine) : List Char := m.tapes.map Tape.cur_sym

/-- The effect of the verbose block of `Machine::step` on the tapes (the printing is
not modelled): `_tapes.at(i).to_vec()` for `i` from `i` on, `k` iterations left. -/
def verbose_loop : Nat → Nat → List Tape → Except Err (List Tape)
  | 0, _, tapes => pure tapes
  | k + 1, i, tapes => do
    let tp ← at_ tapes i
    verbose_loop k (i + 1) (tapes.set i tp.to_vec.2)

/-- The inner loop of `Machine::step` that applies a matched transition, `k`
iterations left and the loop variable at `i`. -/
def apply_loop (tr : Transition) : Nat → Nat → List Tape → Except Err (List Tape)
  | 0, _, tapes => pure tapes
  | k + 1, i, tapes => do
    let ns ← at_ tr.new_syms i
    let tapes1 ← (if ns != '*' then do
        let tp ← at_ tapes i
        let ns2 ← at_ tr.new_syms i
        pure (tapes.set i (tp.write ns2))
      else pure tapes)
    let tp ← at_ tapes1 i
    let d ← at_ tr.dirs i
    apply_loop tr k (i + 1) (tapes1.set i (tp.move d))

/-- The scan `for (auto trans : _transitions)` of `Machine::step`; `syms` is the
`cur_syms` vector computed at the start of the step. -/
def scan (m : Machine) (syms : List Char) : List Transition → Except Err (Bool × Machine)
  | [] => pure (false, m)
  | tr :: rest => do
    let matched ← tr.match_ m.state syms
    if matched then do
      let tapes ← apply_loop tr syms.length 0 m.tapes
      pure (true, { m with state := tr.new_state, tapes := tapes })
    else scan m syms rest

/-- `Machine::step(is_verbose)`.  The result is the returned flag and the machine
after the call, or the exception the call ends in (the partly updated machine an
exception leaves behind is not represented).  The step counter is a natural number. -/
def step (m : Machine) (is_verbose : Bool) : Except Err (Bool × Machine) := do
  let syms := m.cur_syms
  let tapes ← (if is_verbose then verbose_loop m.n_tape 0 m.tapes else pure m.tapes)
  let m1 : Machine := { m with tapes := tapes, n_step := m.n_step + 1 }
  scan m1 syms m1.transitions

/-- `Machine::output`, the stripped content of tape 0.  The source reads `_tapes[0]`
unchecked; the constructor always pushes tape 0, and on a machine without tapes the
embedding reports `out_of_range`. -/
def output (m : Machine) : Except Err (List Char) := do
  let tp ← at_ m.tapes 0
  pure tp.to_string

end Machine

/-! ## Parser -/

namespace parser

/-- `std::isspace` in the "C" locale. -/
def isspace (c : Char) : Bool :=
  c == ' ' || c == '\t' || c == '\n' || c == '\x0b' || c == '\x0c' || c == '\r'

/-- `std::isblank` in the "C" locale. -/
def isblank (c : Char) : Bool := c == ' ' || c == '\t'

/-- `std::isalnum` in the "C" locale. -/
def isalnum (c : Char) : Bool :=
  (48 ≤ c.toNat && c.toNat ≤ 57) || (65 ≤ c.toNat && c.toNat ≤ 90)
    || (97 ≤ c.toNat && c.toNat ≤ 122)

/-- The character class `[a-zA-Z_0-9]` of the regular expression in `parse_id`. -/
def is_id_char (c : Char) : Bool := isalnum c || c == '_'

/-- The value of `*it`, where the iterator is the list of characters from `it` to
`_end`; at `_end` the read yields the terminating null character of the string. -/
def deref (it : List Char) : Char :=
  match it with
  | [] => '\x00'
  | c :: _ => c

/-- The two nested loops of `parse_skip`.  With `in_comment = false` the iterator is at
the test of the outer loop; with `in_comment = true` it is at the test of the inner
loop `while (it != _end && *it != '\n')`.  When the inner loop stops at `_end`, the
`it++` that follows moves the iterator beyond `_end` and the outer test reads through
it. -/
def skip_loop : Bool → List Char → Except Err (List Char)
  | false, [] => pure []
  | false, c :: cs =>
    if isblank c || isspace c || c == ';' then
      if c == ';' then skip_loop true cs else skip_loop false cs
    else pure (c :: cs)
  | true, [] => throw Err.past_end
  | true, c :: cs => if c != '\n' then skip_loop true cs else skip_loop false cs

/-- `parse_skip`: skips comments, blanks and spaces. -/
def parse_skip (it : List Char) : Except Err (List Char) := skip_loop false it

/-- `parse_char`: parses exactly one character, ignoring leading skips. -/
def parse_char (it : List Char) (ch : Char) : Except Err (Bool × List Char) := do
  let it ← parse_skip it
  match it with
  | [] => if ch == '\x00' then throw Err.past_end else pure (false, [])
  | c :: rest => if c == ch then pure (true, rest) else pure (false, c :: rest)

/-- `parse_id`: parses an identifier, ignoring leading skips.  `regex_search` finds
the leftmost match of `[a-zA-Z_0-9]+`, which is as long as possible, and the iterator
advances by the length of the match. -/
def parse_id (it : List Char) : Except Err (List Char × List Char) := do
  let it ← parse_skip it
  if !isalnum (deref it) && deref it != '_' then
    throw (Err.parser_exception "expected identifier")
  else
    let found := it.dropWhile (fun c => !is_id_char c)
    if found != [] then
      let result := found.takeWhile is_id_char
      pure (result, it.drop result.length)
    else throw (Err.parser_exception "expected identifier")

/-- The `while (it != _end && parse_char(it, ','))` loop of `parse_id_list`. -/
def id_list_loop : Nat → List Char → List (List Char) →
    Except Err (List (List Char) × List Char)
  | 0, _, _ => throw Err.fuel
  | fuel + 1, it, result =>
    match it with
    | [] => pure (result, [])
    | _ :: _ => do
      let (comma, it1) ← parse_char it ','
      if comma then do
        let (id, it2) ← parse_id it1
        id_list_loop fuel it2 (result ++ [id])
      else pure (result, it1)

/-- `parse_id_list`: parses a braced, comma separated list of identifiers. -/
def parse_id_list (it : List Char) : Except Err (List (List Char) × List Char) := do
  let (open_brace, it1) ← parse_char it '\x7b'
  if !open_brace then throw (Err.parser_exception "expected '\x7b'")
  else
    let (id, it2) ← parse_id it1
    let (result, it3) ← id_list_loop (it2.length + 1) it2 [id]
    let (close_brace, it4) ← parse_char it3 '\x7d'
    if !close_brace then throw (Err.parser_exception "expected '\x7d'")
    else if result.isEmpty then throw (Err.parser_exception "expected non-empty list")
    else pure (result, it4)

/-- `parse_syms`: the characters of an identifier. -/
def parse_syms (it : List Char) : Except Err (List Char × List Char) := parse_id it

/-- `parse_state`: `State(parse_id(it))`. -/
def parse_state (it : List Char) : Except Err (State × List Char) := do
  let (id, it1) ← parse_id it
  pure (⟨id⟩, it1)

/-- The `while` loop of `parse_dirs`. -/
def dirs_loop : List Char → List Direction → List Direction × List Char
  | [], dirs => (dirs, [])
  | c :: cs, dirs =>
    if c == 'l' then dirs_loop cs (dirs ++ [Direction.L])
    else if c == 'r' then dirs_loop cs (dirs ++ [Direction.R])
    else if c == '*' then dirs_loop cs (dirs ++ [Direction.N])
    else (dirs, c :: cs)

/-- `parse_dirs`: a maximal run of direction characters. -/
def parse_dirs (it : List Char) : Except Err (List Direction × List Char) := do
  let it1 ← parse_skip it
  let (dirs, it2) := dirs_loop it1 []
  if dirs.isEmpty then throw (Err.parser_exception "expected directions")
  else pure (dirs, it2)

/-- The `while (it != _end)` loop of `parse_tran`; `n` is the static `_n`. -/
def tran_loop (n : Nat) : Nat → List Char → List Transition → Except Err (List Transition)
  | 0, _, _ => throw Err.fuel
  | fuel + 1, it, transitions =>
    match it with
    | [] => pure transitions
    | _ :: _ => do
      let (old_state, it1) ← parse_state it
      let (old_syms, it2) ← parse_syms it1
      let (new_syms, it3) ← parse_syms it2
      let (dirs, it4) ← parse_dirs it3
      let (new_state, it5) ← parse_state it4
      let it6 ← parse_skip it5
      tran_loop n fuel it6
        (transitions ++ [⟨old_state, new_state, old_syms, new_syms, dirs, n⟩])

/-- `parse_tran`: the transition list, up to the end of the text. -/
def parse_tran (n : Nat) (it : List Char) : Except Err (List Transition) := do
  let it1 ← parse_skip it
  tran_loop n (it1.length + 1) it1 []

/-- `std::stoi` on an identifier: the value of the leading run of decimal digits;
`std::invalid_argument` when there is none, `std::out_of_range` beyond `INT_MAX`. -/
def stoi (s : List Char) : Except Err Nat :=
  let digits := s.takeWhile (fun c => 48 ≤ c.toNat && c.toNat ≤ 57)
  if digits.isEmpty then throw Err.invalid_argument
  else
    let v := digits.foldl (fun acc d => 10 * acc + (d.toNat - 48)) 0
    if v > 2147483647 then throw Err.out_of_range else pure v

/-- The local variables of `parse` that live across the section loop.  `blank` is
uninitialised in the source until `#B` is parsed; it is never read. -/
structure Vars where
  states : List State
  input_syms : List Char
  tape_syms : List Char
  initial_state : State
  blank : Char
  tm_counter : Nat
  deriving DecidableEq, Repr

/-- The initial values of the local variables of `parse`. -/
def Vars.init : Vars :=
  { states := [], input_syms := [], tape_syms := [], initial_state := ⟨[]⟩,
    blank := '\x00', tm_counter := 0 }

/-- `push_back(str.at(0))` for every `str` of an identifier list. -/
def first_chars : List (List Char) → Except Err (List Char)
  | [] => pure []
  | str :: rest => do
    let c ← at_ str 0
    let cs ← first_chars rest
    pure (c :: cs)

/-- The `switch (ch)` of `parse` for the six sections other than `#N`: the variables
and the iterator after the section, to continue the loop with. -/
def parse_section (ch : Char) (v : Vars) (it : List Char) : Except Err (Vars × List Char) :=
  let v1 := { v with tm_counter := v.tm_counter + 1 }
  if ch == 'Q' then do
    let (eq, it1) ← parse_char it '='
    if !eq then throw (Err.parser_exception "expected '='")
    else
      let (ids, it2) ← parse_id_list it1
      pure ({ v1 with states := v1.states ++ ids.map State.mk }, it2)
  else if ch == 'S' then do
    let (eq, it1) ← parse_char it '='
    if !eq then throw (Err.parser_exception "expected '='")
    else
      let (ids, it2) ← parse_id_list it1
      let cs ← first_chars ids
      pure ({ v1 with input_syms := v1.input_syms ++ cs }, it2)
  else if ch == 'G' then do
    let (eq, it1) ← parse_char it '='
    if !eq then throw (Err.parser_exception "expected '='")
    else
      let (ids, it2) ← parse_id_list it1
      let cs ← first_chars ids
      pure ({ v1 with tape_syms := v1.tape_syms ++ cs }, it2)
  else if ch == 'q' then do
    let (zero, it1) ← parse_char it '0'
    if !zero then throw (Err.parser_exception "expected 'q0'")
    else
      let (eq, it2) ← parse_char it1 '='
      if !eq then throw (Err.parser_exception "expected '='")
      else
        let (id, it3) ← parse_id it2
        pure ({ v1 with initial_state := ⟨id⟩ }, it3)
  else if ch == 'B' then do
    let (eq, it1) ← parse_char it '='
    if !eq then throw (Err.parser_exception "expected '='")
    else
      let it2 ← parse_skip it1
      match it2 with
      | [] => throw Err.past_end
      | b :: it3 => pure ({ v1 with blank := b }, it3)
  else if ch == 'F' then do
    let (eq, it1) ← parse_char it '='
    if !eq then throw (Err.parser_exception "expected '='")
    else
      let (_, it2) ← parse_id_list it1
      pure (v1, it2)
  else throw (Err.parser_exception "expected Q, S, G, q0, B, F, N")

/-- The `case 'N'` of `parse`: the gate on `tm_counter`, the tape count, the
transition list and the construction of the machine. -/
def parse_N (input : List Char) (v : Vars) (it : List Char) : Except Err Machine :=
  if v.tm_counter != 6 then throw (Err.parser_exception "expected complete .tm file")
  else do
    let (eq, it1) ← parse_char it '='
    if !eq then throw (Err.parser_exception "expected '='")
    else
      let it2 ← parse_skip it1
      let (id, it3) ← parse_id it2
      let n ← stoi id
      let transitions ← parse_tran n it3
      pure (Machine.ctor n input transitions v.initial_state)

/-- The section loop `while (it != _end)` of `parse`. -/
def parse_loop (input : List Char) : Nat → Vars → List Char → Except Err Machine
  | 0, _, _ => throw Err.fuel
  | fuel + 1, v, it =>
    match it with
    | [] => throw (Err.parser_exception "expected complete .tm file")
    | _ :: _ => do
      let it1 ← parse_skip it
      match it1 with
      | [] => throw (Err.parser_exception "expected '#'")
      | ch :: it2 =>
        if ch == '#' then
          match it2 with
          | [] => throw (Err.parser_exception "expected Q, S, G, q0, B, F, N")
          | ch2 :: it3 =>
            if ch2 == 'N' then parse_N input v it3
            else do
              let (v1, it4) ← parse_section ch2 v it3
              parse_loop input fuel v1 it4
        else throw (Err.parser_exception "expected '#'")

/-- `parser::parse(program, input)`.  Every pass of the section loop consumes at least
the two characters of a section tag, so `program.size() + 1` passes are never used up. -/
def parse (program : List Char) (input : List Char) : Except Err Machine :=
  parse_loop input (program.length + 1) Vars.init program

end parser

/-! ## Definitions used to state the properties -/

/-- The nodes that hold the word `w` in consecutive cells, indexed upwards from `i`. -/
def cells : List Char → Int → List Node
  | [], _ => []
  | c :: cs, i => ⟨c, i⟩ :: cells cs (i + 1)

/-- The test `Transition::match` makes at one tape position. -/
def pos_ok (o c : Char) : Prop := o = c ∨ (o = '*' ∧ c ≠ '_')

instance (o c : Char) : Decidable (pos_ok o c) := inferInstanceAs (Decidable (_ ∨ _))

/-- The change of the cursor index a move makes: `-1` for `L`, `+1` for `R`, `0` for
`N`. -/
def Direction.offset : Direction → Int
  | Direction.L => -1
  | Direction.R => 1
  | Direction.N => 0

/-- What the body of the inner loop of `Machine::step` does to one tape: the result
symbol is written unless it is the wildcard, then the tape moves. -/
def apply_tape (ns : Char) (d : Direction) (tp : Tape) : Tape :=
  (if ns != '*' then tp.write ns else tp).move d

/-- The representation invariant of a machine: the tape count does not exceed the
number of tapes, and every tape is well formed. -/
def Machine.WF (m : Machine) : Prop :=
  m.n_tape ≤ m.tapes.length ∧ ∀ tp ∈ m.tapes, tp.WF

instance (m : Machine) : Decidable m.WF := inferInstanceAs (Decidable (_ ∧ _))

/-- Equality of results is decidable. -/
instance decEqExcept {α : Type} [DecidableEq α] : DecidableEq (Except Err α)
  | Except.ok a, Except.ok b =>
    if h : a = b then isTrue (by rw [h]) else isFalse (fun e => h (by injection e))
  | Except.error a, Except.error b =>
    if h : a = b then isTrue (by rw [h]) else isFalse (fun e => h (by injection e))
  | Except.ok _, Except.error _ => isFalse (fun e => by injection e)
  | Except.error _, Except.ok _ => isFalse (fun e => by injection e)

/-- A one-tape sample: the rule `q 0 1 r p`. -/
def sample_rule : Transition := ⟨⟨['q']⟩, ⟨['p']⟩, ['0'], ['1'], [Direction.R], 1⟩

/-- A one-tape sample machine in state `q` whose tape holds `1`, which `sample_rule`
does not match. -/
def sample_halted : Machine := Machine.ctor 1 ['1'] [sample_rule] ⟨['q']⟩

/-- A two-tape sample: the rule `q 0_ 1 r* p`, whose result symbols cover only tape 0. -/
def short_rule : Transition :=
  ⟨⟨['q']⟩, ⟨['p']⟩, ['0', '_'], ['1'], [Direction.R, Direction.N], 2⟩

/-- The two-tape machine built for `short_rule` and the input word `0`. -/
def short_machine : Machine := Machine.ctor 2 ['0'] [short_rule] ⟨['q']⟩

/-- A one-tape sample machine in state `q` whose tape holds `0`, with `sample_rule`
declared twice, the second time with another effect. -/
def sample_running : Machine :=
  Machine.ctor 1 ['0']
    [sample_rule, ⟨⟨['q']⟩, ⟨['r']⟩, ['0'], ['0'], [Direction.L], 1⟩] ⟨['q']⟩

/-- A specification text with two tapes whose only rule is `short_rule`. -/
def short_program : List Char :=
  "#Q = {q,p}\n#S = {0}\n#G = {0,1,_}\n#q0 = q\n#B = _\n#F = {p}\n#N = 2\nq 0_ 1 r* p\n".toList

/-- A specification text that declares the tape count 0. -/
def zero_tapes_program : List Char :=
  "#Q = {q}\n#S = {0}\n#G = {0,_}\n#q0 = q\n#B = _\n#F = {q}\n#N = 0\n".toList

/-- The specification text of the end-to-end example: states `q0`, `q1`, input
alphabet `0`, `1`, initial state `q0`, blank `_`, one tape, the rule `q0 0 1 r q1`. -/
def flip_program : List Char :=
  ("; writes 1 over a leading 0\n#Q = {q0,q1}\n#S = {0,1}\n#G = {0,1,_}\n#q0 = q0\n"
    ++ "#B = _\n#F = {q1}\n#N = 1\nq0 0 1 r q1\n").toList

/-- The machine `flip_program` describes, on the input word `0`. -/
def flip_machine : Machine :=
  Machine.ctor 1 ['0'] [⟨⟨['q', '0']⟩, ⟨['q', '1']⟩, ['0'], ['1'], [Direction.R], 1⟩]
    ⟨['q', '0']⟩

/-- `Reaches k v it w jt`: starting the section loop of `parse` with the variables `v`
at the iterator `it`, `k` passes of the loop, each of them through a section other
than `#N` that is parsed without an exception, lead to the variables `w` and the
iterator `jt`. -/
inductive parser.Reaches : Nat → parser.Vars → List Char → parser.Vars → List Char → Prop where
  | start (v : parser.Vars) (it : List Char) : parser.Reaches 0 v it v it
  | pass (k : Nat) (v v1 w : parser.Vars) (it it3 it4 jt : List Char) (ch : Char) :
      parser.parse_skip it = Except.ok ('#' :: ch :: it3) → ch ≠ 'N' →
      parser.parse_section ch v it3 = Except.ok (v1, it4) →
      parser.Reaches k v1 it4 w jt → parser.Reaches (k + 1) v it w jt

/-- A text that declares `#Q` six times and no other section before `#N`. -/
def six_states_program : List Char :=
  "#Q = {a}\n#Q = {a}\n#Q = {a}\n#Q = {a}\n#Q = {a}\n#Q = {a}\n#N = 1\n".toList

/-- A text in which `#N` comes after the single section `#Q`. -/
def early_count_program : List Char := "#Q = {a}\n#N = 1\na 0 1 r a\n".toList

/-! ## Checker -/

/-- The class `Checker` of `checker.hh`: `_tape_syms` and `_input_syms`. -/
structure Checker where
  tape_syms : List Char
  input_syms : List Char
  deriving DecidableEq, Repr

/-- The `for` loop of `Checker::check`, with `k` iterations left and the loop variable at
`i`.  `std::find` returning `end()` is the linear search finding nothing. -/
def Checker.check_loop (ck : Checker) (input : List Char) : Nat → Nat → Except Err Unit
  | 0, _ => pure ()
  | k + 1, i => do
    let ch ← at_ input i
    if (ck.input_syms.find? (fun x => x == ch)).isNone then throw (Err.input_exception i)
    else Checker.check_loop ck input k (i + 1)

/-- `Checker::check(input)`: returns normally, or throws `input_exception(i)`. -/
def Checker.check (ck : Checker) (input : List Char) : Except Err Unit :=
  Checker.check_loop ck input input.length 0

/-- The driver's side of the contract: `step` called once for every flag of the list,
whatever each call returns; the results of the calls and the machine after the last. -/
def Machine.run : List Bool → Machine → Except Err (List Bool × Machine)
  | [], m => pure ([], m)
  | b :: bs, m => do
    let (r, m1) ← m.step b
    let (rs, m2) ← Machine.run bs m1
    pure (r :: rs, m2)

/-- A machine configuration is reachable when it is built by the constructor and then
changed only by calls of `step` that return. -/
inductive MReachable : Machine → Prop where
  | ctor (n : Nat) (input : List Char) (transitions : List Transition) (initial_state : State) :
      MReachable (Machine.ctor n input transitions initial_state)
  | step (m out : Machine) (is_verbose r : Bool) :
      MReachable m → m.step is_verbose = Except.ok (r, out) → MReachable out

/-- No linked cell of the tape holds the wildcard, and the blank of the tape is not the
wildcard. -/
def Tape.no_wildcard (t : Tape) : Prop :=
  t.blank ≠ '*' ∧ ∀ nd ∈ t.nodes, nd.content ≠ '*'

/-- The machine `flip_machine` after a silent and a verbose call of `step`. -/
def flip_halted : Machine :=
  { n := 1
    tapes := [⟨'_', [⟨'1', 0⟩], ⟨'_', 1⟩, []⟩]
    transitions := [⟨⟨['q', '0']⟩, ⟨['q', '1']⟩, ['0'], ['1'], [Direction.R], 1⟩]
    state := ⟨['q', '1']⟩
    n_step := 2 }

/-- What can be observed of a tape: the cursor index, the symbol under the cursor,
`to_string()` and `to_vec()`. -/
def Tape.observe (t : Tape) : Int × Char × List Char × List (Char × Int) :=
  (t.cur_index, t.cur_sym, t.to_string, t.to_vec.1)

/-- What can be observed of a machine configuration: the control state, the step
counter and the observations of its tapes. -/
def Machine.observe (m : Machine) :
    State × Nat × List (Int × Char × List Char × List (Char × Int)) :=
  (m.state, m.n_step, m.tapes.map Tape.observe)

/-- The machine with every tape compacted. -/
def Machine.compact (m : Machine) : Machine := { m with tapes := m.tapes.map Tape.gc }

/-- A reachable sample tape: the word `a`, then a move to the right, which links a blank
cell, and a move back. -/
def sample_tape : Tape := ((Tape.ctor '_' ['a']).move Direction.R).move Direction.L

/-- The direction a direction character stands for in `parse_dirs`. -/
def parser.to_dir (c : Char) : Direction :=
  if c == 'l' then Direction.L else if c == 'r' then Direction.R else Direction.N

/-- A transition tuple `STATE SYMS1 SYMS2 DIRS STATE2` as it is written, with the
whitespace after each of its five fields. -/
structure parser.Tuple where
  state : List Char
  gap1 : List Char
  syms1 : List Char
  gap2 : List Char
  syms2 : List Char
  gap3 : List Char
  dirs : List Char
  gap4 : List Char
  state2 : List Char
  gap5 : List Char
  deriving DecidableEq, Repr

/-- The text of a tuple. -/
def parser.Tuple.text (t : parser.Tuple) : List Char :=
  t.state ++ (t.gap1 ++ (t.syms1 ++ (t.gap2 ++ (t.syms2 ++ (t.gap3 ++ (t.dirs ++ (t.gap4
    ++ (t.state2 ++ t.gap5))))))))

/-- The text of a list of tuples, one after the other. -/
def parser.tuples_text : List parser.Tuple → List Char
  | [] => []
  | t :: ts => t.text ++ parser.tuples_text ts

/-- An identifier: a non-empty run of letters, digits and underscores. -/
def parser.is_ident (s : List Char) : Prop := s ≠ [] ∧ ∀ c ∈ s, parser.is_id_char c = true

/-- A run of whitespace, possibly empty. -/
def parser.is_space (g : List Char) : Prop := ∀ c ∈ g, parser.isspace c = true

/-- A tuple is well written when its states and symbol lists are identifiers, its
directions are a non-empty run of `l`, `r`, `*`, and its fields are separated by
non-empty whitespace; what follows it is whitespace. -/
def parser.Tuple.valid (t : parser.Tuple) : Prop :=
  parser.is_ident t.state ∧ parser.is_ident t.syms1 ∧ parser.is_ident t.syms2
    ∧ parser.is_ident t.state2
    ∧ (t.dirs ≠ [] ∧ ∀ c ∈ t.dirs, c = 'l' ∨ c = 'r' ∨ c = '*')
    ∧ (t.gap1 ≠ [] ∧ parser.is_space t.gap1) ∧ (t.gap2 ≠ [] ∧ parser.is_space t.gap2)
    ∧ (t.gap3 ≠ [] ∧ parser.is_space t.gap3) ∧ (t.gap4 ≠ [] ∧ parser.is_space t.gap4)
    ∧ parser.is_space t.gap5

/-- A list of well written tuples, each separated from the next by non-empty
whitespace; `more` says that text follows the list, from which the last tuple is then
separated too. -/
def parser.tuples_ok (more : Prop) : List parser.Tuple → Prop
  | [] => True
  | t :: ts => t.valid ∧ ((ts ≠ [] ∨ more) → t.gap5 ≠ []) ∧ parser.tuples_ok more ts

/-- The transition a tuple stands for, with the tape count `n`. -/
def parser.Tuple.transition (n : Nat) (t : parser.Tuple) : Transition :=
  ⟨⟨t.state⟩, ⟨t.state2⟩, t.syms1, t.syms2, t.dirs.map parser.to_dir, n⟩

instance (g : List Char) : Decidable (parser.is_space g) :=
  inferInstanceAs (Decidable (∀ c ∈ g, parser.isspace c = true))

instance (s : List Char) : Decidable (parser.is_ident s) :=
  inferInstanceAs (Decidable (_ ∧ _))

instance (t : parser.Tuple) : Decidable t.valid :=
  inferInstanceAs (Decidable (_ ∧ _))

/-- The tuple `q0 0 1 r q1` of `flip_program`, up to the end of its line. -/
def flip_tuple : parser.Tuple :=
  ⟨['q', '0'], [' '], ['0'], [' '], ['1'], [' '], ['r'], [' '], ['q', '1'], ['\n']⟩

/-- The variables of `parse` when it reaches the `#N` section of `flip_program`. -/
def flip_vars : parser.Vars :=
  { states := [⟨['q', '0']⟩, ⟨['q', '1']⟩], input_syms := ['0', '1'],
    tape_syms := ['0', '1', '_'], initial_state := ⟨['q', '0']⟩, blank := '_',
    tm_counter := 6 }

/-- A specification text like `flip_program` (without its comment line) whose only tuple
has a `SYMS1` that begins with the wildcard. -/
def star_program : List Char :=
  ("\n#Q = {q0,q1}\n#S = {0,1}\n#G = {0,1,_}\n#q0 = q0\n"
    ++ "#B = _\n#F = {q1}\n#N = 1\nq0 *0 1 r q1\n").toList

/-- The text of `flip_program` before the character that `#B` declares. -/
def blank_pre : List Char :=
  "; writes 1 over a leading 0\n#Q = {q0,q1}\n#S = {0,1}\n#G = {0,1,_}\n#q0 = q0\n#B = ".toList

/-- The text of `flip_program` after the character that `#B` declares. -/
def blank_post : List Char := "\n#F = {q1}\n#N = 1\nq0 0 1 r q1\n".toList

/-- The variables of `parse` when it reaches the `#B` section of `flip_program`. -/
def before_blank_vars : parser.Vars :=
  { states := [⟨['q', '0']⟩, ⟨['q', '1']⟩], input_syms := ['0', '1'],
    tape_syms := ['0', '1', '_'], initial_state := ⟨['q', '0']⟩, blank := '\x00',
    tm_counter := 4 }

/-! ## Tape, at the level of nodes and links

The zipper identifies the linked nodes with two lists.  This section embeds the same
functions on the nodes themselves, with `_next` and `_prev` as addresses into a heap, to
state the properties that speak of the links and of the sentinels; the theorems relate
the two embeddings. -/

/-- A `Node` in the heap: the links `_next` and `_prev` are addresses.  `Node` is
declared in `machine.hh`, which is not among the sources; the order `_next`, `_prev`,
`_content`, `_index` is the one under which the initialisers
`Node{_cur, _lm, _blank, _cur->_index - 1}` and `Node{_rm, _cur, _blank, _cur->_index + 1}`
of `Tape::move` link the new node between the sentinel and the cursor, the way the
constructor links its three nodes. -/
structure HeapNode where
  next : Nat
  prev : Nat
  content : Char
  index : Int

/-- A `Tape` with its nodes in a heap: `heap` maps an address to the node stored there,
`top` is the address the next `make_shared` returns, `lm`, `rm` and `cur` are the
pointers `_lm`, `_rm` and `_cur`.  A node that is no longer linked stays in the heap. -/
structure HeapTape where
  blank : Char
  heap : Nat → HeapNode
  top : Nat
  lm : Nat
  rm : Nat
  cur : Nat

namespace HeapTape

/-- Modelled from the spec: `Tape::write` of `machine.hh` (not among the sources),
which overwrites the cursor cell's content. -/
def write (t : HeapTape) (ch : Char) : HeapTape :=
  { t with heap := Function.update t.heap t.cur { t.heap t.cur with content := ch } }

/-- `Tape::move`, statement by statement. -/
def move (t : HeapTape) : Direction → HeapTape
  | Direction.L =>
    if (t.heap t.cur).prev == t.lm then
      let h1 := Function.update t.heap t.top
        ⟨t.cur, t.lm, t.blank, (t.heap t.cur).index - 1⟩
      let h2 := Function.update h1 t.cur { h1 t.cur with prev := t.top }
      let h3 := Function.update h2 t.lm { h2 t.lm with next := (h2 t.cur).prev }
      { t with heap := h3, top := t.top + 1, cur := (h3 t.cur).prev }
    else { t with cur := (t.heap t.cur).prev }
  | Direction.R =>
    if (t.heap t.cur).next == t.rm then
      let h1 := Function.update t.heap t.top
        ⟨t.rm, t.cur, t.blank, (t.heap t.cur).index + 1⟩
      let h2 := Function.update h1 t.cur { h1 t.cur with next := t.top }
      let h3 := Function.update h2 t.rm { h2 t.rm with prev := (h2 t.cur).next }
      { t with heap := h3, top := t.top + 1, cur := (h3 t.cur).next }
    else { t with cur := (t.heap t.cur).next }
  | Direction.N => t

/-- The first loop of `Tape::gc`: while `_lm->_next` is blank and is not `_cur`, unlink
it. -/
def gc_left : Nat → HeapTape → Except Err HeapTape
  | 0, _ => throw Err.fuel
  | fuel + 1, t =>
    if (t.heap (t.heap t.lm).next).content == t.blank && (t.heap t.lm).next != t.cur then
      let h1 := Function.update t.heap t.lm
        { t.heap t.lm with next := (t.heap (t.heap t.lm).next).next }
      let h2 := Function.update h1 (h1 t.lm).next { h1 (h1 t.lm).next with prev := t.lm }
      gc_left fuel { t with heap := h2 }
    else pure t

/-- The second loop of `Tape::gc`: while `_rm->_prev` is blank and is not `_cur`, unlink
it. -/
def gc_right : Nat → HeapTape → Except Err HeapTape
  | 0, _ => throw Err.fuel
  | fuel + 1, t =>
    if (t.heap (t.heap t.rm).prev).content == t.blank && (t.heap t.rm).prev != t.cur then
      let h1 := Function.update t.heap t.rm
        { t.heap t.rm with prev := (t.heap (t.heap t.rm).prev).prev }
      let h2 := Function.update h1 (h1 t.rm).prev { h1 (h1 t.rm).prev with next := t.rm }
      gc_right fuel { t with heap := h2 }
    else pure t

/-- `Tape::gc`.  Each pass of a loop unlinks one of the nodes allocated so far, so
`top + 1` passes are never used up. -/
def gc (t : HeapTape) : Except Err HeapTape := do
  let t1 ← gc_left (t.top + 1) t
  gc_right (t.top + 1) t1

/-- The loop `for (it = _lm->_next; it != _rm; it = it->_next)` of `to_vec`: the
addresses it visits. -/
def walk (t : HeapTape) : Nat → Nat → Except Err (List Nat)
  | 0, _ => throw Err.fuel
  | fuel + 1, it =>
    if it != t.rm then do
      let rest ← walk t fuel (t.heap it).next
      pure (it :: rest)
    else pure []

/-- The cells between the sentinels, in `_next` order. -/
def cells (t : HeapTape) : Except Err (List Nat) := walk t (t.top + 1) (t.heap t.lm).next

/-- The first statements of `Tape::Tape(char blank, std::string input)`, up to
`std::reverse`: `_cur` is allocated at address 0, `_lm` at 1 and `_rm` at 2, each
sentinel linked to itself on its outer side. -/
def init (blank : Char) (size : Nat) : HeapTape :=
  { blank := blank
    heap := fun a =>
      match a with
      | 0 => ⟨2, 1, blank, (size : Int) - 1⟩
      | 1 => ⟨0, 1, blank, -2147483648⟩
      | _ => ⟨2, 0, blank, 2147483647⟩
    top := 3
    lm := 1
    rm := 2
    cur := 0 }

/-- `Tape::Tape(char blank, std::string input)`. -/
def ctor (blank : Char) (input : List Char) : HeapTape :=
  (input.reverse.foldl (fun t ch => (t.write ch).move Direction.L)
    (init blank input.length)).move Direction.R

/-- The payload of the node at an address. -/
def node (t : HeapTape) (a : Nat) : Node := ⟨(t.heap a).content, (t.heap a).index⟩

end HeapTape

/-- A heap tape is reachable when it is built by the constructor and then changed only
by `write`, `move` and `gc`. -/
inductive HeapReachable : HeapTape → Prop where
  | ctor (blank : Char) (input : List Char) : HeapReachable (HeapTape.ctor blank input)
  | write (t : HeapTape) (ch : Char) : HeapReachable t → HeapReachable (t.write ch)
  | move (t : HeapTape) (d : Direction) : HeapReachable t → HeapReachable (t.move d)
  | gc (t u : HeapTape) : HeapReachable t → t.gc = Except.ok u → HeapReachable u

/-- The nodes at `a` and `b` are linked to each other: `a->_next` is `b` and
`b->_prev` is `a`. -/
def linked (h : Nat → HeapNode) (a b : Nat) : Prop := (h a).next = b ∧ (h b).prev = a

/-- The heap tape `t` represents the zipper `z`: the addresses `ls` (from `_cur->_prev`
towards `_lm`) and `rs` (from `_cur->_next` towards `_rm`) are distinct allocated nodes,
linked in both directions from `_lm` to `_rm` through `_cur`, and carry the payloads of
`z`. -/
structure HeapTape.Rep (t : HeapTape) (z : Tape) (ls rs : List Nat) : Prop where
  blank : t.blank = z.blank
  left : ls.map t.node = z.left
  cur : t.node t.cur = z.cur
  right : rs.map t.node = z.right
  nodup : (t.lm :: t.rm :: t.cur :: (ls ++ rs)).Nodup
  links : (t.lm :: (ls.reverse ++ t.cur :: (rs ++ [t.rm]))).Chain' (linked t.heap)
  bound : ∀ a ∈ t.lm :: t.rm :: t.cur :: (ls ++ rs), a < t.top

/-- A heap tape built from the word `a`, moved right onto a fresh cell and written. -/
def sample_heap_tape : HeapTape := ((HeapTape.ctor '_' ['a']).move Direction.R).write 'b'

/-! ## Theorems -/

/-! ### The tape constructor -/

theorem ctor_fold (b : Char) (w : List Char) (c0 : Char) (i : Int) (r : List Node) :
    w.reverse.foldl (fun t ch => (t.write ch).move Direction.L) (⟨b, [], ⟨c0, i⟩, r⟩ : Tape)
      = ⟨b, [], ⟨if w = [] then c0 else b, i - w.length⟩, cells w (i - w.length + 1) ++ r⟩ := by
  induction w generalizing c0 i r with
  | nil => simp [cells]
  | cons c cs ih =>
    simp only [List.reverse_cons, List.foldl_append, List.foldl_cons, List.foldl_nil, ih]
    simp only [Tape.write, Tape.move, cells, List.length_cons]
    simp
    constructor
    · ring
    · constructor
      · ring
      · congr 1; ring

theorem ctor_nil (b : Char) : Tape.ctor b [] = ⟨b, [⟨b, -1⟩], ⟨b, 0⟩, []⟩ := by
  simp [Tape.ctor, Tape.move]

theorem ctor_cons (b c : Char) (cs : List Char) :
    Tape.ctor b (c :: cs) = ⟨b, [⟨b, -1⟩], ⟨c, 0⟩, cells cs 1⟩ := by
  unfold Tape.ctor
  simp only []
  rw [ctor_fold]
  simp [Tape.move, cells]


theorem cells_content (cs : List Char) (i : Int) :
    (cells cs i).map (fun nd => nd.content) = cs := by
  induction cs generalizing i with
  | nil => rfl
  | cons c cs ih => simp [cells, ih]

theorem cells_pairs (cs : List Char) (k : Nat) :
    (cells cs (k : Int)).map (fun nd => (nd.content, nd.index))
      = (cs.enumFrom k).map (fun p => (p.2, (p.1 : Int))) := by
  induction cs generalizing k with
  | nil => rfl
  | cons c cs ih =>
    have h := ih (k + 1)
    simp only [Nat.cast_add, Nat.cast_one] at h
    simp [cells, List.enumFrom, h]

theorem cells_mem_content (cs : List Char) (i : Int) (nd : Node) (h : nd ∈ cells cs i) :
    nd.content ∈ cs := by
  induction cs generalizing i with
  | nil => simp [cells] at h
  | cons c cs ih =>
    simp only [cells, List.mem_cons] at h
    rcases h with h | h
    · simp [h]
    · exact List.mem_cons_of_mem _ (ih _ h)

theorem rdropWhile_noblank (b : Char) (l : List Node) (h : ∀ nd ∈ l, nd.content ≠ b) :
    l.rdropWhile (fun nd => nd.content == b) = l := by
  rw [List.rdropWhile_eq_self_iff]
  intro hl
  have := h _ (List.getLast_mem hl)
  simpa using this

theorem strip_cons_self (s : List Char) (b : Char) : Tape.strip (b :: s) b = Tape.strip s b := by
  simp [Tape.strip, List.dropWhile]

theorem strip_noblank (w : List Char) (b : Char) (h : b ∉ w) : Tape.strip w b = w := by
  unfold Tape.strip
  have h1 : w.dropWhile (fun c => c == b) = w := by
    cases w with
    | nil => rfl
    | cons c cs =>
      have : c ≠ b := fun e => h (by simp [e])
      simp [List.dropWhile_cons, this]
  rw [h1, List.rdropWhile_eq_self_iff]
  intro hl
  have hm := List.getLast_mem hl
  have : w.getLast hl ≠ b := fun e => h (e ▸ hm)
  simpa using this

/-- The constructed tape exports the word it was built from, when the word has no
blank. -/
theorem ctor_to_string (b : Char) (w : List Char) (hw : b ∉ w) :
    (Tape.ctor b w).to_string = w := by
  cases w with
  | nil => simp [ctor_nil, Tape.to_string, Tape.nodes, strip_cons_self, Tape.strip]
  | cons c cs =>
    rw [ctor_cons]
    simp only [Tape.to_string, Tape.nodes, List.reverse_cons, List.reverse_nil, List.nil_append,
      List.singleton_append, List.map_cons, cells_content, strip_cons_self]
    exact strip_noblank _ _ hw

/-- C5: round trip.  For every blank `b` and every word `w` that does not contain `b`
(the empty word included), the tape built by `Tape(b, w)` exports exactly `w` from
`to_string()`. -/
theorem ctor_to_string_roundtrip (b : Char) (w : List Char) (hw : b ∉ w) :
    (Tape.ctor b w).to_string = w :=
  ctor_to_string b w hw

theorem ctor_to_string_roundtrip_witness :
    '_' ∉ "0110".toList ∧ (Tape.ctor '_' "0110".toList).to_string = "0110".toList :=
  ⟨by decide, ctor_to_string_roundtrip '_' "0110".toList (by decide)⟩

/-- C6: for every blank `b` and every word `w` not containing `b`, after `Tape(b, w)`
the cursor index is 0; the symbol under the cursor is `w[0]` when `w` is non-empty and
`b` when it is empty; and `to_vec()` is `[(w[0],0), ..., (w[n-1],n-1)]` when `w` is
non-empty and the single pair `[(b,0)]` when it is empty. -/
theorem ctor_cursor_and_to_vec (b : Char) (w : List Char) (hw : b ∉ w) :
    (Tape.ctor b w).cur_index = 0
      ∧ (Tape.ctor b w).cur_sym = w.headD b
      ∧ (Tape.ctor b w).to_vec.1
          = if w = [] then [(b, 0)] else w.enum.map (fun p => (p.2, (p.1 : Int))) := by
  cases w with
  | nil => simp [ctor_nil, Tape.cur_index, Tape.cur_sym, Tape.to_vec, Tape.gc, Tape.nodes,
      List.rdropWhile_singleton]
  | cons c cs =>
    rw [ctor_cons]
    have hr : (cells cs 1).rdropWhile (fun nd => nd.content == b) = cells cs 1 := by
      apply rdropWhile_noblank
      intro nd hnd e
      exact hw (List.mem_cons_of_mem _ (e ▸ cells_mem_content _ _ _ hnd))
    have hp := cells_pairs cs 1
    simp only [Nat.cast_one] at hp
    simp [Tape.cur_index, Tape.cur_sym, Tape.to_vec, Tape.gc, Tape.nodes,
      List.rdropWhile_singleton, hr, List.enum, List.enumFrom, hp]

theorem ctor_cursor_and_to_vec_witness :
    '_' ∉ "ab".toList
      ∧ (Tape.ctor '_' "ab".toList).cur_index = 0
      ∧ (Tape.ctor '_' "ab".toList).cur_sym = "ab".toList.headD '_'
      ∧ (Tape.ctor '_' "ab".toList).to_vec.1
          = if "ab".toList = [] then [('_', 0)]
            else "ab".toList.enum.map (fun p => (p.2, (p.1 : Int))) :=
  ⟨by decide, ctor_cursor_and_to_vec '_' "ab".toList (by decide)⟩

/-- Running `gc` on a compacted tape changes nothing. -/
theorem gc_gc (t : Tape) : t.gc.gc = t.gc := by
  simp [Tape.gc, List.rdropWhile_idempotent]

/-- C9: compaction is idempotent.  For every tape (reachable or not), running `gc()`
twice leaves the tape as one run does, and a second `to_vec()` right after a first
returns the same list of (symbol, index) pairs and leaves the same tape. -/
theorem gc_idempotent (t : Tape) :
    t.gc.gc = t.gc ∧ t.to_vec.2.to_vec.1 = t.to_vec.1 ∧ t.to_vec.2.to_vec.2 = t.to_vec.2 :=
  ⟨gc_gc t, by simp [Tape.to_vec, gc_gc], by simp [Tape.to_vec, gc_gc]⟩

/-! ### Moving and compacting -/

theorem strip_append_self (s : List Char) (b : Char) :
    Tape.strip (s ++ [b]) b = Tape.strip s b := by
  induction s with
  | nil => simp [Tape.strip, List.dropWhile_cons]
  | cons a s ih =>
    by_cases h : a = b
    · subst h
      simpa [strip_cons_self] using ih
    · have h1 : (a :: s ++ [b]).dropWhile (fun c => c == b) = a :: s ++ [b] := by
        simp [List.dropWhile_cons, h]
      have h2 : (a :: s).dropWhile (fun c => c == b) = a :: s := by
        simp [List.dropWhile_cons, h]
      unfold Tape.strip
      rw [h1, h2, List.rdropWhile_concat_pos]
      simp

theorem move_left_right (t : Tape) :
    (t.move Direction.L).move Direction.R = t
      ∨ (t.left = [] ∧ (t.move Direction.L).move Direction.R
          = { t with left := [⟨t.blank, t.cur.index - 1⟩] }) := by
  cases hl : t.left with
  | nil => right; simp [Tape.move, hl]
  | cons p ps => left; cases t; simp_all [Tape.move]

theorem move_right_left (t : Tape) :
    (t.move Direction.R).move Direction.L = t
      ∨ (t.right = [] ∧ (t.move Direction.R).move Direction.L
          = { t with right := [⟨t.blank, t.cur.index + 1⟩] }) := by
  cases hl : t.right with
  | nil => right; simp [Tape.move, hl]
  | cons p ps => left; cases t; simp_all [Tape.move]

/-- C10: for every tape (reachable or not), `move(L)` followed at once by `move(R)`,
and `move(R)` followed at once by `move(L)`, restore the cursor index and leave the
content as it was: the symbol under the cursor, `to_string()` and `to_vec()` are the
same as before the two moves. -/
theorem move_there_and_back (t : Tape) :
    (((t.move Direction.L).move Direction.R).cur_index = t.cur_index
      ∧ ((t.move Direction.L).move Direction.R).cur_sym = t.cur_sym
      ∧ ((t.move Direction.L).move Direction.R).to_string = t.to_string
      ∧ ((t.move Direction.L).move Direction.R).to_vec.1 = t.to_vec.1)
    ∧ (((t.move Direction.R).move Direction.L).cur_index = t.cur_index
      ∧ ((t.move Direction.R).move Direction.L).cur_sym = t.cur_sym
      ∧ ((t.move Direction.R).move Direction.L).to_string = t.to_string
      ∧ ((t.move Direction.R).move Direction.L).to_vec.1 = t.to_vec.1) := by
  constructor
  · rcases move_left_right t with h | ⟨hl, h⟩
    · rw [h]; exact ⟨rfl, rfl, rfl, rfl⟩
    · rw [h]
      refine ⟨rfl, rfl, ?_, ?_⟩
      · simp [Tape.to_string, Tape.nodes, hl, strip_cons_self]
      · simp [Tape.to_vec, Tape.gc, Tape.nodes, hl, List.rdropWhile_singleton]
  · rcases move_right_left t with h | ⟨hr, h⟩
    · rw [h]; exact ⟨rfl, rfl, rfl, rfl⟩
    · rw [h]
      refine ⟨rfl, rfl, ?_, ?_⟩
      · have := strip_append_self (t.blank :: (t.left.reverse ++ [t.cur]).map
          (fun nd => nd.content)) t.blank
        simpa [Tape.to_string, Tape.nodes, hr] using this
      · simp [Tape.to_vec, Tape.gc, Tape.nodes, hr, List.rdropWhile_singleton]

/-! ### Matching -/

theorem at_eq_ok {α : Type} (xs : List α) (i : Nat) (h : i < xs.length) :
    at_ xs i = Except.ok xs[i] := by
  simp [at_, List.getElem?_eq_getElem h]

theorem at_eq_error {α : Type} (xs : List α) (i : Nat) (h : xs.length ≤ i) :
    at_ xs i = Except.error Err.out_of_range := by
  simp [at_, List.getElem?_eq_none h]

theorem match_loop_spec (t : Transition) (syms : List Char) (k i : Nat)
    (hk : i + k = syms.length) (h : syms.length ≤ t.old_syms.length) :
    ∃ r, t.match_loop syms k i = Except.ok r
      ∧ (r = true ↔ ∀ j (hj : j < syms.length), i ≤ j → pos_ok t.old_syms[j] syms[j]) := by
  induction k generalizing i with
  | zero =>
    refine ⟨true, rfl, ?_⟩
    simp only [true_iff]
    intro j hj hij
    omega
  | succ k ih =>
    have hi : i < syms.length := by omega
    have hi2 : i < t.old_syms.length := by omega
    obtain ⟨r, hr, hiff⟩ := ih (i + 1) (by omega)
    unfold Transition.match_loop
    simp only [at_eq_ok _ _ hi, at_eq_ok _ _ hi2, bind, Except.bind, pure, Except.pure]
    by_cases ho : t.old_syms[i] = '*'
    · by_cases hc : syms[i] = '_'
      · refine ⟨false, by simp [ho, hc], ?_⟩
        simp only [Bool.false_eq_true, false_iff, not_forall]
        exact ⟨i, hi, le_rfl, by simp [pos_ok, ho, hc]⟩
      · refine ⟨r, by simp [ho, hc, hr], ?_⟩
        rw [hiff]
        constructor
        · intro hall j hj hij
          rcases Nat.eq_or_lt_of_le hij with e | l
          · subst e; exact Or.inr ⟨ho, hc⟩
          · exact hall j hj l
        · intro hall j hj hij
          exact hall j hj (by omega)
    · by_cases hc : syms[i] = t.old_syms[i]
      · refine ⟨r, by simp [ho, hc, hr], ?_⟩
        rw [hiff]
        constructor
        · intro hall j hj hij
          rcases Nat.eq_or_lt_of_le hij with e | l
          · subst e; exact Or.inl hc.symm
          · exact hall j hj l
        · intro hall j hj hij
          exact hall j hj (by omega)
      · refine ⟨false, by simp [ho, hc], ?_⟩
        simp only [Bool.false_eq_true, false_iff, not_forall]
        refine ⟨i, hi, le_rfl, ?_⟩
        simp only [pos_ok, not_or, not_and]
        exact ⟨fun e => hc e.symm, fun e => absurd e ho⟩

theorem state_ne_iff (s u : State) : (s != u) = true ↔ u.name ≠ s.name := by
  rw [bne_iff_ne]
  constructor
  · intro h e
    apply h
    cases s; cases u
    simp_all
  · intro h e
    apply h
    rw [e]

/-- C1: for every transition `t`, state `s` and list `syms` of current symbols with
`|syms| <= |t.old_syms|`, `Transition::match(s, syms)` returns normally, and it returns
true if and only if the trigger state name of `t` equals the name of `s` and, at every
position `i < |syms|`, either `t.old_syms[i]` equals `syms[i]` literally, or
`t.old_syms[i]` is the wildcard `*` and `syms[i]` is not the blank `_`.  In particular,
with a wildcard trigger at position `i` the match fails when `syms[i]` is the blank, and
for every other symbol it succeeds exactly when the state names agree and the other
positions pass. -/
theorem match_iff (t : Transition) (s : State) (syms : List Char)
    (h : syms.length ≤ t.old_syms.length) :
    (t.match_ s syms = Except.ok true ∨ t.match_ s syms = Except.ok false)
      ∧ (t.match_ s syms = Except.ok true ↔
          (t.old_state.name = s.name ∧ ∀ i (hi : i < syms.length),
            (t.old_syms[i] = syms[i] ∨ (t.old_syms[i] = '*' ∧ syms[i] ≠ '_'))))
      ∧ (∀ i (hi : i < syms.length), t.old_syms[i] = '*' → syms[i] = '_' →
          t.match_ s syms = Except.ok false)
      ∧ (∀ i (hi : i < syms.length), t.old_syms[i] = '*' → syms[i] ≠ '_' →
          (t.match_ s syms = Except.ok true ↔
            (t.old_state.name = s.name ∧ ∀ j (hj : j < syms.length), j ≠ i →
              (t.old_syms[j] = syms[j] ∨ (t.old_syms[j] = '*' ∧ syms[j] ≠ '_'))))) := by
  obtain ⟨r, hr, hiff⟩ := match_loop_spec t syms syms.length 0 (by omega) h
  have hall : (∀ j (hj : j < syms.length), 0 ≤ j → pos_ok t.old_syms[j] syms[j]) ↔
      (∀ i (hi : i < syms.length),
        (t.old_syms[i] = syms[i] ∨ (t.old_syms[i] = '*' ∧ syms[i] ≠ '_'))) := by
    constructor
    · intro H i hi; exact H i hi (Nat.zero_le _)
    · intro H j hj _; exact H j hj
  have main : t.match_ s syms = Except.ok true ↔
      (t.old_state.name = s.name ∧ ∀ i (hi : i < syms.length),
        (t.old_syms[i] = syms[i] ∨ (t.old_syms[i] = '*' ∧ syms[i] ≠ '_'))) := by
    unfold Transition.match_
    by_cases hs : t.old_state.name = s.name
    · have : ¬ ((s != t.old_state) = true) := by rw [state_ne_iff]; simpa using hs
      rw [if_neg this, hr, ← hall, ← hiff]
      constructor
      · intro e
        injection e with e
        exact ⟨hs, e⟩
      · rintro ⟨-, e⟩
        rw [e]
    · have : (s != t.old_state) = true := by rw [state_ne_iff]; exact hs
      simp [this, hs, pure, Except.pure]
  have total : t.match_ s syms = Except.ok true ∨ t.match_ s syms = Except.ok false := by
    unfold Transition.match_
    split
    · right; rfl
    · rw [hr]; cases r <;> simp
  refine ⟨total, main, ?_, ?_⟩
  · intro i hi ho hc
    rcases total with e | e
    · have := (main.1 e).2 i hi
      rw [ho, hc] at this
      simp at this
    · exact e
  · intro i hi ho hc
    rw [main]
    constructor
    · rintro ⟨hn, H⟩
      exact ⟨hn, fun j hj _ => H j hj⟩
    · rintro ⟨hn, H⟩
      refine ⟨hn, fun j hj => ?_⟩
      by_cases e : j = i
      · subst e; exact Or.inr ⟨ho, hc⟩
      · exact H j hj e

theorem match_iff_witness :
    ['a', '_'].length ≤ (⟨⟨['q']⟩, ⟨['p']⟩, ['*', '_'], ['b', 'b'], [Direction.L, Direction.R],
        2⟩ : Transition).old_syms.length
      ∧ (⟨⟨['q']⟩, ⟨['p']⟩, ['*', '_'], ['b', 'b'], [Direction.L, Direction.R], 2⟩ :
          Transition).match_ ⟨['q']⟩ ['a', '_'] = Except.ok true :=
  ⟨by decide,
    ((match_iff ⟨⟨['q']⟩, ⟨['p']⟩, ['*', '_'], ['b', 'b'], [Direction.L, Direction.R], 2⟩
      ⟨['q']⟩ ['a', '_'] (by decide)).2.1).2 (by decide)⟩

/-! ### The cells of a well-formed tape -/

theorem chain_right_spec (i : Int) (r : List Node) (h : Tape.chain_right i r = true) :
    (r.map (fun nd => nd.index)).Pairwise (fun a b => a < b)
      ∧ ∀ nd ∈ r, i < nd.index := by
  induction r generalizing i with
  | nil => simp
  | cons nd nds ih =>
    simp only [Tape.chain_right, Bool.and_eq_true, beq_iff_eq] at h
    obtain ⟨h1, h2⟩ := ih _ h.2
    refine ⟨?_, ?_⟩
    · simp only [List.map_cons, List.pairwise_cons, List.mem_map, forall_exists_index, and_imp,
        forall_apply_eq_imp_iff₂]
      exact ⟨fun x hx => by have := h2 x hx; omega, h1⟩
    · intro x hx
      rcases List.mem_cons.1 hx with e | hx
      · subst e; omega
      · have := h2 x hx; omega

theorem chain_left_spec (i : Int) (l : List Node) (h : Tape.chain_left i l = true) :
    (l.map (fun nd => nd.index)).Pairwise (fun a b => b < a)
      ∧ ∀ nd ∈ l, nd.index < i := by
  induction l generalizing i with
  | nil => simp
  | cons nd nds ih =>
    simp only [Tape.chain_left, Bool.and_eq_true, beq_iff_eq] at h
    obtain ⟨h1, h2⟩ := ih _ h.2
    refine ⟨?_, ?_⟩
    · simp only [List.map_cons, List.pairwise_cons, List.mem_map, forall_exists_index, and_imp,
        forall_apply_eq_imp_iff₂]
      exact ⟨fun x hx => by have := h2 x hx; omega, h1⟩
    · intro x hx
      rcases List.mem_cons.1 hx with e | hx
      · subst e; omega
      · have := h2 x hx; omega

/-- The indices of the cells of a well-formed tape increase strictly in `_next` order. -/
theorem nodes_sorted (t : Tape) (h : t.WF) :
    (t.nodes.map (fun nd => nd.index)).Pairwise (fun a b => a < b) := by
  obtain ⟨hl, hr⟩ := h
  obtain ⟨l1, l2⟩ := chain_left_spec _ _ hl
  obtain ⟨r1, r2⟩ := chain_right_spec _ _ hr
  simp only [Tape.nodes, List.map_append, List.map_reverse, List.map_cons]
  rw [List.pairwise_append]
  refine ⟨List.pairwise_reverse.2 l1, ?_, ?_⟩
  · simp only [List.pairwise_cons, List.mem_map, forall_exists_index, and_imp,
      forall_apply_eq_imp_iff₂]
    exact ⟨r2, r1⟩
  · intro a ha b hb
    simp only [List.mem_reverse, List.mem_map] at ha
    obtain ⟨x, hx, rfl⟩ := ha
    have := l2 x hx
    rcases List.mem_cons.1 hb with e | hb
    · omega
    · simp only [List.mem_map] at hb
      obtain ⟨y, hy, rfl⟩ := hb
      have := r2 y hy
      omega

/-- In a list whose indices increase strictly, looking a cell up by its index finds it. -/
theorem find_index_of_mem (l : List Node) (nd : Node)
    (hs : (l.map (fun x => x.index)).Pairwise (fun a b => a < b)) (hm : nd ∈ l) :
    l.find? (fun x => x.index == nd.index) = some nd := by
  induction l with
  | nil => simp at hm
  | cons a l ih =>
    simp only [List.map_cons, List.pairwise_cons, List.mem_map, forall_exists_index, and_imp,
      forall_apply_eq_imp_iff₂] at hs
    rcases List.mem_cons.1 hm with e | hm
    · subst e; simp
    · have := hs.1 nd hm
      have hne : ¬ ((a.index == nd.index) = true) := by
        simp only [beq_iff_eq]; omega
      have hf : (a :: l).find? (fun x => x.index == nd.index)
          = l.find? (fun x => x.index == nd.index) :=
        List.find?_cons_of_neg (p := fun x => x.index == nd.index) l hne
      rw [hf]
      exact ih hs.2 hm

/-- Reading a cell of a well-formed tape: the content of the node that carries the
index. -/
theorem read_at_of_mem (t : Tape) (h : t.WF) (nd : Node) (hm : nd ∈ t.nodes) :
    t.read_at nd.index = nd.content := by
  simp [Tape.read_at, find_index_of_mem _ _ (nodes_sorted t h) hm]

/-- Reading an index no node carries yields the blank. -/
theorem read_at_of_not_mem (t : Tape) (k : Int) (hm : ∀ nd ∈ t.nodes, nd.index ≠ k) :
    t.read_at k = t.blank := by
  have : t.nodes.find? (fun nd => nd.index == k) = none := by
    rw [List.find?_eq_none]
    intro x hx
    simpa using hm x hx
  simp [Tape.read_at, this]

theorem read_at_cur (t : Tape) (h : t.WF) : t.read_at t.cur_index = t.cur_sym :=
  read_at_of_mem t h t.cur (by simp [Tape.nodes])

theorem node_unique (t : Tape) (h : t.WF) (a b : Node) (ha : a ∈ t.nodes) (hb : b ∈ t.nodes)
    (e : a.index = b.index) : a = b := by
  have h1 := find_index_of_mem _ _ (nodes_sorted t h) ha
  have h2 := find_index_of_mem _ _ (nodes_sorted t h) hb
  rw [e, h2] at h1
  injection h1 with h1
  exact h1.symm

/-- A tape `u` reads like the tape `t` when every cell of `t` is a cell of `u` or is
blank and not indexed in `u`, and every cell of `u` is a cell of `t` or is blank. -/
theorem read_at_eq_of_nodes (t u : Tape) (ht : t.WF) (hu : u.WF) (hb : u.blank = t.blank)
    (h1 : ∀ nd ∈ t.nodes, nd ∈ u.nodes ∨
      (nd.content = t.blank ∧ ∀ x ∈ u.nodes, x.index ≠ nd.index))
    (h2 : ∀ nd ∈ u.nodes, nd ∈ t.nodes ∨
      (nd.content = t.blank ∧ ∀ x ∈ t.nodes, x.index ≠ nd.index))
    (k : Int) : u.read_at k = t.read_at k := by
  by_cases hk : ∃ nd ∈ t.nodes, nd.index = k
  · obtain ⟨nd, hnd, rfl⟩ := hk
    rw [read_at_of_mem t ht nd hnd]
    rcases h1 nd hnd with h | ⟨hc, hn⟩
    · exact read_at_of_mem u hu nd h
    · rw [read_at_of_not_mem u _ hn, hb, hc]
  · have hk2 : ∀ nd ∈ t.nodes, nd.index ≠ k := fun nd hnd e => hk ⟨nd, hnd, e⟩
    rw [read_at_of_not_mem t k hk2]
    by_cases hku : ∃ nd ∈ u.nodes, nd.index = k
    · obtain ⟨nd, hnd, rfl⟩ := hku
      rw [read_at_of_mem u hu nd hnd]
      rcases h2 nd hnd with h | ⟨hc, -⟩
      · exact absurd rfl (hk2 nd h)
      · exact hc
    · rw [read_at_of_not_mem u k (fun nd hnd e => hku ⟨nd, hnd, e⟩), hb]

theorem write_WF (t : Tape) (c : Char) (h : t.WF) : (t.write c).WF := h

theorem move_WF (t : Tape) (d : Direction) (h : t.WF) : (t.move d).WF := by
  obtain ⟨hl, hr⟩ := h
  cases d with
  | L =>
    cases hleft : t.left with
    | nil => simp [Tape.move, hleft, Tape.WF, Tape.chain_left, Tape.chain_right, hr]
    | cons p ps =>
      rw [hleft] at hl
      simp only [Tape.chain_left, Bool.and_eq_true, beq_iff_eq] at hl
      simp only [Tape.move, hleft, Tape.WF, Tape.chain_right, Bool.and_eq_true, beq_iff_eq]
      rw [hl.1]
      refine ⟨hl.2, by omega, ?_⟩
      simpa using hr
  | R =>
    cases hright : t.right with
    | nil => simp [Tape.move, hright, Tape.WF, Tape.chain_left, Tape.chain_right, hl]
    | cons p ps =>
      rw [hright] at hr
      simp only [Tape.chain_right, Bool.and_eq_true, beq_iff_eq] at hr
      simp only [Tape.move, hright, Tape.WF, Tape.chain_left, Bool.and_eq_true, beq_iff_eq]
      rw [hr.1]
      refine ⟨⟨by omega, ?_⟩, hr.2⟩
      simpa using hl
  | N => exact ⟨hl, hr⟩

theorem chain_left_initial (i : Int) (a b : List Node) (h : Tape.chain_left i (a ++ b) = true) :
    Tape.chain_left i a = true := by
  induction a generalizing i with
  | nil => rfl
  | cons x xs ih =>
    simp only [List.cons_append, Tape.chain_left, Bool.and_eq_true] at h ⊢
    exact ⟨h.1, ih _ h.2⟩

theorem chain_right_initial (i : Int) (a b : List Node)
    (h : Tape.chain_right i (a ++ b) = true) : Tape.chain_right i a = true := by
  induction a generalizing i with
  | nil => rfl
  | cons x xs ih =>
    simp only [List.cons_append, Tape.chain_right, Bool.and_eq_true] at h ⊢
    exact ⟨h.1, ih _ h.2⟩

/-- What `rdropWhile` removes is a suffix all of whose elements satisfy the test. -/
theorem rdropWhile_split {α : Type} (p : α → Bool) (l : List α) :
    ∃ rest, l = l.rdropWhile p ++ rest ∧ ∀ x ∈ rest, p x = true := by
  refine ⟨(l.reverse.takeWhile p).reverse, ?_, ?_⟩
  · have := List.takeWhile_append_dropWhile p l.reverse
    have h2 := congrArg List.reverse this
    simp only [List.reverse_append, List.reverse_reverse] at h2
    rw [List.rdropWhile]
    exact h2.symm
  · intro x hx
    rw [List.mem_reverse] at hx
    exact List.mem_takeWhile_imp hx

theorem gc_WF (t : Tape) (h : t.WF) : t.gc.WF := by
  obtain ⟨hl, hr⟩ := h
  obtain ⟨restl, el, -⟩ := rdropWhile_split (fun nd => nd.content == t.blank) t.left
  obtain ⟨restr, er, -⟩ := rdropWhile_split (fun nd => nd.content == t.blank) t.right
  rw [el] at hl
  rw [er] at hr
  exact ⟨chain_left_initial _ _ _ hl, chain_right_initial _ _ _ hr⟩

theorem read_at_write (t : Tape) (c : Char) (h : t.WF) (k : Int) :
    (t.write c).read_at k = if k = t.cur_index then c else t.read_at k := by
  by_cases hk : k = t.cur_index
  · rw [if_pos hk, hk]
    exact read_at_of_mem (t.write c) (write_WF t c h) ⟨c, t.cur.index⟩ (by simp [Tape.nodes, Tape.write])
  · rw [if_neg hk]
    simp only [Tape.read_at, Tape.nodes, Tape.write, List.find?_append, List.find?_cons]
    have h1 : (t.cur.index == k) = false := by
      simp only [beq_eq_false_iff_ne]; exact fun e => hk e.symm
    simp [h1]

theorem read_at_move (t : Tape) (d : Direction) (h : t.WF) (k : Int) :
    (t.move d).read_at k = t.read_at k := by
  obtain ⟨l1, l2⟩ := chain_left_spec _ _ h.1
  obtain ⟨r1, r2⟩ := chain_right_spec _ _ h.2
  apply read_at_eq_of_nodes t (t.move d) h (move_WF t d h)
  · cases d with
    | L => cases hleft : t.left <;> simp [Tape.move, hleft]
    | R => cases hright : t.right <;> simp [Tape.move, hright]
    | N => rfl
  · intro nd hnd
    left
    cases d with
    | L => cases hleft : t.left <;> simp_all [Tape.move, Tape.nodes]
    | R =>
      cases hright : t.right <;> simp_all [Tape.move, Tape.nodes]
      tauto
    | N => exact hnd
  · intro nd hnd
    have hmem : ∀ x ∈ t.nodes, x ∈ t.left ∨ x = t.cur ∨ x ∈ t.right := by
      intro x hx
      simpa [Tape.nodes] using hx
    cases d with
    | L =>
      cases hleft : t.left with
      | nil =>
        simp only [Tape.move, hleft, Tape.nodes, List.reverse_nil, List.nil_append,
          List.mem_cons] at hnd
        rcases hnd with e | e | e
        · right
          subst e
          refine ⟨rfl, fun x hx => ?_⟩
          rcases hmem x hx with hx | hx | hx
          · simp [hleft] at hx
          · subst hx; intro e; dsimp only at e; omega
          · have := r2 x hx; intro e; dsimp only at e; omega
        · left; simp [Tape.nodes, e]
        · left; simp [Tape.nodes, e]
      | cons p ps => left; simp_all [Tape.move, Tape.nodes]
    | R =>
      cases hright : t.right with
      | nil =>
        simp only [Tape.move, hright, Tape.nodes, List.reverse_cons, List.append_assoc,
          List.singleton_append, List.mem_append, List.mem_reverse, List.mem_cons,
          List.mem_nil_iff, or_false] at hnd
        rcases hnd with e | e | e
        · left; simp [Tape.nodes, e]
        · left; simp [Tape.nodes, e]
        · right
          subst e
          refine ⟨rfl, fun x hx => ?_⟩
          rcases hmem x hx with hx | hx | hx
          · have := l2 x hx; intro e; dsimp only at e; omega
          · subst hx; intro e; dsimp only at e; omega
          · simp [hright] at hx
      | cons p ps => left; simp_all [Tape.move, Tape.nodes]
    | N => left; exact hnd

theorem gc_nodes_subset (t : Tape) : ∀ x ∈ t.gc.nodes, x ∈ t.nodes := by
  obtain ⟨restl, el, -⟩ := rdropWhile_split (fun nd => nd.content == t.blank) t.left
  obtain ⟨restr, er, -⟩ := rdropWhile_split (fun nd => nd.content == t.blank) t.right
  intro x hx
  simp only [Tape.gc, Tape.nodes, List.mem_append, List.mem_reverse, List.mem_cons] at hx ⊢
  rcases hx with hx | hx | hx
  · left; rw [el]; exact List.mem_append_left _ hx
  · right; left; exact hx
  · right; right; rw [er]; exact List.mem_append_left _ hx

theorem gc_removed_blank (t : Tape) (nd : Node) (h1 : nd ∈ t.nodes) (h2 : nd ∉ t.gc.nodes) :
    nd.content = t.blank := by
  obtain ⟨restl, el, pl⟩ := rdropWhile_split (fun nd => nd.content == t.blank) t.left
  obtain ⟨restr, er, pr⟩ := rdropWhile_split (fun nd => nd.content == t.blank) t.right
  simp only [Tape.gc, Tape.nodes, List.mem_append, List.mem_reverse, List.mem_cons, not_or]
    at h1 h2
  rcases h1 with h | h | h
  · rw [el] at h
    rcases List.mem_append.1 h with a | a
    · exact absurd a h2.1
    · simpa using pl nd a
  · exact absurd h h2.2.1
  · rw [er] at h
    rcases List.mem_append.1 h with a | a
    · exact absurd a h2.2.2
    · simpa using pr nd a

theorem read_at_gc (t : Tape) (h : t.WF) (k : Int) : t.gc.read_at k = t.read_at k := by
  apply read_at_eq_of_nodes t t.gc h (gc_WF t h) rfl
  · intro nd hnd
    by_cases hin : nd ∈ t.gc.nodes
    · exact Or.inl hin
    · exact Or.inr ⟨gc_removed_blank t nd hnd hin, fun x hx e =>
        hin (node_unique t h x nd (gc_nodes_subset t x hx) hnd e ▸ hx)⟩
  · intro nd hnd
    exact Or.inl (gc_nodes_subset t nd hnd)

theorem move_cur_index (t : Tape) (d : Direction) (h : t.WF) :
    (t.move d).cur_index = t.cur_index + d.offset := by
  obtain ⟨hl, hr⟩ := h
  cases d with
  | L =>
    cases hleft : t.left with
    | nil => simp [Tape.move, hleft, Tape.cur_index, Direction.offset]; rfl
    | cons p ps =>
      rw [hleft] at hl
      simp only [Tape.chain_left, Bool.and_eq_true, beq_iff_eq] at hl
      simp [Tape.move, hleft, Tape.cur_index, Direction.offset, hl.1]; rfl
  | R =>
    cases hright : t.right with
    | nil => simp [Tape.move, hright, Tape.cur_index, Direction.offset]
    | cons p ps =>
      rw [hright] at hr
      simp only [Tape.chain_right, Bool.and_eq_true, beq_iff_eq] at hr
      simp [Tape.move, hright, Tape.cur_index, Direction.offset, hr.1]
  | N => simp [Tape.move, Direction.offset]

/-! ### One step of the machine -/

theorem move_blank (t : Tape) (d : Direction) : (t.move d).blank = t.blank := by
  cases d with
  | L => simp only [Tape.move]; split <;> rfl
  | R => simp only [Tape.move]; split <;> rfl
  | N => rfl

theorem apply_tape_spec (ns : Char) (d : Direction) (tp : Tape) (h : tp.WF) :
    (apply_tape ns d tp).WF
      ∧ (apply_tape ns d tp).blank = tp.blank
      ∧ (apply_tape ns d tp).cur_index = tp.cur_index + d.offset
      ∧ (apply_tape ns d tp).read_at tp.cur_index = (if ns = '*' then tp.cur_sym else ns)
      ∧ ∀ k, k ≠ tp.cur_index → (apply_tape ns d tp).read_at k = tp.read_at k := by
  unfold apply_tape
  by_cases hns : ns = '*'
  · subst hns
    simp only [bne_self_eq_false, Bool.false_eq_true, if_false, if_true]
    refine ⟨move_WF _ _ h, ?_, move_cur_index _ _ h, ?_, fun k _ => read_at_move _ _ h k⟩
    · exact move_blank _ _
    · rw [read_at_move _ _ h, read_at_cur _ h]
  · have hne : (ns != '*') = true := by simpa using hns
    simp only [hne, if_true, hns, if_false]
    have hw := write_WF tp ns h
    refine ⟨move_WF _ _ hw, ?_, move_cur_index _ _ hw, ?_, fun k hk => ?_⟩
    · exact move_blank _ _
    · rw [read_at_move _ _ hw, read_at_write _ _ h, if_pos rfl]
    · rw [read_at_move _ _ hw, read_at_write _ _ h, if_neg hk]

/-- The inner loop of `Machine::step` in closed form: when the result symbols and the
directions reach as far as the loop does, the tapes at the positions `i .. i+k-1` get
the write and the move, and the others stay. -/
theorem apply_loop_spec (tr : Transition) (k i : Nat) (tapes : List Tape)
    (h1 : i + k ≤ tapes.length) (h2 : i + k ≤ tr.new_syms.length)
    (h3 : i + k ≤ tr.dirs.length) :
    ∃ out, Machine.apply_loop tr k i tapes = Except.ok out
      ∧ out.length = tapes.length
      ∧ ∀ j, out[j]? =
          if i ≤ j ∧ j < i + k then
            (tapes[j]?).map (apply_tape (tr.new_syms.getD j '*') (tr.dirs.getD j Direction.N))
          else tapes[j]? := by
  induction k generalizing i tapes with
  | zero =>
    refine ⟨tapes, rfl, rfl, fun j => ?_⟩
    rw [if_neg (by omega)]
  | succ k ih =>
    have hi1 : i < tapes.length := by omega
    have hi2 : i < tr.new_syms.length := by omega
    have hi3 : i < tr.dirs.length := by omega
    have hset : ∀ (tp : Tape), (tapes.set i tp).length = tapes.length := fun tp => by simp
    have key : Machine.apply_loop tr (k + 1) i tapes
        = Machine.apply_loop tr k (i + 1)
            (tapes.set i (apply_tape tr.new_syms[i] tr.dirs[i] tapes[i])) := by
      rw [Machine.apply_loop]
      simp only [at_eq_ok _ _ hi2, at_eq_ok _ _ hi1, at_eq_ok _ _ hi3, bind, Except.bind, pure,
        Except.pure]
      by_cases hns : tr.new_syms[i] = '*'
      · simp [hns, apply_tape, at_eq_ok _ _ hi1, at_eq_ok _ _ hi3]
      · have hne : (tr.new_syms[i] != '*') = true := by simpa using hns
        have hl : i < (tapes.set i (tapes[i].write tr.new_syms[i])).length := by
          simpa using hi1
        simp [hne, apply_tape, at_eq_ok _ _ hl, at_eq_ok _ _ hi3]
    obtain ⟨out, ho, hlen, hget⟩ := ih (i + 1)
      (tapes.set i (apply_tape tr.new_syms[i] tr.dirs[i] tapes[i]))
      (by simp; omega) (by omega) (by omega)
    refine ⟨out, by rw [key, ho], by simpa using hlen, fun j => ?_⟩
    rw [hget j]
    by_cases hj : j = i
    · subst hj
      rw [if_neg (by omega), if_pos (by omega)]
      rw [List.getElem?_set_self hi1, List.getElem?_eq_getElem hi1, List.getD_eq_getElem _ _ hi2,
        List.getD_eq_getElem _ _ hi3]
      rfl
    · have hji : i ≠ j := fun e => hj e.symm
      by_cases hin : i + 1 ≤ j ∧ j < i + 1 + k
      · rw [if_pos hin, if_pos (by omega), List.getElem?_set_ne hji]
      · rw [if_neg hin, if_neg (by omega), List.getElem?_set_ne hji]

theorem verbose_loop_spec (k i : Nat) (tapes : List Tape) (h1 : i + k ≤ tapes.length) :
    ∃ out, Machine.verbose_loop k i tapes = Except.ok out
      ∧ out.length = tapes.length
      ∧ ∀ j, out[j]? = if i ≤ j ∧ j < i + k then (tapes[j]?).map Tape.gc else tapes[j]? := by
  induction k generalizing i tapes with
  | zero =>
    refine ⟨tapes, rfl, rfl, fun j => ?_⟩
    rw [if_neg (by omega)]
  | succ k ih =>
    have hi1 : i < tapes.length := by omega
    have key : Machine.verbose_loop (k + 1) i tapes
        = Machine.verbose_loop k (i + 1) (tapes.set i tapes[i].gc) := by
      rw [Machine.verbose_loop]
      simp only [at_eq_ok _ _ hi1, bind, Except.bind, Tape.to_vec]
    obtain ⟨out, ho, hlen, hget⟩ := ih (i + 1) (tapes.set i tapes[i].gc) (by simp; omega)
    refine ⟨out, by rw [key, ho], by simpa using hlen, fun j => ?_⟩
    rw [hget j]
    by_cases hj : j = i
    · subst hj
      rw [if_neg (by omega), if_pos (by omega), List.getElem?_set_self hi1,
        List.getElem?_eq_getElem hi1]
      rfl
    · have hji : i ≠ j := fun e => hj e.symm
      by_cases hin : i + 1 ≤ j ∧ j < i + 1 + k
      · rw [if_pos hin, if_pos (by omega), List.getElem?_set_ne hji]
      · rw [if_neg hin, if_neg (by omega), List.getElem?_set_ne hji]

theorem scan_none (m : Machine) (syms : List Char) (ts : List Transition)
    (h : ∀ u ∈ ts, u.match_ m.state syms = Except.ok false) :
    Machine.scan m syms ts = Except.ok (false, m) := by
  induction ts with
  | nil => rfl
  | cons u us ih =>
    rw [Machine.scan, h u (List.mem_cons_self _ _)]
    simp only [bind, Except.bind, Bool.false_eq_true, if_false]
    exact ih (fun v hv => h v (List.mem_cons_of_mem _ hv))

theorem scan_first (m : Machine) (syms : List Char) (pre post : List Transition)
    (t : Transition) (h : ∀ u ∈ pre, u.match_ m.state syms = Except.ok false)
    (ht : t.match_ m.state syms = Except.ok true) :
    Machine.scan m syms (pre ++ t :: post)
      = (Machine.apply_loop t syms.length 0 m.tapes).bind
          (fun tapes => Except.ok (true, { m with state := t.new_state, tapes := tapes })) := by
  induction pre with
  | nil =>
    rw [List.nil_append, Machine.scan, ht]
    rfl
  | cons u us ih =>
    rw [List.cons_append, Machine.scan, h u (List.mem_cons_self _ _)]
    simp only [bind, Except.bind, Bool.false_eq_true, if_false]
    exact ih (fun v hv => h v (List.mem_cons_of_mem _ hv))

theorem strip_leading_blanks (p s : List Char) (b : Char) (h : ∀ x ∈ p, x = b) :
    Tape.strip (p ++ s) b = Tape.strip s b := by
  induction p with
  | nil => rfl
  | cons x xs ih =>
    rw [h x (List.mem_cons_self _ _), List.cons_append, strip_cons_self]
    exact ih (fun y hy => h y (List.mem_cons_of_mem _ hy))

theorem strip_trailing_blanks (s q : List Char) (b : Char) (h : ∀ x ∈ q, x = b) :
    Tape.strip (s ++ q) b = Tape.strip s b := by
  induction q generalizing s with
  | nil => simp
  | cons x xs ih =>
    have : s ++ x :: xs = (s ++ [x]) ++ xs := by simp
    rw [this, ih _ (fun y hy => h y (List.mem_cons_of_mem _ hy)),
      h x (List.mem_cons_self _ _), strip_append_self]

/-- Compaction does not change what `to_string` exports. -/
theorem gc_to_string (t : Tape) : t.gc.to_string = t.to_string := by
  obtain ⟨restl, el, pl⟩ := rdropWhile_split (fun nd => nd.content == t.blank) t.left
  obtain ⟨restr, er, pr⟩ := rdropWhile_split (fun nd => nd.content == t.blank) t.right
  have hl : ∀ x ∈ (restl.reverse).map (fun nd => nd.content), x = t.blank := by
    intro x hx
    simp only [List.mem_map, List.mem_reverse] at hx
    obtain ⟨nd, hnd, rfl⟩ := hx
    simpa using pl nd hnd
  have hr : ∀ x ∈ restr.map (fun nd => nd.content), x = t.blank := by
    intro x hx
    simp only [List.mem_map] at hx
    obtain ⟨nd, hnd, rfl⟩ := hx
    simpa using pr nd hnd
  have e : t.nodes.map (fun nd => nd.content)
      = (restl.reverse).map (fun nd => nd.content)
          ++ (t.gc.nodes.map (fun nd => nd.content) ++ restr.map (fun nd => nd.content)) := by
    have : t.nodes = restl.reverse ++ (t.gc.nodes ++ restr) := by
      simp only [Tape.nodes, Tape.gc]
      conv_lhs => rw [el, er]
      simp
    rw [this]
    simp
  simp only [Tape.to_string, strip_cons_self]
  rw [e, strip_leading_blanks _ _ _ hl, strip_trailing_blanks _ _ _ hr]
  rfl

/-- C3: for every machine configuration in which no transition of the table matches
the current state and current symbols, that is `Transition::match` returns false for
each of them (so in particular when the table is empty), `step` returns false and leaves
the control state and every tape unchanged.  With `is_verbose = false` the machine is
left as it was but for the step counter; with `is_verbose = true` (on a machine whose
tape count does not exceed its number of tapes) the tapes are compacted by the trace,
which leaves the cursor index, the symbol under the cursor, `to_string()`, `to_vec()`
and, on a well-formed tape, every cell content as they were. -/
theorem step_halts_unchanged (m : Machine)
    (h : ∀ u ∈ m.transitions, u.match_ m.state m.cur_syms = Except.ok false) :
    m.step false = Except.ok (false, { m with n_step := m.n_step + 1 })
      ∧ (m.n_tape ≤ m.tapes.length →
          ∃ out, m.step true = Except.ok (false, out)
            ∧ out.state = m.state ∧ out.transitions = m.transitions ∧ out.n = m.n
            ∧ out.tapes.length = m.tapes.length
            ∧ ∀ (i : Nat) (tp : Tape), m.tapes[i]? = some tp →
                ∃ tq : Tape, out.tapes[i]? = some tq
                  ∧ tq.cur_index = tp.cur_index ∧ tq.cur_sym = tp.cur_sym
                  ∧ tq.to_string = tp.to_string ∧ tq.to_vec.1 = tp.to_vec.1
                  ∧ (tp.WF → ∀ k, tq.read_at k = tp.read_at k)) := by
  constructor
  · simp only [Machine.step, Bool.false_eq_true, if_false, bind, Except.bind, pure, Except.pure]
    exact scan_none _ _ _ h
  · intro hn
    obtain ⟨tapes, hv, hlen, hget⟩ := verbose_loop_spec m.n_tape 0 m.tapes (by omega)
    refine ⟨{ m with tapes := tapes, n_step := m.n_step + 1 }, ?_, rfl, rfl, rfl, hlen, ?_⟩
    · simp only [Machine.step, if_true, hv, bind, Except.bind]
      exact scan_none _ _ _ h
    · intro i tp hi
      by_cases hin : 0 ≤ i ∧ i < 0 + m.n_tape
      · refine ⟨tp.gc, ?_, rfl, rfl, gc_to_string tp, ?_, fun hw k => read_at_gc tp hw k⟩
        · show tapes[i]? = some tp.gc
          rw [hget i, if_pos hin, hi]
          rfl
        · simp [Tape.to_vec, gc_gc]
      · refine ⟨tp, ?_, rfl, rfl, rfl, rfl, fun _ _ => rfl⟩
        show tapes[i]? = some tp
        rw [hget i, if_neg hin, hi]

theorem step_halts_unchanged_witness :
    (∀ u ∈ sample_halted.transitions,
        u.match_ sample_halted.state sample_halted.cur_syms = Except.ok false)
      ∧ sample_halted.step false = Except.ok (false, { sample_halted with n_step := 1 }) :=
  ⟨by decide, (step_halts_unchanged sample_halted (by decide)).1⟩

/-- The tapes after the trace of a verbose step are well formed and read as before. -/
theorem step_tapes_spec (m : Machine) (is_verbose : Bool) (hm : m.WF) :
    ∃ tapes, (if is_verbose then Machine.verbose_loop m.n_tape 0 m.tapes else pure m.tapes)
        = Except.ok tapes
      ∧ tapes.length = m.tapes.length
      ∧ ∀ (i : Nat) (tp : Tape), m.tapes[i]? = some tp →
          ∃ tq : Tape, tapes[i]? = some tq ∧ tq.WF ∧ tq.blank = tp.blank
            ∧ tq.cur_index = tp.cur_index ∧ tq.cur_sym = tp.cur_sym
            ∧ ∀ k, tq.read_at k = tp.read_at k := by
  cases is_verbose with
  | false =>
    refine ⟨m.tapes, rfl, rfl, fun i tp hi => ⟨tp, hi, ?_, rfl, rfl, rfl, fun _ => rfl⟩⟩
    exact hm.2 tp (List.getElem?_mem hi)
  | true =>
    obtain ⟨tapes, hv, hlen, hget⟩ := verbose_loop_spec m.n_tape 0 m.tapes (by have := hm.1; omega)
    refine ⟨tapes, by simpa using hv, hlen, fun i tp hi => ?_⟩
    have hw := hm.2 tp (List.getElem?_mem hi)
    by_cases hin : 0 ≤ i ∧ i < 0 + m.n_tape
    · refine ⟨tp.gc, ?_, gc_WF tp hw, rfl, rfl, rfl, fun k => read_at_gc tp hw k⟩
      rw [hget i, if_pos hin, hi]
      rfl
    · refine ⟨tp, ?_, hw, rfl, rfl, rfl, fun _ => rfl⟩
      rw [hget i, if_neg hin, hi]

/-- C2, as amended: for every well-formed machine configuration in which the scan in
declaration order reaches a transition `t` that matches (`Transition::match` returns
false for every transition declared before `t`, and true for `t`, whatever follows `t`
in the table, transitions with the same trigger included), and in which `t.new_syms`
and `t.dirs` have an entry for every tape, `step` returns true and the new
configuration is the effect of `t`: the control state becomes `t.new_state`, and for
every tape `i` the cell under the old cursor holds `t.new_syms[i]` if that is not the
wildcard `*` and is unchanged if it is, all other cells are unchanged, and the cursor
index changes by -1, +1 or 0 for `t.dirs[i]` = L, R, N.  The new configuration is well
formed again. -/
theorem step_applies_first_match (m : Machine) (is_verbose : Bool)
    (pre post : List Transition) (t : Transition) (hm : m.WF)
    (htable : m.transitions = pre ++ t :: post)
    (hpre : ∀ u ∈ pre, u.match_ m.state m.cur_syms = Except.ok false)
    (ht : t.match_ m.state m.cur_syms = Except.ok true)
    (hns : m.tapes.length ≤ t.new_syms.length) (hd : m.tapes.length ≤ t.dirs.length) :
    ∃ out, m.step is_verbose = Except.ok (true, out)
      ∧ out.state = t.new_state ∧ out.transitions = m.transitions ∧ out.n = m.n
      ∧ out.n_step = m.n_step + 1 ∧ out.tapes.length = m.tapes.length ∧ out.WF
      ∧ ∀ (i : Nat) (tp : Tape) (ns : Char) (d : Direction),
          m.tapes[i]? = some tp → t.new_syms[i]? = some ns → t.dirs[i]? = some d →
            ∃ tq : Tape, out.tapes[i]? = some tq
              ∧ tq.cur_index = tp.cur_index + d.offset
              ∧ tq.read_at tp.cur_index = (if ns = '*' then tp.cur_sym else ns)
              ∧ ∀ k, k ≠ tp.cur_index → tq.read_at k = tp.read_at k := by
  obtain ⟨tapes, hv, hlen, htp⟩ := step_tapes_spec m is_verbose hm
  have hsyms : m.cur_syms.length = m.tapes.length := by simp [Machine.cur_syms]
  obtain ⟨res, hres, hrlen, hrget⟩ := apply_loop_spec t m.cur_syms.length 0 tapes
    (by omega) (by omega) (by omega)
  have hstep : m.step is_verbose = Except.ok (true,
      { m with tapes := res, n_step := m.n_step + 1, state := t.new_state }) := by
    have hscan := scan_first { m with tapes := tapes, n_step := m.n_step + 1 } m.cur_syms
      pre post t hpre ht
    rw [← htable] at hscan
    simp only [Machine.step, hv, bind, Except.bind]
    refine hscan.trans ?_
    show (Machine.apply_loop t m.cur_syms.length 0 tapes).bind _ = _
    rw [hres]
    rfl
  have hsome : ∀ (i : Nat) (tp : Tape), m.tapes[i]? = some tp →
      ∃ tq : Tape, tapes[i]? = some tq ∧ tq.WF ∧ tq.blank = tp.blank
        ∧ tq.cur_index = tp.cur_index ∧ tq.cur_sym = tp.cur_sym
        ∧ (∀ k, tq.read_at k = tp.read_at k)
        ∧ res[i]? = some (apply_tape (t.new_syms.getD i '*') (t.dirs.getD i Direction.N) tq) := by
    intro i tp hi
    obtain ⟨tq, h1, h2, h3, h4, h5, h6⟩ := htp i tp hi
    refine ⟨tq, h1, h2, h3, h4, h5, h6, ?_⟩
    have hil : i < m.tapes.length := by
      rcases Nat.lt_or_ge i m.tapes.length with h | h
      · exact h
      · rw [List.getElem?_eq_none h] at hi; cases hi
    rw [hrget i, if_pos (by omega), h1]
    rfl
  refine ⟨_, hstep, rfl, rfl, rfl, rfl, by rw [← hlen]; exact hrlen, ?_, ?_⟩
  · refine ⟨by have := hm.1; show m.n ≤ res.length; rw [hrlen, hlen]; exact this, ?_⟩
    intro tq hq
    obtain ⟨i, hi, rfl⟩ := List.getElem_of_mem hq
    have hi' : i < m.tapes.length := by
      have : i < res.length := hi
      omega
    obtain ⟨tq, -, h2, -, -, -, -, h7⟩ := hsome i m.tapes[i] (List.getElem?_eq_getElem hi')
    have e : res[i] = apply_tape (t.new_syms.getD i '*') (t.dirs.getD i Direction.N) tq := by
      have := List.getElem?_eq_getElem (l := res) hi
      rw [h7] at this
      injection this with this
      exact this.symm
    show (res[i]).WF
    rw [e]
    exact (apply_tape_spec _ _ tq h2).1
  · intro i tp ns d hi hns' hd'
    obtain ⟨tq, -, h2, -, h4, h5, h6, h7⟩ := hsome i tp hi
    have e1 : t.new_syms.getD i '*' = ns := by simp [hns']
    have e2 : t.dirs.getD i Direction.N = d := by simp [hd']
    rw [e1, e2] at h7
    obtain ⟨-, -, s3, s4, s5⟩ := apply_tape_spec ns d tq h2
    refine ⟨_, h7, ?_, ?_, ?_⟩
    · rw [s3, h4]
    · rw [← h4, s4, h5]
    · intro k hk
      rw [s5 k (by rw [h4]; exact hk), h6]

theorem step_applies_first_match_witness :
    sample_running.WF
      ∧ sample_rule.match_ sample_running.state sample_running.cur_syms = Except.ok true
      ∧ ∃ out, sample_running.step false = Except.ok (true, out) ∧ out.state = ⟨['p']⟩ :=
  ⟨by decide, by decide,
    (step_applies_first_match sample_running false [] [_] sample_rule (by decide) rfl
      (by simp) (by decide) (by decide) (by decide)).imp (fun _ h => ⟨h.1, h.2.1⟩)⟩

/-- C2 as stated fails: the parser accepts a two-tape text whose rule `q 0_ 1 r* p` has
a single result symbol; on the input `0` the rule matches the initial configuration,
and `step` ends in `std::out_of_range` instead of returning true. -/
theorem step_first_match_counterexample :
    parser.parse short_program ['0'] = Except.ok short_machine
      ∧ short_machine.transitions = [short_rule]
      ∧ short_rule.match_ short_machine.state short_machine.cur_syms = Except.ok true
      ∧ short_machine.step false = Except.error Err.out_of_range
      ∧ short_machine.step true = Except.error Err.out_of_range := by
  refine ⟨by rfl, by rfl, by rfl, by rfl, by rfl⟩

/-! ### The machine constructor -/

theorem mem_cells (w : List Char) (i : Int) (nd : Node) :
    nd ∈ cells w i ↔ ∃ (j : Nat) (h : j < w.length), nd = ⟨w[j], i + j⟩ := by
  induction w generalizing i with
  | nil => simp [cells]
  | cons c cs ih =>
    simp only [cells, List.mem_cons, ih, List.length_cons]
    constructor
    · rintro (e | ⟨j, hj, e⟩)
      · exact ⟨0, by omega, by simp [e]⟩
      · refine ⟨j + 1, by omega, ?_⟩
        rw [e]
        simp only [List.getElem_cons_succ, Node.mk.injEq, true_and]
        push_cast
        ring
    · rintro ⟨j, hj, e⟩
      cases j with
      | zero => left; simpa using e
      | succ j =>
        right
        refine ⟨j, by omega, ?_⟩
        rw [e]
        simp only [List.getElem_cons_succ, Node.mk.injEq, true_and]
        push_cast
        ring

theorem chain_right_cells (w : List Char) (i : Int) :
    Tape.chain_right i (cells w (i + 1)) = true := by
  induction w generalizing i with
  | nil => rfl
  | cons c cs ih => simp [cells, Tape.chain_right, ih]

/-- The nodes of a freshly constructed tape: a blank cell at index -1, then the word
from index 0 on, or a blank cell at index 0 when the word is empty. -/
theorem ctor_nodes (b : Char) (w : List Char) :
    (Tape.ctor b w).nodes = ⟨b, -1⟩ :: (if w = [] then [⟨b, 0⟩] else cells w 0) := by
  cases w with
  | nil => simp [ctor_nil, Tape.nodes]
  | cons c cs => simp [ctor_cons, Tape.nodes, cells]

theorem ctor_WF (b : Char) (w : List Char) : (Tape.ctor b w).WF := by
  cases w with
  | nil => rw [ctor_nil]; simp [Tape.WF, Tape.chain_left, Tape.chain_right]
  | cons c cs =>
    rw [ctor_cons]
    refine ⟨by simp [Tape.chain_left], ?_⟩
    have := chain_right_cells cs 0
    simpa using this

theorem ctor_blank_eq (b : Char) (w : List Char) : (Tape.ctor b w).blank = b := by
  cases w with
  | nil => rw [ctor_nil]
  | cons c cs => rw [ctor_cons]

/-- Every cell of a freshly constructed tape: the word at the indices `0 .. |w|-1`, the
blank everywhere else. -/
theorem ctor_read_at (b : Char) (w : List Char) :
    (∀ (i : Nat) (hi : i < w.length), (Tape.ctor b w).read_at (i : Int) = w[i])
      ∧ ∀ k : Int, (k < 0 ∨ (w.length : Int) ≤ k) → (Tape.ctor b w).read_at k = b := by
  have hwf := ctor_WF b w
  constructor
  · intro i hi
    have hmem : (⟨w[i], (i : Int)⟩ : Node) ∈ (Tape.ctor b w).nodes := by
      rw [ctor_nodes, if_neg (by intro e; rw [e] at hi; simp at hi)]
      refine List.mem_cons_of_mem _ ((mem_cells _ _ _).2 ⟨i, hi, ?_⟩)
      simp
    exact read_at_of_mem _ hwf _ hmem
  · intro k hk
    by_cases hex : ∃ nd ∈ (Tape.ctor b w).nodes, nd.index = k
    · obtain ⟨nd, hnd, rfl⟩ := hex
      rw [read_at_of_mem _ hwf _ hnd]
      rw [ctor_nodes] at hnd
      rcases List.mem_cons.1 hnd with e | hnd
      · rw [e]
      · by_cases hw : w = []
        · rw [if_pos hw] at hnd
          simp only [List.mem_singleton] at hnd
          rw [hnd]
        · rw [if_neg hw, mem_cells] at hnd
          obtain ⟨j, hj, e⟩ := hnd
          rw [e] at hk
          simp only at hk
          omega
    · rw [read_at_of_not_mem _ _ (fun nd hnd e => hex ⟨nd, hnd, e⟩), ctor_blank_eq]

theorem blank_tapes_get (n i : Nat) (tp : Tape) (h : (Machine.blank_tapes n)[i]? = some tp) :
    tp = Tape.ctor '_' [] := by
  have hm := List.getElem?_mem h
  simp only [Machine.blank_tapes, List.mem_map] at hm
  obtain ⟨_, -, e⟩ := hm
  exact e.symm

/-- C8, as amended: for every tape count `n`, transition list, initial state and input
word `w`, the `Machine` constructor yields a machine with `max(n, 1)` tapes (exactly
`n` tapes when `n >= 1`; one tape when `n = 0`), the given transitions, control state
equal to the given initial state and step counter 0, in which tape 0 holds `w` in the
cells `0 .. |w|-1` (blank everywhere else) with its cursor at index 0, on the first
character of `w` or on a blank if `w` is empty, and every further tape is blank in
every cell, exports the empty string and has its cursor at index 0. -/
theorem machine_ctor_spec (n : Nat) (w : List Char) (ts : List Transition) (s : State) :
    (Machine.ctor n w ts s).tapes.length = max n 1
      ∧ (1 ≤ n → (Machine.ctor n w ts s).tapes.length = n)
      ∧ (Machine.ctor n w ts s).n = n
      ∧ (Machine.ctor n w ts s).transitions = ts
      ∧ (Machine.ctor n w ts s).state = s
      ∧ (Machine.ctor n w ts s).n_step = 0
      ∧ (Machine.ctor n w ts s).WF
      ∧ (∃ tp : Tape, (Machine.ctor n w ts s).tapes[0]? = some tp
          ∧ tp.cur_index = 0 ∧ tp.cur_sym = w.headD '_'
          ∧ (∀ (i : Nat) (hi : i < w.length), tp.read_at (i : Int) = w[i])
          ∧ (∀ k : Int, (k < 0 ∨ (w.length : Int) ≤ k) → tp.read_at k = '_')
          ∧ ('_' ∉ w → tp.to_string = w))
      ∧ ∀ (i : Nat) (tp : Tape), 1 ≤ i → (Machine.ctor n w ts s).tapes[i]? = some tp →
          tp.cur_index = 0 ∧ tp.cur_sym = '_' ∧ tp.to_string = []
            ∧ ∀ k : Int, tp.read_at k = '_' := by
  have hlen : (Machine.ctor n w ts s).tapes.length = max n 1 := by
    simp only [Machine.ctor, Machine.blank_tapes, List.length_cons, List.length_map,
      List.length_range]
    omega
  have hblank : ∀ (i : Nat) (tp : Tape), 1 ≤ i →
      (Machine.ctor n w ts s).tapes[i]? = some tp → tp = Tape.ctor '_' [] := by
    intro i tp hi h
    obtain ⟨j, rfl⟩ : ∃ j, i = j + 1 := ⟨i - 1, by omega⟩
    simp only [Machine.ctor, List.getElem?_cons_succ] at h
    exact blank_tapes_get n j tp h
  refine ⟨hlen, fun h => by rw [hlen]; omega, rfl, rfl, rfl, rfl, ⟨?_, ?_⟩, ?_, ?_⟩
  · show n ≤ (Machine.ctor n w ts s).tapes.length
    rw [hlen]; omega
  · intro tp htp
    obtain ⟨i, hi⟩ := List.mem_iff_getElem?.1 htp
    cases i with
    | zero =>
      simp only [Machine.ctor, List.getElem?_cons_zero, Option.some.injEq] at hi
      rw [← hi]
      exact ctor_WF _ _
    | succ i =>
      rw [hblank (i + 1) tp (by omega) hi]
      exact ctor_WF _ _
  · refine ⟨Tape.ctor '_' w, by simp [Machine.ctor], ?_, ?_, (ctor_read_at '_' w).1, (ctor_read_at '_' w).2,
      fun hw => ctor_to_string '_' w hw⟩
    · cases w with
      | nil => rw [ctor_nil]; rfl
      | cons c cs => rw [ctor_cons]; rfl
    · cases w with
      | nil => rw [ctor_nil]; rfl
      | cons c cs => rw [ctor_cons]; rfl
  · intro i tp hi h
    rw [hblank i tp hi h]
    refine ⟨by rw [ctor_nil]; rfl, by rw [ctor_nil]; rfl, by rw [ctor_nil]; rfl, fun k => ?_⟩
    exact (ctor_read_at '_' []).2 k (by simp only [List.length_nil, Nat.cast_zero]; omega)

/-- C8 as stated fails for the tape count 0, which the parser accepts: the constructed
machine has one tape, not none. -/
theorem machine_ctor_counterexample :
    parser.parse zero_tapes_program ['0'] = Except.ok (Machine.ctor 0 ['0'] [] ⟨['q']⟩)
      ∧ (Machine.ctor 0 ['0'] [] ⟨['q']⟩).n = 0
      ∧ (Machine.ctor 0 ['0'] [] ⟨['q']⟩).tapes.length = 1 := by
  refine ⟨by rfl, by rfl, by rfl⟩

/-! ### End to end -/

/-- C4: for the specification text declaring the states `q0`, `q1`, the input alphabet
`0`, `1`, the initial state `q0`, the blank `_`, one tape and the single transition
`q0 0 1 r q1`, `parse` with the input word `0` returns a machine on which the first
`step` (verbose or not) returns true, after which tape 0 holds `1` at index 0, the
cursor is at index 1 and the state is `q1`; the second `step` returns false; and
`output()` then returns `1`. -/
theorem end_to_end_flip (verbose1 verbose2 : Bool) :
    parser.parse flip_program ['0'] = Except.ok flip_machine
      ∧ ∃ (m1 m2 : Machine) (tp : Tape),
          flip_machine.step verbose1 = Except.ok (true, m1)
            ∧ m1.tapes = [tp]
            ∧ tp.read_at 0 = '1' ∧ tp.cur_index = 1
            ∧ m1.state = ⟨['q', '1']⟩
            ∧ m1.step verbose2 = Except.ok (false, m2)
            ∧ m2.output = Except.ok ['1'] := by
  refine ⟨by rfl, ?_⟩
  cases verbose1 <;> cases verbose2 <;>
    exact ⟨_, _, _, rfl, rfl, rfl, rfl, rfl, rfl, rfl⟩

/-! ### The parser -/

theorem skip_loop_length (b : Bool) (it r : List Char)
    (h : parser.skip_loop b it = Except.ok r) : r.length ≤ it.length := by
  induction it generalizing b with
  | nil =>
    cases b with
    | false =>
      simp only [parser.skip_loop, pure, Except.pure, Except.ok.injEq] at h
      rw [← h]
    | true => simp [parser.skip_loop, throw, throwThe, MonadExceptOf.throw] at h
  | cons c cs ih =>
    cases b with
    | false =>
      rw [parser.skip_loop] at h
      split at h
      · split at h
        · have := ih _ h; simp only [List.length_cons]; omega
        · have := ih _ h; simp only [List.length_cons]; omega
      · simp only [pure, Except.pure, Except.ok.injEq] at h
        rw [← h]
    | true =>
      rw [parser.skip_loop] at h
      split at h
      · have := ih _ h; simp only [List.length_cons]; omega
      · have := ih _ h; simp only [List.length_cons]; omega

theorem parse_skip_length (it r : List Char) (h : parser.parse_skip it = Except.ok r) :
    r.length ≤ it.length := skip_loop_length false it r h

/-- Binding a result: the first computation succeeded. -/
theorem bind_ok {α β : Type} (x : Except Err α) (f : α → Except Err β) (y : β)
    (h : x >>= f = Except.ok y) : ∃ a, x = Except.ok a ∧ f a = Except.ok y := by
  cases x with
  | error e => simp [bind, Except.bind] at h
  | ok a => exact ⟨a, rfl, h⟩

theorem parse_char_length (it : List Char) (ch : Char) (b : Bool) (r : List Char)
    (h : parser.parse_char it ch = Except.ok (b, r)) : r.length ≤ it.length := by
  unfold parser.parse_char at h
  obtain ⟨it1, h1, h2⟩ := bind_ok _ _ _ h
  have hl := parse_skip_length _ _ h1
  cases it1 with
  | nil =>
    simp only at h2
    split at h2
    · simp [throw, throwThe, MonadExceptOf.throw] at h2
    · simp only [pure, Except.pure, Except.ok.injEq, Prod.mk.injEq] at h2
      rw [← h2.2]; simp
  | cons c cs =>
    simp only at h2
    split at h2
    · simp only [pure, Except.pure, Except.ok.injEq, Prod.mk.injEq] at h2
      rw [← h2.2]; simp only [List.length_cons] at hl; omega
    · simp only [pure, Except.pure, Except.ok.injEq, Prod.mk.injEq] at h2
      rw [← h2.2]; exact hl

theorem parse_id_length (it id r : List Char)
    (h : parser.parse_id it = Except.ok (id, r)) : r.length ≤ it.length := by
  unfold parser.parse_id at h
  obtain ⟨it1, h1, h2⟩ := bind_ok _ _ _ h
  have hl := parse_skip_length _ _ h1
  split at h2
  · simp [throw, throwThe, MonadExceptOf.throw] at h2
  · simp only at h2
    split at h2
    · simp only [pure, Except.pure, Except.ok.injEq, Prod.mk.injEq] at h2
      rw [← h2.2]
      simp only [List.length_drop]
      omega
    · simp [throw, throwThe, MonadExceptOf.throw] at h2

theorem id_list_loop_length (fuel : Nat) (it : List Char) (acc res : List (List Char))
    (r : List Char) (h : parser.id_list_loop fuel it acc = Except.ok (res, r)) :
    r.length ≤ it.length := by
  induction fuel generalizing it acc with
  | zero => simp [parser.id_list_loop, throw, throwThe, MonadExceptOf.throw] at h
  | succ fuel ih =>
    cases it with
    | nil =>
      simp only [parser.id_list_loop, pure, Except.pure, Except.ok.injEq, Prod.mk.injEq] at h
      rw [← h.2]
    | cons c cs =>
      simp only [parser.id_list_loop] at h
      obtain ⟨⟨comma, it1⟩, h1, h2⟩ := bind_ok _ _ _ h
      have l1 := parse_char_length _ _ _ _ h1
      simp only at h2
      split at h2
      · obtain ⟨⟨id, it2⟩, h3, h4⟩ := bind_ok _ _ _ h2
        have l2 := parse_id_length _ _ _ h3
        have l3 := ih _ _ h4
        dsimp only at l3
        omega
      · simp only [pure, Except.pure, Except.ok.injEq, Prod.mk.injEq] at h2
        rw [← h2.2]
        exact l1

theorem parse_id_list_length (it : List Char) (res : List (List Char)) (r : List Char)
    (h : parser.parse_id_list it = Except.ok (res, r)) : r.length ≤ it.length := by
  unfold parser.parse_id_list at h
  obtain ⟨⟨open_brace, it1⟩, h1, h2⟩ := bind_ok _ _ _ h
  have l1 := parse_char_length _ _ _ _ h1
  simp only at h2
  split at h2
  · simp [throw, throwThe, MonadExceptOf.throw] at h2
  · obtain ⟨⟨id, it2⟩, h3, h4⟩ := bind_ok _ _ _ h2
    have l2 := parse_id_length _ _ _ h3
    obtain ⟨⟨result, it3⟩, h5, h6⟩ := bind_ok _ _ _ h4
    have l3 := id_list_loop_length _ _ _ _ _ h5
    obtain ⟨⟨close_brace, it4⟩, h7, h8⟩ := bind_ok _ _ _ h6
    have l4 := parse_char_length _ _ _ _ h7
    simp only at h8
    split at h8
    · simp [throw, throwThe, MonadExceptOf.throw] at h8
    · split at h8
      · simp [throw, throwThe, MonadExceptOf.throw] at h8
      · simp only [pure, Except.pure, Except.ok.injEq, Prod.mk.injEq] at h8
        rw [← h8.2]
        dsimp only at l3 l4
        omega

/-- A section other than `#N` that is parsed without an exception leaves the iterator
no further from the end, and counts once. -/
theorem parse_section_spec (ch : Char) (v v1 : parser.Vars) (it r : List Char)
    (h : parser.parse_section ch v it = Except.ok (v1, r)) :
    r.length ≤ it.length ∧ v1.tm_counter = v.tm_counter + 1 := by
  unfold parser.parse_section at h
  simp only at h
  split at h
  · obtain ⟨⟨eq, it1⟩, h1, h2⟩ := bind_ok _ _ _ h
    have l1 := parse_char_length _ _ _ _ h1
    simp only at h2
    split at h2
    · simp [throw, throwThe, MonadExceptOf.throw] at h2
    · obtain ⟨⟨ids, it2⟩, h3, h4⟩ := bind_ok _ _ _ h2
      have l2 := parse_id_list_length _ _ _ h3
      simp only [pure, Except.pure, Except.ok.injEq, Prod.mk.injEq] at h4
      rw [← h4.1, ← h4.2]
      exact ⟨by omega, rfl⟩
  · split at h
    · obtain ⟨⟨eq, it1⟩, h1, h2⟩ := bind_ok _ _ _ h
      have l1 := parse_char_length _ _ _ _ h1
      simp only at h2
      split at h2
      · simp [throw, throwThe, MonadExceptOf.throw] at h2
      · obtain ⟨⟨ids, it2⟩, h3, h4⟩ := bind_ok _ _ _ h2
        have l2 := parse_id_list_length _ _ _ h3
        obtain ⟨cs, h5, h6⟩ := bind_ok _ _ _ h4
        simp only [pure, Except.pure, Except.ok.injEq, Prod.mk.injEq] at h6
        rw [← h6.1, ← h6.2]
        exact ⟨by omega, rfl⟩
    · split at h
      · obtain ⟨⟨eq, it1⟩, h1, h2⟩ := bind_ok _ _ _ h
        have l1 := parse_char_length _ _ _ _ h1
        simp only at h2
        split at h2
        · simp [throw, throwThe, MonadExceptOf.throw] at h2
        · obtain ⟨⟨ids, it2⟩, h3, h4⟩ := bind_ok _ _ _ h2
          have l2 := parse_id_list_length _ _ _ h3
          obtain ⟨cs, h5, h6⟩ := bind_ok _ _ _ h4
          simp only [pure, Except.pure, Except.ok.injEq, Prod.mk.injEq] at h6
          rw [← h6.1, ← h6.2]
          exact ⟨by omega, rfl⟩
      · split at h
        · obtain ⟨⟨zero, it1⟩, h1, h2⟩ := bind_ok _ _ _ h
          have l1 := parse_char_length _ _ _ _ h1
          simp only at h2
          split at h2
          · simp [throw, throwThe, MonadExceptOf.throw] at h2
          · obtain ⟨⟨eq, it2⟩, h3, h4⟩ := bind_ok _ _ _ h2
            have l2 := parse_char_length _ _ _ _ h3
            simp only at h4
            split at h4
            · simp [throw, throwThe, MonadExceptOf.throw] at h4
            · obtain ⟨⟨id, it3⟩, h5, h6⟩ := bind_ok _ _ _ h4
              have l3 := parse_id_length _ _ _ h5
              simp only [pure, Except.pure, Except.ok.injEq, Prod.mk.injEq] at h6
              rw [← h6.1, ← h6.2]
              exact ⟨by omega, rfl⟩
        · split at h
          · obtain ⟨⟨eq, it1⟩, h1, h2⟩ := bind_ok _ _ _ h
            have l1 := parse_char_length _ _ _ _ h1
            simp only at h2
            split at h2
            · simp [throw, throwThe, MonadExceptOf.throw] at h2
            · obtain ⟨it2, h3, h4⟩ := bind_ok _ _ _ h2
              have l2 := parse_skip_length _ _ h3
              cases it2 with
              | nil => simp [throw, throwThe, MonadExceptOf.throw] at h4
              | cons b it3 =>
                simp only [pure, Except.pure, Except.ok.injEq, Prod.mk.injEq] at h4
                rw [← h4.1, ← h4.2]
                simp only [List.length_cons] at l2
                exact ⟨by omega, rfl⟩
          · split at h
            · obtain ⟨⟨eq, it1⟩, h1, h2⟩ := bind_ok _ _ _ h
              have l1 := parse_char_length _ _ _ _ h1
              simp only at h2
              split at h2
              · simp [throw, throwThe, MonadExceptOf.throw] at h2
              · obtain ⟨⟨ids, it2⟩, h3, h4⟩ := bind_ok _ _ _ h2
                have l2 := parse_id_list_length _ _ _ h3
                simp only [pure, Except.pure, Except.ok.injEq, Prod.mk.injEq] at h4
                rw [← h4.1, ← h4.2]
                exact ⟨by omega, rfl⟩
            · simp [throw, throwThe, MonadExceptOf.throw] at h

theorem reaches_counter (k : Nat) (v w : parser.Vars) (it jt : List Char)
    (h : parser.Reaches k v it w jt) : w.tm_counter = v.tm_counter + k := by
  induction h with
  | start v it => rfl
  | pass k v v1 w it it3 it4 jt ch _ _ hs _ ih =>
    rw [ih, (parse_section_spec _ _ _ _ _ hs).2]
    omega

/-- With fuel beyond the length of the text, the section loop started where the passes
begin continues as the section loop started where they end, again with fuel beyond
the length of what is left. -/
theorem reaches_loop (input : List Char) (k : Nat) (v w : parser.Vars) (it jt : List Char)
    (h : parser.Reaches k v it w jt) (fuel : Nat) (hf : it.length < fuel) :
    ∃ fuel2, jt.length < fuel2
      ∧ parser.parse_loop input fuel v it = parser.parse_loop input fuel2 w jt := by
  induction h generalizing fuel with
  | start v it => exact ⟨fuel, hf, rfl⟩
  | pass k v v1 w it it3 it4 jt ch hskip hch hs _ ih =>
    obtain ⟨f, rfl⟩ : ∃ f, fuel = f + 1 := ⟨fuel - 1, by omega⟩
    have l1 := parse_skip_length _ _ hskip
    have l2 := (parse_section_spec _ _ _ _ _ hs).1
    simp only [List.length_cons] at l1
    obtain ⟨fuel2, hlt, he⟩ := ih f (by omega)
    refine ⟨fuel2, hlt, ?_⟩
    rw [← he]
    cases it with
    | nil => simp [parser.parse_skip, parser.skip_loop, pure, Except.pure] at hskip
    | cons c cs =>
      have hN : (ch == 'N') = false := by simpa using hch
      simp [parser.parse_loop, hskip, hs, hN, bind, Except.bind]

/-- C7, as amended: for every specification text in which the tape-count section `#N`
is reached after `k` other section headers (`#Q`, `#S`, `#G`, `#q0`, `#B`, `#F`; a
repeated header counts each time) with `k` not six, `parse` fails with
`parser_exception("expected complete .tm file")` and returns no machine, whatever the
input word and whatever follows `#N`. -/
theorem tape_count_gate (program input : List Char) (k : Nat) (v : parser.Vars)
    (it rest : List Char) (hreach : parser.Reaches k parser.Vars.init program v it)
    (hN : parser.parse_skip it = Except.ok ('#' :: 'N' :: rest)) (hk : k ≠ 6) :
    parser.parse program input
      = Except.error (Err.parser_exception "expected complete .tm file") := by
  obtain ⟨fuel2, hlt, he⟩ :=
    reaches_loop input k _ _ _ _ hreach (program.length + 1) (by omega)
  have hc : v.tm_counter = k := by
    have := reaches_counter _ _ _ _ _ hreach
    simpa [parser.Vars.init] using this
  obtain ⟨f, rfl⟩ : ∃ f, fuel2 = f + 1 := ⟨fuel2 - 1, by omega⟩
  unfold parser.parse
  rw [he]
  cases it with
  | nil => simp [parser.parse_skip, parser.skip_loop, pure, Except.pure] at hN
  | cons c cs =>
    have hne : (v.tm_counter != 6) = true := by rw [hc]; simpa using hk
    simp [parser.parse_loop, hN, parser.parse_N, hne, bind, Except.bind, throw, throwThe,
      MonadExceptOf.throw]

theorem tape_count_gate_witness :
    parser.Reaches 1 parser.Vars.init early_count_program
        { parser.Vars.init with states := [⟨['a']⟩], tm_counter := 1 }
        "\n#N = 1\na 0 1 r a\n".toList
      ∧ parser.parse early_count_program ['0']
          = Except.error (Err.parser_exception "expected complete .tm file") :=
  ⟨parser.Reaches.pass 0 _ _ _ _ " = {a}\n#N = 1\na 0 1 r a\n".toList _ _ 'Q' (by rfl)
      (by decide) (by rfl) (parser.Reaches.start _ _),
    tape_count_gate early_count_program ['0'] 1
      { parser.Vars.init with states := [⟨['a']⟩], tm_counter := 1 }
      "\n#N = 1\na 0 1 r a\n".toList " = 1\na 0 1 r a\n".toList
      (parser.Reaches.pass 0 _ _ _ _ " = {a}\n#N = 1\na 0 1 r a\n".toList _ _ 'Q' (by rfl)
        (by decide) (by rfl) (parser.Reaches.start _ _))
      (by rfl) (by decide)⟩

/-- C7 as stated fails: in a text that declares `#Q` six times and none of `#S`, `#G`,
`#q0`, `#B`, `#F`, the section `#N` is accepted and `parse` returns a machine (whose
initial state has the empty name). -/
theorem tape_count_gate_counterexample :
    parser.parse six_states_program ['0'] = Except.ok (Machine.ctor 1 ['0'] [] ⟨[]⟩) := by
  rfl

/-! ### The fuel of the parser loops is never used up -/

theorem bind_no_fuel {α β : Type} (x : Except Err α) (f : α → Except Err β)
    (hx : x ≠ Except.error Err.fuel) (hf : ∀ a, x = Except.ok a → f a ≠ Except.error Err.fuel) :
    x >>= f ≠ Except.error Err.fuel := by
  cases x with
  | error e =>
    intro h
    apply hx
    simpa [bind, Except.bind] using h
  | ok a => exact hf a rfl

theorem skip_loop_no_fuel (b : Bool) (it : List Char) :
    parser.skip_loop b it ≠ Except.error Err.fuel := by
  induction it generalizing b with
  | nil => cases b <;> simp [parser.skip_loop, pure, Except.pure, throw, throwThe,
      MonadExceptOf.throw]
  | cons c cs ih =>
    cases b with
    | false =>
      rw [parser.skip_loop]
      split
      · split
        · exact ih _
        · exact ih _
      · simp [pure, Except.pure]
    | true =>
      rw [parser.skip_loop]
      split
      · exact ih _
      · exact ih _

theorem parse_char_no_fuel (it : List Char) (ch : Char) :
    parser.parse_char it ch ≠ Except.error Err.fuel := by
  unfold parser.parse_char
  refine bind_no_fuel _ _ (skip_loop_no_fuel _ _) (fun it1 _ => ?_)
  cases it1 with
  | nil =>
    simp only
    split <;> simp [pure, Except.pure, throw, throwThe, MonadExceptOf.throw]
  | cons c cs =>
    simp only
    split <;> simp [pure, Except.pure]

theorem parse_id_no_fuel (it : List Char) : parser.parse_id it ≠ Except.error Err.fuel := by
  unfold parser.parse_id
  refine bind_no_fuel _ _ (skip_loop_no_fuel _ _) (fun it1 _ => ?_)
  split
  · simp [throw, throwThe, MonadExceptOf.throw]
  · simp only
    split <;> simp [pure, Except.pure, throw, throwThe, MonadExceptOf.throw]

theorem parse_char_true_length (it : List Char) (ch : Char) (r : List Char)
    (h : parser.parse_char it ch = Except.ok (true, r)) : r.length < it.length := by
  unfold parser.parse_char at h
  obtain ⟨it1, h1, h2⟩ := bind_ok _ _ _ h
  have hl := parse_skip_length _ _ h1
  cases it1 with
  | nil =>
    simp only at h2
    split at h2
    · simp [throw, throwThe, MonadExceptOf.throw] at h2
    · simp [pure, Except.pure] at h2
  | cons c cs =>
    simp only at h2
    split at h2
    · simp only [pure, Except.pure, Except.ok.injEq, Prod.mk.injEq] at h2
      rw [← h2.2]; simp only [List.length_cons] at hl; omega
    · simp [pure, Except.pure] at h2

/-- An identifier has at least one character, so `parse_id` moves the iterator. -/
theorem parse_id_lt (it id r : List Char) (h : parser.parse_id it = Except.ok (id, r)) :
    r.length < it.length ∧ id ≠ [] := by
  unfold parser.parse_id at h
  obtain ⟨it1, h1, h2⟩ := bind_ok _ _ _ h
  have hl := parse_skip_length _ _ h1
  split at h2
  · simp [throw, throwThe, MonadExceptOf.throw] at h2
  · simp only at h2
    split at h2
    · rename_i hfound
      simp only [pure, Except.pure, Except.ok.injEq, Prod.mk.injEq] at h2
      have hne : List.dropWhile (fun c => !parser.is_id_char c) it1 ≠ [] := by
        simpa using hfound
      obtain ⟨c, cs, hc⟩ := List.exists_cons_of_ne_nil hne
      have hhead : parser.is_id_char c = true := by
        have := List.head_dropWhile_not (fun c => !parser.is_id_char c) it1 hne
        simp only [hc, List.head_cons] at this
        simpa using this
      have hid : id ≠ [] := by
        rw [← h2.1, hc, List.takeWhile_cons, hhead]
        simp
      have hit1 : it1 ≠ [] := by
        intro e
        rw [e] at hne
        simp at hne
      have hlen1 : 0 < it1.length := List.length_pos.2 hit1
      have hlen2 : 0 < id.length := List.length_pos.2 hid
      refine ⟨?_, hid⟩
      rw [← h2.2, h2.1]
      simp only [List.length_drop]
      omega
    · simp [throw, throwThe, MonadExceptOf.throw] at h2

theorem id_list_loop_no_fuel (fuel : Nat) (it : List Char) (acc : List (List Char))
    (hf : it.length < fuel) : parser.id_list_loop fuel it acc ≠ Except.error Err.fuel := by
  induction fuel generalizing it acc with
  | zero => omega
  | succ fuel ih =>
    cases it with
    | nil => simp [parser.id_list_loop, pure, Except.pure]
    | cons c cs =>
      simp only [parser.id_list_loop]
      refine bind_no_fuel _ _ (parse_char_no_fuel _ _) (fun p hp => ?_)
      obtain ⟨comma, it1⟩ := p
      simp only
      split
      · rename_i hcomma
        subst hcomma
        have l1 := parse_char_true_length _ _ _ hp
        refine bind_no_fuel _ _ (parse_id_no_fuel _) (fun q hq => ?_)
        obtain ⟨id, it2⟩ := q
        have l2 := parse_id_length _ _ _ hq
        have l3 : it2.length < fuel := by
          simp only [List.length_cons] at l1 hf
          omega
        exact ih it2 _ l3
      · simp [pure, Except.pure]

theorem parse_id_list_no_fuel (it : List Char) :
    parser.parse_id_list it ≠ Except.error Err.fuel := by
  unfold parser.parse_id_list
  refine bind_no_fuel _ _ (parse_char_no_fuel _ _) (fun p _ => ?_)
  obtain ⟨open_brace, it1⟩ := p
  simp only
  split
  · simp [throw, throwThe, MonadExceptOf.throw]
  · refine bind_no_fuel _ _ (parse_id_no_fuel _) (fun q _ => ?_)
    obtain ⟨id, it2⟩ := q
    refine bind_no_fuel _ _ (id_list_loop_no_fuel _ _ _ (by omega)) (fun r _ => ?_)
    obtain ⟨result, it3⟩ := r
    refine bind_no_fuel _ _ (parse_char_no_fuel _ _) (fun s _ => ?_)
    obtain ⟨close_brace, it4⟩ := s
    simp only
    split
    · simp [throw, throwThe, MonadExceptOf.throw]
    · split <;> simp [pure, Except.pure, throw, throwThe, MonadExceptOf.throw]

theorem first_chars_no_fuel (ids : List (List Char)) :
    parser.first_chars ids ≠ Except.error Err.fuel := by
  induction ids with
  | nil => simp [parser.first_chars, pure, Except.pure]
  | cons s rest ih =>
    rw [parser.first_chars]
    refine bind_no_fuel _ _ ?_ (fun c _ => bind_no_fuel _ _ ih (fun cs _ => ?_))
    · unfold at_
      split <;> simp
    · simp [pure, Except.pure]

theorem parse_section_no_fuel (ch : Char) (v : parser.Vars) (it : List Char) :
    parser.parse_section ch v it ≠ Except.error Err.fuel := by
  have hthrow : ∀ (α : Type) (msg : String),
      (throw (Err.parser_exception msg) : Except Err α) ≠ Except.error Err.fuel := by
    intro α msg
    simp [throw, throwThe, MonadExceptOf.throw]
  have hlist : ∀ (it1 : List Char) (f : List (List Char) × List Char → Except Err (parser.Vars × List Char)),
      (∀ p, f p ≠ Except.error Err.fuel) →
      (parser.parse_id_list it1 >>= f) ≠ Except.error Err.fuel :=
    fun it1 f hf => bind_no_fuel _ _ (parse_id_list_no_fuel _) (fun p _ => hf p)
  unfold parser.parse_section
  simp only
  split
  · refine bind_no_fuel _ _ (parse_char_no_fuel _ _) (fun p _ => ?_)
    obtain ⟨eq, it1⟩ := p
    simp only
    split
    · exact hthrow _ _
    · exact hlist _ _ (fun p => by simp [pure, Except.pure])
  · split
    · refine bind_no_fuel _ _ (parse_char_no_fuel _ _) (fun p _ => ?_)
      obtain ⟨eq, it1⟩ := p
      simp only
      split
      · exact hthrow _ _
      · exact hlist _ _ (fun p =>
          bind_no_fuel _ _ (first_chars_no_fuel _) (fun cs _ => by simp [pure, Except.pure]))
    · split
      · refine bind_no_fuel _ _ (parse_char_no_fuel _ _) (fun p _ => ?_)
        obtain ⟨eq, it1⟩ := p
        simp only
        split
        · exact hthrow _ _
        · exact hlist _ _ (fun p =>
            bind_no_fuel _ _ (first_chars_no_fuel _) (fun cs _ => by simp [pure, Except.pure]))
      · split
        · refine bind_no_fuel _ _ (parse_char_no_fuel _ _) (fun p _ => ?_)
          obtain ⟨zero, it1⟩ := p
          simp only
          split
          · exact hthrow _ _
          · refine bind_no_fuel _ _ (parse_char_no_fuel _ _) (fun q _ => ?_)
            obtain ⟨eq, it2⟩ := q
            simp only
            split
            · exact hthrow _ _
            · exact bind_no_fuel _ _ (parse_id_no_fuel _)
                (fun r _ => by simp [pure, Except.pure])
        · split
          · refine bind_no_fuel _ _ (parse_char_no_fuel _ _) (fun p _ => ?_)
            obtain ⟨eq, it1⟩ := p
            simp only
            split
            · exact hthrow _ _
            · refine bind_no_fuel _ _ (skip_loop_no_fuel _ _) (fun it2 _ => ?_)
              cases it2 <;> simp [pure, Except.pure, throw, throwThe, MonadExceptOf.throw]
          · split
            · refine bind_no_fuel _ _ (parse_char_no_fuel _ _) (fun p _ => ?_)
              obtain ⟨eq, it1⟩ := p
              simp only
              split
              · exact hthrow _ _
              · exact hlist _ _ (fun p => by simp [pure, Except.pure])
            · exact hthrow _ _

theorem parse_state_no_fuel (it : List Char) :
    parser.parse_state it ≠ Except.error Err.fuel := by
  unfold parser.parse_state
  exact bind_no_fuel _ _ (parse_id_no_fuel _) (fun p _ => by simp [pure, Except.pure])

theorem parse_state_lt (it r : List Char) (st : State)
    (h : parser.parse_state it = Except.ok (st, r)) : r.length < it.length := by
  unfold parser.parse_state at h
  obtain ⟨⟨id, it1⟩, h1, h2⟩ := bind_ok _ _ _ h
  simp only [pure, Except.pure, Except.ok.injEq, Prod.mk.injEq] at h2
  rw [← h2.2]
  exact (parse_id_lt _ _ _ h1).1

theorem dirs_loop_length (it : List Char) (acc : List Direction) :
    (parser.dirs_loop it acc).2.length ≤ it.length := by
  induction it generalizing acc with
  | nil => simp [parser.dirs_loop]
  | cons c cs ih =>
    rw [parser.dirs_loop]
    split
    · have := ih (acc ++ [Direction.L]); simp only [List.length_cons]; omega
    · split
      · have := ih (acc ++ [Direction.R]); simp only [List.length_cons]; omega
      · split
        · have := ih (acc ++ [Direction.N]); simp only [List.length_cons]; omega
        · simp

theorem parse_dirs_no_fuel (it : List Char) :
    parser.parse_dirs it ≠ Except.error Err.fuel := by
  unfold parser.parse_dirs
  refine bind_no_fuel _ _ (skip_loop_no_fuel _ _) (fun it1 _ => ?_)
  simp only
  split <;> simp [pure, Except.pure, throw, throwThe, MonadExceptOf.throw]

theorem parse_dirs_length (it r : List Char) (ds : List Direction)
    (h : parser.parse_dirs it = Except.ok (ds, r)) : r.length ≤ it.length := by
  unfold parser.parse_dirs at h
  obtain ⟨it1, h1, h2⟩ := bind_ok _ _ _ h
  have l1 := parse_skip_length _ _ h1
  have l2 := dirs_loop_length it1 []
  simp only at h2
  split at h2
  · simp [throw, throwThe, MonadExceptOf.throw] at h2
  · simp only [pure, Except.pure, Except.ok.injEq, Prod.mk.injEq] at h2
    rw [← h2.2]
    omega

theorem tran_loop_no_fuel (n fuel : Nat) (it : List Char) (acc : List Transition)
    (hf : it.length < fuel) : parser.tran_loop n fuel it acc ≠ Except.error Err.fuel := by
  induction fuel generalizing it acc with
  | zero => omega
  | succ fuel ih =>
    cases it with
    | nil => simp [parser.tran_loop, pure, Except.pure]
    | cons c cs =>
      simp only [parser.tran_loop]
      refine bind_no_fuel _ _ (parse_state_no_fuel _) (fun p1 h1 => ?_)
      obtain ⟨old_state, it1⟩ := p1
      have l1 := parse_state_lt _ _ _ h1
      refine bind_no_fuel _ _ (parse_id_no_fuel _) (fun p2 h2 => ?_)
      obtain ⟨old_syms, it2⟩ := p2
      have l2 := parse_id_length _ _ _ h2
      refine bind_no_fuel _ _ (parse_id_no_fuel _) (fun p3 h3 => ?_)
      obtain ⟨new_syms, it3⟩ := p3
      have l3 := parse_id_length _ _ _ h3
      refine bind_no_fuel _ _ (parse_dirs_no_fuel _) (fun p4 h4 => ?_)
      obtain ⟨dirs, it4⟩ := p4
      have l4 := parse_dirs_length _ _ _ h4
      refine bind_no_fuel _ _ (parse_state_no_fuel _) (fun p5 h5 => ?_)
      obtain ⟨new_state, it5⟩ := p5
      have l5 := parse_state_lt _ _ _ h5
      refine bind_no_fuel _ _ (skip_loop_no_fuel _ _) (fun it6 h6 => ?_)
      have l6 := parse_skip_length _ _ h6
      have l7 : it6.length < fuel := by
        simp only [List.length_cons] at l1 hf
        dsimp only at l2 l3 l4 l5 l6
        omega
      exact ih it6 _ l7

theorem parse_N_no_fuel (input : List Char) (v : parser.Vars) (it : List Char) :
    parser.parse_N input v it ≠ Except.error Err.fuel := by
  unfold parser.parse_N
  split
  · simp [throw, throwThe, MonadExceptOf.throw]
  · refine bind_no_fuel _ _ (parse_char_no_fuel _ _) (fun p _ => ?_)
    obtain ⟨eq, it1⟩ := p
    simp only
    split
    · simp [throw, throwThe, MonadExceptOf.throw]
    · refine bind_no_fuel _ _ (skip_loop_no_fuel _ _) (fun it2 _ => ?_)
      refine bind_no_fuel _ _ (parse_id_no_fuel _) (fun q _ => ?_)
      obtain ⟨id, it3⟩ := q
      refine bind_no_fuel _ _ ?_ (fun n _ => ?_)
      · unfold parser.stoi
        simp only
        split
        · simp [throw, throwThe, MonadExceptOf.throw]
        · split <;> simp [pure, Except.pure, throw, throwThe, MonadExceptOf.throw]
      · refine bind_no_fuel _ _ ?_ (fun ts _ => by simp [pure, Except.pure])
        unfold parser.parse_tran
        exact bind_no_fuel _ _ (skip_loop_no_fuel _ _)
          (fun it4 _ => tran_loop_no_fuel _ _ _ _ (by omega))

theorem parse_loop_no_fuel (input : List Char) (fuel : Nat) (v : parser.Vars) (it : List Char)
    (hf : it.length < fuel) : parser.parse_loop input fuel v it ≠ Except.error Err.fuel := by
  induction fuel generalizing v it with
  | zero => omega
  | succ fuel ih =>
    cases it with
    | nil => simp [parser.parse_loop, throw, throwThe, MonadExceptOf.throw]
    | cons c cs =>
      simp only [parser.parse_loop]
      refine bind_no_fuel _ _ (skip_loop_no_fuel _ _) (fun it1 h1 => ?_)
      have l1 := parse_skip_length _ _ h1
      cases it1 with
      | nil => simp [throw, throwThe, MonadExceptOf.throw]
      | cons ch it2 =>
        simp only
        split
        · cases it2 with
          | nil => simp [throw, throwThe, MonadExceptOf.throw]
          | cons ch2 it3 =>
            simp only
            split
            · exact parse_N_no_fuel _ _ _
            · refine bind_no_fuel _ _ (parse_section_no_fuel _ _ _) (fun p hp => ?_)
              obtain ⟨v1, it4⟩ := p
              have l2 := (parse_section_spec _ _ _ _ _ hp).1
              have l3 : it4.length < fuel := by
                simp only [List.length_cons] at l1 hf
                omega
              exact ih v1 it4 l3
        · simp [throw, throwThe, MonadExceptOf.throw]

/-- The fuel of the embedding is never used up: `parse` ends in a machine or in one of
the failures of the source, for every text and every input word. -/
theorem parse_no_fuel (program input : List Char) :
    parser.parse program input ≠ Except.error Err.fuel := by
  unfold parser.parse
  exact parse_loop_no_fuel _ _ _ _ (by omega)

/-! ### Reachable tapes -/

/-- Every tape built by the constructor and changed by `write`, `move` and `gc` is well
formed. -/
theorem reachable_WF (t : Tape) (h : Reachable t) : t.WF := by
  induction h with
  | ctor blank input => exact ctor_WF blank input
  | write t ch _ ih => exact write_WF t ch ih
  | move t d _ ih => exact move_WF t d ih
  | gc t _ ih => exact gc_WF t ih

/-! ### The input checker -/

theorem find_isNone_iff (l : List Char) (ch : Char) :
    (l.find? (fun x => x == ch)).isNone = true ↔ ch ∉ l := by
  rw [Option.isNone_iff_eq_none, List.find?_eq_none]
  constructor
  · intro h hm
    exact h ch hm (by simp)
  · intro h x hx e
    have : x = ch := by simpa using e
    exact h (this ▸ hx)

theorem check_loop_spec (ck : Checker) (w : List Char) (k i : Nat) (hk : i + k = w.length) :
    (Checker.check_loop ck w k i = Except.ok ()
        ∧ ∀ j (hj : j < w.length), i ≤ j → w[j] ∈ ck.input_syms)
      ∨ ∃ (b : Nat) (hb : b < w.length), i ≤ b
          ∧ Checker.check_loop ck w k i = Except.error (Err.input_exception b)
          ∧ w[b] ∉ ck.input_syms
          ∧ ∀ j (hj : j < w.length), i ≤ j → j < b → w[j] ∈ ck.input_syms := by
  induction k generalizing i with
  | zero =>
    left
    exact ⟨rfl, fun j hj hij => by omega⟩
  | succ k ih =>
    have hi : i < w.length := by omega
    rw [Checker.check_loop]
    simp only [at_eq_ok _ _ hi, bind, Except.bind]
    by_cases hm : w[i] ∈ ck.input_syms
    · have hnone : ¬ ((ck.input_syms.find? (fun x => x == w[i])).isNone = true) := by
        rw [find_isNone_iff]; simpa using hm
      rw [if_neg hnone]
      rcases ih (i + 1) (by omega) with ⟨h1, h2⟩ | ⟨b, hb, hib, h1, h2, h3⟩
      · left
        refine ⟨h1, fun j hj hij => ?_⟩
        rcases Nat.eq_or_lt_of_le hij with e | l
        · subst e; exact hm
        · exact h2 j hj l
      · right
        refine ⟨b, hb, by omega, h1, h2, fun j hj hij hjb => ?_⟩
        rcases Nat.eq_or_lt_of_le hij with e | l
        · subst e; exact hm
        · exact h3 j hj l hjb
    · have hnone : (ck.input_syms.find? (fun x => x == w[i])).isNone = true := by
        rw [find_isNone_iff]; exact hm
      rw [if_pos hnone]
      right
      exact ⟨i, hi, le_rfl, rfl, hm, fun j hj hij hji => by omega⟩

/-- C12: for every input alphabet `A` and input word `w`, `Checker::check(w)` completes
without raising if and only if every character of `w` is in `A`; otherwise it raises
`input_exception` carrying exactly the smallest index `i` such that `w[i]` is not in
`A`. -/
theorem check_spec (ck : Checker) (w : List Char) :
    (ck.check w = Except.ok () ↔ ∀ x ∈ w, x ∈ ck.input_syms)
      ∧ (ck.check w ≠ Except.ok () →
          ∃ (i : Nat) (hi : i < w.length), ck.check w = Except.error (Err.input_exception i)
            ∧ w[i] ∉ ck.input_syms
            ∧ ∀ j (hj : j < w.length), j < i → w[j] ∈ ck.input_syms) := by
  unfold Checker.check
  rcases check_loop_spec ck w w.length 0 (by omega) with ⟨h1, h2⟩ | ⟨b, hb, -, h1, h2, h3⟩
  · refine ⟨⟨fun _ x hx => ?_, fun _ => h1⟩, fun h => absurd h1 h⟩
    obtain ⟨j, hj, rfl⟩ := List.getElem_of_mem hx
    exact h2 j hj (Nat.zero_le _)
  · refine ⟨⟨fun h => ?_, fun h => absurd (h _ (List.getElem_mem hb)) h2⟩, fun _ =>
      ⟨b, hb, h1, h2, fun j hj hjb => h3 j hj (Nat.zero_le _) hjb⟩⟩
    rw [h1] at h
    cases h

/-! ### Skipping -/

/-- Where `parse_skip` stops before the end, the character there is neither blank,
space nor the comment character. -/
theorem skip_loop_stops (b : Bool) (it : List Char) (c : Char) (r : List Char)
    (h : parser.skip_loop b it = Except.ok (c :: r)) :
    (parser.isblank c || parser.isspace c || c == ';') = false := by
  induction it generalizing b with
  | nil =>
    cases b with
    | false => simp [parser.skip_loop, pure, Except.pure] at h
    | true => simp [parser.skip_loop, throw, throwThe, MonadExceptOf.throw] at h
  | cons x xs ih =>
    cases b with
    | false =>
      rw [parser.skip_loop] at h
      split at h
      · split at h
        · exact ih _ h
        · exact ih _ h
      · rename_i hx
        simp only [pure, Except.pure, Except.ok.injEq, List.cons.injEq] at h
        rw [← h.1]
        simpa using hx
    | true =>
      rw [parser.skip_loop] at h
      split at h
      · exact ih _ h
      · exact ih _ h

/-- Inside a comment that the text ends without a newline, the iterator runs beyond
the end. -/
theorem skip_loop_open_comment (body : List Char) (h : '\n' ∉ body) :
    parser.skip_loop true body = Except.error Err.past_end := by
  induction body with
  | nil => rfl
  | cons x xs ih =>
    have hx : x ≠ '\n' := fun e => h (by simp [e])
    have hxs : '\n' ∉ xs := fun e => h (List.mem_cons_of_mem _ e)
    rw [parser.skip_loop]
    simp only [bne_iff_ne, ne_eq, hx, not_false_eq_true, if_true]
    exact ih hxs

/-- C20 fails on the code: on a text that ends inside a comment with no terminating
newline, `parse_skip` advances the iterator beyond the end of the text (and the loop
test then reads through it), here from the start of `; no newline` and from the start
of a text with a comment after its last section. -/
theorem parse_skip_open_comment :
    parser.parse_skip "; no newline".toList = Except.error Err.past_end
      ∧ parser.parse_skip "  \n ;".toList = Except.error Err.past_end
      ∧ parser.parse "#Q = {a} ; states".toList [] = Except.error Err.past_end := by
  refine ⟨by rfl, by rfl, by rfl⟩

/-! ### Properties of the tapes that every step keeps -/

theorem mem_nodes_move (t : Tape) (d : Direction) (nd : Node) (h : nd ∈ (t.move d).nodes) :
    nd ∈ t.nodes ∨ nd.content = t.blank := by
  cases d with
  | L =>
    cases hleft : t.left with
    | nil =>
      simp only [Tape.move, hleft, Tape.nodes, List.reverse_nil, List.nil_append,
        List.mem_cons] at h ⊢
      rcases h with e | e | e
      · right; rw [e]
      · left; exact Or.inl e
      · left; exact Or.inr e
    | cons p ps =>
      left
      simp only [Tape.move, hleft, Tape.nodes] at h ⊢
      simpa using h
  | R =>
    cases hright : t.right with
    | nil =>
      simp only [Tape.move, hright, Tape.nodes, List.reverse_cons, List.append_assoc,
        List.singleton_append, List.mem_append, List.mem_reverse, List.mem_cons,
        List.mem_nil_iff, or_false] at h ⊢
      rcases h with e | e | e
      · left; exact Or.inl e
      · left; exact Or.inr e
      · right; rw [e]
    | cons p ps =>
      left
      simp only [Tape.move, hright, Tape.nodes] at h ⊢
      simpa using h
  | N => exact Or.inl h

/-- A property of tapes that `write` of a symbol other than the wildcard and `move`
keep is kept by the loop that applies a transition. -/
theorem apply_loop_forall (P : Tape → Prop)
    (hw : ∀ (tp : Tape) (ch : Char), ch ≠ '*' → P tp → P (tp.write ch))
    (hm : ∀ (tp : Tape) (d : Direction), P tp → P (tp.move d))
    (tr : Transition) (k i : Nat) (tapes out : List Tape)
    (h : Machine.apply_loop tr k i tapes = Except.ok out) (hP : ∀ tp ∈ tapes, P tp) :
    out.length = tapes.length ∧ ∀ tp ∈ out, P tp := by
  induction k generalizing i tapes with
  | zero =>
    simp only [Machine.apply_loop, pure, Except.pure, Except.ok.injEq] at h
    rw [← h]
    exact ⟨rfl, hP⟩
  | succ k ih =>
    rw [Machine.apply_loop] at h
    obtain ⟨ns, h1, h2⟩ := bind_ok _ _ _ h
    obtain ⟨tapes1, h3, h4⟩ := bind_ok _ _ _ h2
    obtain ⟨tp, h5, h6⟩ := bind_ok _ _ _ h4
    obtain ⟨d, h7, h8⟩ := bind_ok _ _ _ h6
    have hP1 : tapes1.length = tapes.length ∧ ∀ tq ∈ tapes1, P tq := by
      split at h3
      · rename_i hns
        obtain ⟨tq, h9, h10⟩ := bind_ok _ _ _ h3
        obtain ⟨ns2, h11, h12⟩ := bind_ok _ _ _ h10
        simp only [pure, Except.pure, Except.ok.injEq] at h12
        have hq : tq ∈ tapes := by
          unfold at_ at h9
          split at h9
          · rename_i x hx
            simp only [Except.ok.injEq] at h9
            rw [← h9]
            exact List.getElem?_mem hx
          · cases h9
        have hns2 : ns2 = ns := by
          rw [h1] at h11
          simp only [Except.ok.injEq] at h11
          exact h11.symm
        rw [← h12]
        refine ⟨by simp, fun x hx => ?_⟩
        rcases List.mem_or_eq_of_mem_set hx with hx | hx
        · exact hP x hx
        · rw [hx, hns2]
          exact hw tq ns (by simpa using hns) (hP tq hq)
      · simp only [pure, Except.pure, Except.ok.injEq] at h3
        rw [← h3]
        exact ⟨rfl, hP⟩
    have hq : tp ∈ tapes1 := by
      unfold at_ at h5
      split at h5
      · rename_i x hx
        simp only [Except.ok.injEq] at h5
        rw [← h5]
        exact List.getElem?_mem hx
      · cases h5
    have hP2 : ∀ tq ∈ tapes1.set i (tp.move d), P tq := by
      intro x hx
      rcases List.mem_or_eq_of_mem_set hx with hx | hx
      · exact hP1.2 x hx
      · rw [hx]
        exact hm tp d (hP1.2 tp hq)
    obtain ⟨l, hl⟩ := ih _ _ h8 hP2
    refine ⟨?_, hl⟩
    rw [l, List.length_set, hP1.1]

theorem verbose_loop_forall (P : Tape → Prop) (hgc : ∀ tp : Tape, P tp → P tp.gc)
    (k i : Nat) (tapes out : List Tape)
    (h : Machine.verbose_loop k i tapes = Except.ok out) (hP : ∀ tp ∈ tapes, P tp) :
    out.length = tapes.length ∧ ∀ tp ∈ out, P tp := by
  induction k generalizing i tapes with
  | zero =>
    simp only [Machine.verbose_loop, pure, Except.pure, Except.ok.injEq] at h
    rw [← h]
    exact ⟨rfl, hP⟩
  | succ k ih =>
    rw [Machine.verbose_loop] at h
    obtain ⟨tp, h1, h2⟩ := bind_ok _ _ _ h
    have hq : tp ∈ tapes := by
      unfold at_ at h1
      split at h1
      · rename_i x hx
        simp only [Except.ok.injEq] at h1
        rw [← h1]
        exact List.getElem?_mem hx
      · cases h1
    have hP2 : ∀ tq ∈ tapes.set i tp.to_vec.2, P tq := by
      intro x hx
      rcases List.mem_or_eq_of_mem_set hx with hx | hx
      · exact hP x hx
      · rw [hx]
        exact hgc tp (hP tp hq)
    obtain ⟨l, hl⟩ := ih _ _ h2 hP2
    exact ⟨by rw [l, List.length_set], hl⟩

theorem scan_forall (P : Tape → Prop)
    (hw : ∀ (tp : Tape) (ch : Char), ch ≠ '*' → P tp → P (tp.write ch))
    (hm : ∀ (tp : Tape) (d : Direction), P tp → P (tp.move d))
    (m out : Machine) (syms : List Char) (ts : List Transition) (r : Bool)
    (h : Machine.scan m syms ts = Except.ok (r, out)) (hP : ∀ tp ∈ m.tapes, P tp) :
    out.n = m.n ∧ out.transitions = m.transitions ∧ out.n_step = m.n_step
      ∧ out.tapes.length = m.tapes.length ∧ ∀ tp ∈ out.tapes, P tp := by
  induction ts with
  | nil =>
    simp only [Machine.scan, pure, Except.pure, Except.ok.injEq, Prod.mk.injEq] at h
    rw [← h.2]
    exact ⟨rfl, rfl, rfl, rfl, hP⟩
  | cons t ts ih =>
    rw [Machine.scan] at h
    obtain ⟨matched, h1, h2⟩ := bind_ok _ _ _ h
    split at h2
    · obtain ⟨tapes, h3, h4⟩ := bind_ok _ _ _ h2
      simp only [pure, Except.pure, Except.ok.injEq, Prod.mk.injEq] at h4
      obtain ⟨l, hl⟩ := apply_loop_forall P hw hm _ _ _ _ _ h3 hP
      rw [← h4.2]
      exact ⟨rfl, rfl, rfl, l, hl⟩
    · exact ih h2

/-- A call of `step` that returns keeps the tape count, the table and the number of
tapes, adds one to the step counter, and keeps every property of the tapes that
`gc`, `write` of a symbol other than the wildcard and `move` keep. -/
theorem step_forall (P : Tape → Prop) (hgc : ∀ tp : Tape, P tp → P tp.gc)
    (hw : ∀ (tp : Tape) (ch : Char), ch ≠ '*' → P tp → P (tp.write ch))
    (hm : ∀ (tp : Tape) (d : Direction), P tp → P (tp.move d))
    (m out : Machine) (b r : Bool)
    (h : m.step b = Except.ok (r, out)) (hP : ∀ tp ∈ m.tapes, P tp) :
    out.n = m.n ∧ out.transitions = m.transitions ∧ out.n_step = m.n_step + 1
      ∧ out.tapes.length = m.tapes.length ∧ ∀ tp ∈ out.tapes, P tp := by
  unfold Machine.step at h
  obtain ⟨tapes, h1, h2⟩ := bind_ok _ _ _ h
  have h3 : tapes.length = m.tapes.length ∧ ∀ tp ∈ tapes, P tp := by
    split at h1
    · exact verbose_loop_forall P hgc _ _ _ _ h1 hP
    · simp only [pure, Except.pure, Except.ok.injEq] at h1
      rw [← h1]
      exact ⟨rfl, hP⟩
  obtain ⟨e1, e2, e3, e4, e5⟩ := scan_forall P hw hm _ _ _ _ _ h2 h3.2
  exact ⟨e1, e2, e3, by rw [e4]; exact h3.1, e5⟩

theorem step_WF (m out : Machine) (b r : Bool) (h : m.step b = Except.ok (r, out))
    (hm : m.WF) : out.WF := by
  obtain ⟨e1, -, -, e4, e5⟩ := step_forall Tape.WF gc_WF (fun tp ch _ => write_WF tp ch)
    move_WF m out b r h hm.2
  refine ⟨?_, e5⟩
  show out.n ≤ out.tapes.length
  rw [e1, e4]
  exact hm.1

theorem ctor_machine_WF (n : Nat) (w : List Char) (ts : List Transition) (s : State) :
    (Machine.ctor n w ts s).WF := by
  constructor
  · show n ≤ (Machine.ctor n w ts s).tapes.length
    simp only [Machine.ctor, Machine.blank_tapes, List.length_cons, List.length_map,
      List.length_range]
    omega
  · intro tp htp
    simp only [Machine.ctor, Machine.blank_tapes, List.mem_cons, List.mem_map] at htp
    rcases htp with e | ⟨_, -, e⟩
    · rw [e]; exact ctor_WF _ _
    · rw [← e]; exact ctor_WF _ _

/-- Every reachable machine configuration is well formed. -/
theorem mreachable_WF (m : Machine) (h : MReachable m) : m.WF := by
  induction h with
  | ctor n input ts s => exact ctor_machine_WF n input ts s
  | step m out b r _ hs ih => exact step_WF m out b r hs ih

theorem gc_no_wildcard (t : Tape) (h : t.no_wildcard) : t.gc.no_wildcard :=
  ⟨h.1, fun nd hnd => h.2 nd (gc_nodes_subset t nd hnd)⟩

theorem write_no_wildcard (t : Tape) (ch : Char) (hc : ch ≠ '*') (h : t.no_wildcard) :
    (t.write ch).no_wildcard := by
  refine ⟨h.1, fun nd hnd => ?_⟩
  simp only [Tape.write, Tape.nodes, List.mem_append, List.mem_reverse, List.mem_cons] at hnd
  rcases hnd with e | e | e
  · exact h.2 nd (by simp [Tape.nodes, e])
  · rw [e]; exact hc
  · exact h.2 nd (by simp [Tape.nodes, e])

theorem move_no_wildcard (t : Tape) (d : Direction) (h : t.no_wildcard) :
    (t.move d).no_wildcard := by
  refine ⟨by rw [move_blank]; exact h.1, fun nd hnd => ?_⟩
  rcases mem_nodes_move t d nd hnd with e | e
  · exact h.2 nd e
  · rw [e]; exact h.1

theorem ctor_no_wildcard (w : List Char) (hw : '*' ∉ w) : (Tape.ctor '_' w).no_wildcard := by
  refine ⟨by rw [ctor_blank_eq]; decide, fun nd hnd => ?_⟩
  rw [ctor_nodes] at hnd
  rcases List.mem_cons.1 hnd with e | hnd
  · rw [e]; decide
  · by_cases hnil : w = []
    · rw [if_pos hnil] at hnd
      simp only [List.mem_singleton] at hnd
      rw [hnd]; decide
    · rw [if_neg hnil, mem_cells] at hnd
      obtain ⟨j, hj, e⟩ := hnd
      rw [e]
      exact fun e2 => hw (e2 ▸ List.getElem_mem hj)

theorem run_no_wildcard (flags : List Bool) (m out : Machine) (rs : List Bool)
    (h : Machine.run flags m = Except.ok (rs, out)) (hP : ∀ tp ∈ m.tapes, tp.no_wildcard) :
    ∀ tp ∈ out.tapes, tp.no_wildcard := by
  induction flags generalizing m rs with
  | nil =>
    simp only [Machine.run, pure, Except.pure, Except.ok.injEq, Prod.mk.injEq] at h
    rw [← h.2]
    exact hP
  | cons b bs ih =>
    rw [Machine.run] at h
    obtain ⟨⟨r, m1⟩, h1, h2⟩ := bind_ok _ _ _ h
    obtain ⟨⟨rs1, m2⟩, h3, h4⟩ := bind_ok _ _ _ h2
    simp only [pure, Except.pure, Except.ok.injEq, Prod.mk.injEq] at h4
    rw [h4.2] at h3
    exact ih m1 rs1 h3
      (step_forall Tape.no_wildcard gc_no_wildcard write_no_wildcard move_no_wildcard
        m m1 b r h1 hP).2.2.2.2

theorem read_at_no_wildcard (t : Tape) (h : t.no_wildcard) (k : Int) : t.read_at k ≠ '*' := by
  unfold Tape.read_at
  split
  · rename_i nd hnd
    exact h.2 nd (List.mem_of_find?_eq_some hnd)
  · exact h.1

/-- C16: the wildcard never occupies a tape cell.  For every machine constructed from an
input word that does not contain `*`, with any tape count, transition table and initial
state, after every number of `step` calls (verbose or not) that return, no linked cell of
any tape holds `*`, and no cell read by its index does. -/
theorem wildcard_never_on_tape (n : Nat) (input : List Char) (ts : List Transition)
    (s : State) (flags rs : List Bool) (out : Machine) (hin : '*' ∉ input)
    (hrun : Machine.run flags (Machine.ctor n input ts s) = Except.ok (rs, out)) :
    ∀ tp ∈ out.tapes, (∀ nd ∈ tp.nodes, nd.content ≠ '*') ∧ ∀ k : Int, tp.read_at k ≠ '*' := by
  have h0 : ∀ tp ∈ (Machine.ctor n input ts s).tapes, tp.no_wildcard := by
    intro tp htp
    simp only [Machine.ctor, Machine.blank_tapes, List.mem_cons, List.mem_map] at htp
    rcases htp with e | ⟨_, -, e⟩
    · rw [e]; exact ctor_no_wildcard input hin
    · rw [← e]; exact ctor_no_wildcard [] (by simp)
  intro tp htp
  have := run_no_wildcard flags _ out rs hrun h0 tp htp
  exact ⟨this.2, read_at_no_wildcard tp this⟩

theorem wildcard_never_on_tape_witness :
    '*' ∉ ['0']
      ∧ Machine.run [false, true] flip_machine = Except.ok ([true, false], flip_halted)
      ∧ ∀ tp ∈ flip_halted.tapes,
          (∀ nd ∈ tp.nodes, nd.content ≠ '*') ∧ ∀ k : Int, tp.read_at k ≠ '*' :=
  ⟨by decide, by rfl,
    wildcard_never_on_tape 1 ['0']
      [⟨⟨['q', '0']⟩, ⟨['q', '1']⟩, ['0'], ['1'], [Direction.R], 1⟩] ⟨['q', '0']⟩
      [false, true] [true, false] flip_halted (by decide) (by rfl)⟩

theorem match_total (t : Transition) (s : State) (syms : List Char)
    (h : syms.length ≤ t.old_syms.length) : ∃ r, t.match_ s syms = Except.ok r := by
  unfold Transition.match_
  split
  · exact ⟨false, rfl⟩
  · obtain ⟨r, hr, -⟩ := match_loop_spec t syms syms.length 0 (by omega) h
    exact ⟨r, hr⟩

theorem scan_total (m : Machine) (syms : List Char) (ts : List Transition)
    (hs : syms.length = m.tapes.length)
    (hlen : ∀ t ∈ ts, m.tapes.length ≤ t.old_syms.length
      ∧ m.tapes.length ≤ t.new_syms.length ∧ m.tapes.length ≤ t.dirs.length) :
    ∃ r out, Machine.scan m syms ts = Except.ok (r, out) := by
  induction ts with
  | nil => exact ⟨false, m, rfl⟩
  | cons t ts ih =>
    obtain ⟨h1, h2, h3⟩ := hlen t (List.mem_cons_self _ _)
    obtain ⟨r, hr⟩ := match_total t m.state syms (by omega)
    rw [Machine.scan, hr]
    cases r with
    | true =>
      obtain ⟨out, ho, -, -⟩ := apply_loop_spec t syms.length 0 m.tapes
        (by omega) (by omega) (by omega)
      exact ⟨true, { m with state := t.new_state, tapes := out },
        by simp [bind, Except.bind, ho, pure, Except.pure]⟩
    | false =>
      obtain ⟨r2, out, ho⟩ := ih (fun u hu => hlen u (List.mem_cons_of_mem _ hu))
      exact ⟨r2, out, by simpa [bind, Except.bind] using ho⟩

/-- C18: if every transition of the table has trigger-symbol, result-symbol and
direction lists at least as long as the number of tapes of the machine, then from
every reachable configuration `step` (verbose or not) performs no out-of-range access:
every `at` is in range and the call returns a flag and a configuration, which is
reachable, has the same table and the same number of tapes, so that the next call
returns as well. -/
theorem step_in_range (m : Machine) (is_verbose : Bool) (hreach : MReachable m)
    (hlen : ∀ t ∈ m.transitions, m.tapes.length ≤ t.old_syms.length
      ∧ m.tapes.length ≤ t.new_syms.length ∧ m.tapes.length ≤ t.dirs.length) :
    ∃ (r : Bool) (out : Machine), m.step is_verbose = Except.ok (r, out)
      ∧ MReachable out ∧ out.transitions = m.transitions
      ∧ out.tapes.length = m.tapes.length := by
  have hwf := mreachable_WF m hreach
  obtain ⟨tapes, hv, hl, -⟩ := step_tapes_spec m is_verbose hwf
  obtain ⟨r, out, hs⟩ := scan_total { m with tapes := tapes, n_step := m.n_step + 1 }
    m.cur_syms m.transitions (by simp [Machine.cur_syms, hl])
    (fun t ht => by rw [show ({ m with tapes := tapes, n_step := m.n_step + 1 } :
      Machine).tapes.length = m.tapes.length from hl]; exact hlen t ht)
  have hstep : m.step is_verbose = Except.ok (r, out) := by
    simp only [Machine.step, hv, bind, Except.bind]
    exact hs
  obtain ⟨-, e2, -, e4, -⟩ := step_forall (fun _ => True) (fun _ _ => trivial)
    (fun _ _ _ _ => trivial) (fun _ _ _ => trivial) m out is_verbose r hstep
    (fun _ _ => trivial)
  exact ⟨r, out, hstep, MReachable.step m out is_verbose r hreach hstep, e2, e4⟩

theorem step_in_range_witness :
    MReachable flip_machine
      ∧ (∀ t ∈ flip_machine.transitions, flip_machine.tapes.length ≤ t.old_syms.length
          ∧ flip_machine.tapes.length ≤ t.new_syms.length
          ∧ flip_machine.tapes.length ≤ t.dirs.length)
      ∧ ∃ (r : Bool) (out : Machine), flip_machine.step true = Except.ok (r, out)
          ∧ MReachable out ∧ out.transitions = flip_machine.transitions
          ∧ out.tapes.length = flip_machine.tapes.length :=
  ⟨MReachable.ctor _ _ _ _, by decide,
    step_in_range flip_machine true (MReachable.ctor _ _ _ _) (by decide)⟩

/-! ### Tapes that differ only in blank cells at the far ends -/

theorem rdropWhile_cons {α : Type} (p : α → Bool) (x : α) (l : List α) :
    (x :: l).rdropWhile p
      = if (l.rdropWhile p).isEmpty then (if p x then [] else [x])
        else x :: l.rdropWhile p := by
  induction l using List.reverseRecOn with
  | nil => simp [List.rdropWhile_singleton]
  | append_singleton l a ih =>
    rw [← List.cons_append]
    by_cases ha : p a = true
    · rw [List.rdropWhile_concat_pos _ _ _ ha, List.rdropWhile_concat_pos _ _ _ ha]
      exact ih
    · rw [List.rdropWhile_concat_neg _ _ _ ha, List.rdropWhile_concat_neg _ _ _ ha]
      simp

/-- Equal compactions of two non-empty lists whose heads are equal when both can be
dropped: the heads are equal, and so are the compactions of the tails. -/
theorem rdropWhile_cons_inj {α : Type} (p : α → Bool) (x y : α) (l k : List α)
    (h : (x :: l).rdropWhile p = (y :: k).rdropWhile p)
    (hxy : p x = true → p y = true → x = y) :
    x = y ∧ l.rdropWhile p = k.rdropWhile p := by
  rw [rdropWhile_cons, rdropWhile_cons] at h
  by_cases hl : (l.rdropWhile p).isEmpty = true <;>
    by_cases hk : (k.rdropWhile p).isEmpty = true
  · rw [if_pos hl, if_pos hk] at h
    refine ⟨?_, by rw [List.isEmpty_iff.1 hl, List.isEmpty_iff.1 hk]⟩
    by_cases hx : p x = true <;> by_cases hy : p y = true
    · exact hxy hx hy
    · rw [if_pos hx, if_neg hy] at h; cases h
    · rw [if_neg hx, if_pos hy] at h; cases h
    · rw [if_neg hx, if_neg hy] at h
      injection h
  · rw [if_pos hl, if_neg hk] at h
    exfalso
    split at h
    · cases h
    · injection h with _ h2
      exact hk (List.isEmpty_iff.2 h2.symm)
  · rw [if_neg hl, if_pos hk] at h
    exfalso
    split at h
    · cases h
    · injection h with _ h2
      exact hl (List.isEmpty_iff.2 h2)
  · rw [if_neg hl, if_neg hk] at h
    injection h with h1 h2
    exact ⟨h1, h2⟩

theorem rdropWhile_cons_nil {α : Type} (p : α → Bool) (y : α) (k : List α)
    (h : (y :: k).rdropWhile p = []) : p y = true ∧ k.rdropWhile p = [] := by
  rw [List.rdropWhile_eq_nil_iff] at h
  refine ⟨h y (List.mem_cons_self _ _), ?_⟩
  rw [List.rdropWhile_eq_nil_iff]
  exact fun z hz => h z (List.mem_cons_of_mem _ hz)

theorem gc_eq_iff (t u : Tape) :
    t.gc = u.gc ↔ t.blank = u.blank ∧ t.cur = u.cur
      ∧ t.left.rdropWhile (fun nd => nd.content == t.blank)
          = u.left.rdropWhile (fun nd => nd.content == t.blank)
      ∧ t.right.rdropWhile (fun nd => nd.content == t.blank)
          = u.right.rdropWhile (fun nd => nd.content == t.blank) := by
  constructor
  · intro h
    have hb : t.gc.blank = u.gc.blank := congrArg Tape.blank h
    have hc : t.gc.cur = u.gc.cur := congrArg Tape.cur h
    simp only [Tape.gc] at hb hc
    have hl := congrArg Tape.left h
    have hr := congrArg Tape.right h
    simp only [Tape.gc] at hl hr
    rw [← hb] at hl hr
    exact ⟨hb, hc, hl, hr⟩
  · rintro ⟨hb, hc, hl, hr⟩
    simp only [Tape.gc, Tape.mk.injEq]
    rw [← hb]
    exact ⟨rfl, hl, hc, hr⟩

theorem write_gc_congr (t u : Tape) (ch : Char) (h : t.gc = u.gc) :
    (t.write ch).gc = (u.write ch).gc := by
  rw [gc_eq_iff] at h ⊢
  obtain ⟨hb, hc, hl, hr⟩ := h
  exact ⟨hb, by simp only [Tape.write]; rw [hc], hl, hr⟩

theorem rdropWhile_cons_congr {α : Type} (p : α → Bool) (x : α) (l k : List α)
    (h : l.rdropWhile p = k.rdropWhile p) : (x :: l).rdropWhile p = (x :: k).rdropWhile p := by
  rw [rdropWhile_cons, rdropWhile_cons, h]

/-- Moving towards a side on two lists with equal compactions: the cell moved onto is
the same, a fresh cell `f` standing in on an empty side, provided a droppable first
cell equals `f`; and the compactions of what is left are equal. -/
theorem toward_congr {α : Type} (p : α → Bool) (f : α) (l k : List α)
    (h : l.rdropWhile p = k.rdropWhile p)
    (hl : ∀ x, l.head? = some x → p x = true → x = f)
    (hk : ∀ y, k.head? = some y → p y = true → y = f) :
    l.head?.getD f = k.head?.getD f ∧ l.tail.rdropWhile p = k.tail.rdropWhile p := by
  cases l with
  | nil =>
    cases k with
    | nil => exact ⟨rfl, rfl⟩
    | cons y ks =>
      rw [List.rdropWhile_nil] at h
      obtain ⟨h1, h2⟩ := rdropWhile_cons_nil p y ks h.symm
      exact ⟨(hk y rfl h1).symm, by simp [h2]⟩
  | cons x ls =>
    cases k with
    | nil =>
      rw [List.rdropWhile_nil] at h
      obtain ⟨h1, h2⟩ := rdropWhile_cons_nil p x ls h
      exact ⟨hl x rfl h1, by simp [h2]⟩
    | cons y ks =>
      obtain ⟨h1, h2⟩ := rdropWhile_cons_inj p x y ls ks h
        (fun hx hy => (hl x rfl hx).trans (hk y rfl hy).symm)
      exact ⟨h1, h2⟩

theorem move_L_eq (t : Tape) :
    t.move Direction.L
      = { t with left := t.left.tail, cur := t.left.head?.getD ⟨t.blank, t.cur.index - 1⟩,
                 right := t.cur :: t.right } := by
  cases hleft : t.left <;> simp [Tape.move, hleft]

theorem move_R_eq (t : Tape) :
    t.move Direction.R
      = { t with right := t.right.tail, cur := t.right.head?.getD ⟨t.blank, t.cur.index + 1⟩,
                 left := t.cur :: t.left } := by
  cases hright : t.right <;> simp [Tape.move, hright]

theorem head_left_fresh (t : Tape) (h : t.WF) (x : Node) (hx : t.left.head? = some x)
    (hp : (x.content == t.blank) = true) : x = ⟨t.blank, t.cur.index - 1⟩ := by
  cases hleft : t.left with
  | nil => rw [hleft] at hx; cases hx
  | cons y ys =>
    rw [hleft] at hx
    simp only [List.head?_cons, Option.some.injEq] at hx
    have hc := h.1
    rw [hleft] at hc
    simp only [Tape.chain_left, Bool.and_eq_true, beq_iff_eq] at hc
    subst hx
    simp only [beq_iff_eq] at hp
    cases y
    simp only at hp hc
    rw [hp, hc.1]

theorem head_right_fresh (t : Tape) (h : t.WF) (x : Node) (hx : t.right.head? = some x)
    (hp : (x.content == t.blank) = true) : x = ⟨t.blank, t.cur.index + 1⟩ := by
  cases hright : t.right with
  | nil => rw [hright] at hx; cases hx
  | cons y ys =>
    rw [hright] at hx
    simp only [List.head?_cons, Option.some.injEq] at hx
    have hc := h.2
    rw [hright] at hc
    simp only [Tape.chain_right, Bool.and_eq_true, beq_iff_eq] at hc
    subst hx
    simp only [beq_iff_eq] at hp
    cases y
    simp only at hp hc
    rw [hp, hc.1]

/-- On well-formed tapes that are equal after compaction, a move gives tapes that are
equal after compaction. -/
theorem move_gc_congr (t u : Tape) (d : Direction) (ht : t.WF) (hu : u.WF)
    (h : t.gc = u.gc) : (t.move d).gc = (u.move d).gc := by
  obtain ⟨hb, hc, hl, hr⟩ := (gc_eq_iff t u).1 h
  cases d with
  | L =>
    obtain ⟨e1, e2⟩ := toward_congr (fun nd => nd.content == t.blank)
      ⟨t.blank, t.cur.index - 1⟩ t.left u.left hl
      (fun x hx hp => head_left_fresh t ht x hx hp)
      (fun y hy hp => by
        have := head_left_fresh u hu y hy (by rw [← hb]; exact hp)
        rw [this, hb, hc])
    rw [move_L_eq, move_L_eq, gc_eq_iff]
    refine ⟨hb, ?_, e2, ?_⟩
    · show t.left.head?.getD _ = u.left.head?.getD _
      rw [e1, hb, hc]
    · show (t.cur :: t.right).rdropWhile _ = (u.cur :: u.right).rdropWhile _
      rw [← hc]
      exact rdropWhile_cons_congr _ _ _ _ hr
  | R =>
    obtain ⟨e1, e2⟩ := toward_congr (fun nd => nd.content == t.blank)
      ⟨t.blank, t.cur.index + 1⟩ t.right u.right hr
      (fun x hx hp => head_right_fresh t ht x hx hp)
      (fun y hy hp => by
        have := head_right_fresh u hu y hy (by rw [← hb]; exact hp)
        rw [this, hb, hc])
    rw [move_R_eq, move_R_eq, gc_eq_iff]
    refine ⟨hb, ?_, ?_, e2⟩
    · show t.right.head?.getD _ = u.right.head?.getD _
      rw [e1, hb, hc]
    · show (t.cur :: t.left).rdropWhile _ = (u.cur :: u.left).rdropWhile _
      rw [← hc]
      exact rdropWhile_cons_congr _ _ _ _ hl
  | N => exact h

theorem apply_tape_gc_congr (ns : Char) (d : Direction) (t u : Tape) (ht : t.WF) (hu : u.WF)
    (h : t.gc = u.gc) : (apply_tape ns d t).gc = (apply_tape ns d u).gc := by
  unfold apply_tape
  split
  · exact move_gc_congr _ _ d (write_WF t ns ht) (write_WF u ns hu) (write_gc_congr t u ns h)
  · exact move_gc_congr _ _ d ht hu h

theorem apply_tape_WF (ns : Char) (d : Direction) (t : Tape) (ht : t.WF) :
    (apply_tape ns d t).WF := (apply_tape_spec ns d t ht).1

/-- A tape and its compaction are observed alike. -/
theorem observe_gc (t : Tape) : t.gc.observe = t.observe := by
  simp only [Tape.observe, Tape.to_vec, gc_gc, gc_to_string]
  rfl

theorem observe_congr (t u : Tape) (h : t.gc = u.gc) : t.observe = u.observe := by
  rw [← observe_gc t, ← observe_gc u, h]

/-! ### The verbose flag -/

theorem apply_loop_succ (tr : Transition) (k i : Nat) (tapes : List Tape) :
    Machine.apply_loop tr (k + 1) i tapes
      = match tr.new_syms[i]?, tapes[i]?, tr.dirs[i]? with
        | some ns, some tp, some d =>
          Machine.apply_loop tr k (i + 1) (tapes.set i (apply_tape ns d tp))
        | _, _, _ => Except.error Err.out_of_range := by
  rw [Machine.apply_loop]
  cases h1 : tr.new_syms[i]? with
  | none => simp [at_, h1, bind, Except.bind]
  | some ns =>
    cases h2 : tapes[i]? with
    | none =>
      by_cases hns : ns = '*' <;> simp [at_, h1, h2, hns, bind, Except.bind, pure, Except.pure]
    | some tp =>
      have hi : i < tapes.length := by
        rcases Nat.lt_or_ge i tapes.length with h | h
        · exact h
        · rw [List.getElem?_eq_none h] at h2; cases h2
      cases h3 : tr.dirs[i]? with
      | none =>
        by_cases hns : ns = '*' <;>
          simp [at_, h1, h2, h3, hns, hi, bind, Except.bind, pure, Except.pure]
      | some d =>
        by_cases hns : ns = '*' <;>
          simp [at_, h1, h2, h3, hns, hi, bind, Except.bind, pure, Except.pure, apply_tape]

theorem verbose_loop_succ (k i : Nat) (tapes : List Tape) :
    Machine.verbose_loop (k + 1) i tapes
      = match tapes[i]? with
        | some tp => Machine.verbose_loop k (i + 1) (tapes.set i tp.gc)
        | none => Except.error Err.out_of_range := by
  rw [Machine.verbose_loop]
  cases h : tapes[i]? <;> simp [at_, h, bind, Except.bind, Tape.to_vec]

/-- Equal after compaction, entry by entry. -/
theorem map_gc_get (tapes others : List Tape) (h : tapes.map Tape.gc = others.map Tape.gc)
    (i : Nat) :
    (tapes[i]? = none ∧ others[i]? = none)
      ∨ ∃ tp tq, tapes[i]? = some tp ∧ others[i]? = some tq ∧ tp.gc = tq.gc := by
  have hi := congrArg (fun l => l[i]?) h
  simp only [List.getElem?_map] at hi
  cases h1 : tapes[i]? with
  | none =>
    cases h2 : others[i]? with
    | none => exact Or.inl ⟨rfl, rfl⟩
    | some tq => rw [h1, h2] at hi; cases hi
  | some tp =>
    cases h2 : others[i]? with
    | none => rw [h1, h2] at hi; cases hi
    | some tq =>
      rw [h1, h2] at hi
      simp only [Option.map_some', Option.some.injEq] at hi
      exact Or.inr ⟨tp, tq, rfl, rfl, hi⟩

theorem set_forall {P : Tape → Prop} (tapes : List Tape) (i : Nat) (tp : Tape)
    (h : ∀ x ∈ tapes, P x) (hp : P tp) : ∀ x ∈ tapes.set i tp, P x := by
  intro x hx
  rcases List.mem_or_eq_of_mem_set hx with hx | hx
  · exact h x hx
  · rw [hx]; exact hp

/-- The loop that applies a transition, on two tape lists that are well formed and
equal after compaction: the same exception, or results equal after compaction. -/
theorem apply_loop_congr (tr : Transition) (k i : Nat) (tapes others : List Tape)
    (hw : ∀ tp ∈ tapes, tp.WF) (hv : ∀ tp ∈ others, tp.WF)
    (h : tapes.map Tape.gc = others.map Tape.gc) :
    (Machine.apply_loop tr k i tapes).map (List.map Tape.gc)
      = (Machine.apply_loop tr k i others).map (List.map Tape.gc) := by
  induction k generalizing i tapes others with
  | zero => simp [Machine.apply_loop, pure, Except.pure, Except.map, h]
  | succ k ih =>
    rw [apply_loop_succ, apply_loop_succ]
    rcases map_gc_get tapes others h i with ⟨h1, h2⟩ | ⟨tp, tq, h1, h2, h3⟩
    · rw [h1, h2]
      cases tr.new_syms[i]? <;> rfl
    · rw [h1, h2]
      cases hns : tr.new_syms[i]? with
      | none => rfl
      | some ns =>
        cases hd : tr.dirs[i]? with
        | none => rfl
        | some d =>
          simp only
          have wtp := hw tp (List.getElem?_mem h1)
          have wtq := hv tq (List.getElem?_mem h2)
          apply ih
          · exact set_forall tapes i _ hw (apply_tape_WF ns d tp wtp)
          · exact set_forall others i _ hv (apply_tape_WF ns d tq wtq)
          · rw [List.map_set, List.map_set, h, apply_tape_gc_congr ns d tp tq wtp wtq h3]

theorem step_tapes_gc (m : Machine) (b : Bool) (hm : m.WF) :
    ∃ tapes, (if b then Machine.verbose_loop m.n_tape 0 m.tapes else pure m.tapes)
        = Except.ok tapes
      ∧ tapes.map Tape.gc = m.tapes.map Tape.gc ∧ ∀ tp ∈ tapes, tp.WF := by
  cases b with
  | false => exact ⟨m.tapes, rfl, rfl, hm.2⟩
  | true =>
    obtain ⟨tapes, hv, -, hget⟩ := verbose_loop_spec m.n_tape 0 m.tapes (by have := hm.1; omega)
    refine ⟨tapes, by simpa using hv, ?_, ?_⟩
    · apply List.ext_getElem?
      intro j
      rw [List.getElem?_map, List.getElem?_map, hget j]
      split
      · cases m.tapes[j]? <;> simp [gc_gc]
      · rfl
    · exact (verbose_loop_forall Tape.WF gc_WF _ _ _ _ hv hm.2).2

/-- The scan of the table on two machines that agree but for blank cells at the far
ends of their tapes: the same exception, or the same flag and machines that agree
after compaction. -/
theorem scan_congr (a c : Machine) (syms : List Char) (ts : List Transition)
    (hn : a.n = c.n) (hs : a.state = c.state) (ht : a.transitions = c.transitions)
    (hk : a.n_step = c.n_step) (hw : ∀ tp ∈ a.tapes, tp.WF) (hv : ∀ tp ∈ c.tapes, tp.WF)
    (h : a.tapes.map Tape.gc = c.tapes.map Tape.gc) :
    (Machine.scan a syms ts).map (fun p => (p.1, p.2.compact))
      = (Machine.scan c syms ts).map (fun p => (p.1, p.2.compact)) := by
  induction ts with
  | nil =>
    simp only [Machine.scan, pure, Except.pure, Except.map, Machine.compact]
    rw [hn, hs, ht, hk, h]
  | cons t ts ih =>
    rw [Machine.scan, Machine.scan, ← hs]
    cases hm : t.match_ a.state syms with
    | error e => rfl
    | ok matched =>
      cases matched with
      | false => simpa [bind, Except.bind] using ih
      | true =>
        have hc := apply_loop_congr t syms.length 0 a.tapes c.tapes hw hv h
        simp only [bind, Except.bind, if_true]
        cases h1 : Machine.apply_loop t syms.length 0 a.tapes with
        | error e =>
          cases h2 : Machine.apply_loop t syms.length 0 c.tapes with
          | error e2 =>
            rw [h1, h2] at hc
            simp only [Except.map, Except.error.injEq] at hc
            simp [Except.map, hc]
          | ok out2 => rw [h1, h2] at hc; cases hc
        | ok out1 =>
          cases h2 : Machine.apply_loop t syms.length 0 c.tapes with
          | error e2 => rw [h1, h2] at hc; cases hc
          | ok out2 =>
            rw [h1, h2] at hc
            simp only [Except.map, Except.ok.injEq] at hc
            simp only [pure, Except.pure, Except.map, Machine.compact]
            rw [hn, ht, hk, hc]

theorem cur_syms_compact (m : Machine) : m.compact.cur_syms = m.cur_syms := by
  simp only [Machine.cur_syms, Machine.compact, List.map_map]
  rfl

/-- One call of `step`, with any two verbosity flags, on two well-formed machines that
agree after compaction: the same exception, or the same flag and machines that agree
after compaction. -/
theorem step_congr (m k : Machine) (b c : Bool) (hm : m.WF) (hk : k.WF)
    (h : m.compact = k.compact) :
    (m.step b).map (fun p => (p.1, p.2.compact))
      = (k.step c).map (fun p => (p.1, p.2.compact)) := by
  have hn : m.compact.n = k.compact.n := congrArg Machine.n h
  have hs : m.compact.state = k.compact.state := congrArg Machine.state h
  have ht : m.compact.transitions = k.compact.transitions := congrArg Machine.transitions h
  have hc : m.compact.n_step = k.compact.n_step := congrArg Machine.n_step h
  have hg : m.compact.tapes = k.compact.tapes := congrArg Machine.tapes h
  have hsyms : m.cur_syms = k.cur_syms := by
    rw [← cur_syms_compact m, ← cur_syms_compact k, h]
  obtain ⟨t1, e1, g1, w1⟩ := step_tapes_gc m b hm
  obtain ⟨t2, e2, g2, w2⟩ := step_tapes_gc k c hk
  simp only [Machine.step, e1, e2, bind, Except.bind]
  rw [hsyms]
  cases m
  cases k
  simp only [Machine.compact] at hn hs ht hc hg g1 g2 w1 w2 ⊢
  subst hn hs ht hc
  exact scan_congr _ _ _ _ rfl rfl rfl rfl w1 w2 (by rw [g1, g2]; exact hg)

theorem run_congr (flags1 flags2 : List Bool) (m k : Machine)
    (hlen : flags1.length = flags2.length) (hm : m.WF) (hk : k.WF)
    (h : m.compact = k.compact) :
    (Machine.run flags1 m).map (fun p => (p.1, p.2.compact))
      = (Machine.run flags2 k).map (fun p => (p.1, p.2.compact)) := by
  induction flags1 generalizing flags2 m k with
  | nil =>
    cases flags2 with
    | nil => simp [Machine.run, pure, Except.pure, Except.map, h]
    | cons c cs => simp at hlen
  | cons b bs ih =>
    cases flags2 with
    | nil => simp at hlen
    | cons c cs =>
      have hs := step_congr m k b c hm hk h
      rw [Machine.run, Machine.run]
      cases h1 : m.step b with
      | error e =>
        cases h2 : k.step c with
        | error e2 =>
          rw [h1, h2] at hs
          simp only [Except.map, Except.error.injEq] at hs
          simp [bind, Except.bind, Except.map, hs]
        | ok q => rw [h1, h2] at hs; cases hs
      | ok p =>
        cases h2 : k.step c with
        | error e2 => rw [h1, h2] at hs; cases hs
        | ok q =>
          obtain ⟨r, m1⟩ := p
          obtain ⟨r2, k1⟩ := q
          rw [h1, h2] at hs
          simp only [Except.map, Except.ok.injEq, Prod.mk.injEq] at hs
          have hi := ih cs m1 k1 (by simpa using hlen) (step_WF m m1 b r h1 hm)
            (step_WF k k1 c r2 h2 hk) hs.2
          simp only [bind, Except.bind]
          cases h3 : Machine.run bs m1 with
          | error e =>
            cases h4 : Machine.run cs k1 with
            | error e2 =>
              rw [h3, h4] at hi
              simp only [Except.map, Except.error.injEq] at hi
              simp [Except.map, hi]
            | ok q => rw [h3, h4] at hi; cases hi
          | ok p =>
            cases h4 : Machine.run cs k1 with
            | error e2 => rw [h3, h4] at hi; cases hi
            | ok q =>
              rw [h3, h4] at hi
              simp only [Except.map, Except.ok.injEq, Prod.mk.injEq] at hi
              simp [pure, Except.pure, Except.map, hs.1, hi.1, hi.2]

theorem observe_compact (m : Machine) : m.compact.observe = m.observe := by
  simp only [Machine.observe, Machine.compact, List.map_map]
  congr 2
  apply List.map_congr_left
  intro t _
  exact observe_gc t

theorem map_observe_of_compact {α : Type} (x y : Except Err (α × Machine))
    (h : x.map (fun p => (p.1, p.2.compact)) = y.map (fun p => (p.1, p.2.compact))) :
    x.map (fun p => (p.1, p.2.observe)) = y.map (fun p => (p.1, p.2.observe)) := by
  cases x with
  | error e =>
    cases y with
    | error e2 => simpa [Except.map] using h
    | ok q => cases h
  | ok p =>
    cases y with
    | error e2 => cases h
    | ok q =>
      simp only [Except.map, Except.ok.injEq, Prod.mk.injEq] at h ⊢
      exact ⟨h.1, by rw [← observe_compact p.2, ← observe_compact q.2, h.2]⟩

/-- C13: the verbose flag has no semantic effect.  From every reachable machine
configuration, `step(true)` and `step(false)` end alike: in the same exception, or with
the same applied/halted result and configurations that are observed alike (same
control state, same step counter, and for every tape the same cursor index, symbol
under the cursor, `to_string()` and `to_vec()`).  The same holds for any two sequences of
calls of `step` of equal length, whatever the verbosity flag of each call: the same
results call by call and configurations observed alike at the end, although every
verbose call compacts the tapes before matching. -/
theorem verbose_no_effect (m : Machine) (hreach : MReachable m) (flags1 flags2 : List Bool)
    (hlen : flags1.length = flags2.length) :
    (m.step true).map (fun p => (p.1, p.2.observe))
        = (m.step false).map (fun p => (p.1, p.2.observe))
      ∧ (Machine.run flags1 m).map (fun p => (p.1, p.2.observe))
        = (Machine.run flags2 m).map (fun p => (p.1, p.2.observe)) := by
  have hw := mreachable_WF m hreach
  exact ⟨map_observe_of_compact _ _ (step_congr m m true false hw hw rfl),
    map_observe_of_compact _ _ (run_congr flags1 flags2 m m hlen hw hw rfl)⟩

theorem verbose_no_effect_witness :
    MReachable flip_machine ∧ [true, true].length = [false, false].length
      ∧ (flip_machine.step true).map (fun p => (p.1, p.2.observe))
          = (flip_machine.step false).map (fun p => (p.1, p.2.observe))
      ∧ (Machine.run [true, true] flip_machine).map (fun p => (p.1, p.2.observe))
          = (Machine.run [false, false] flip_machine).map (fun p => (p.1, p.2.observe)) :=
  ⟨MReachable.ctor _ _ _ _, rfl,
    verbose_no_effect flip_machine (MReachable.ctor _ _ _ _) [true, true] [false, false] rfl⟩

/-! ### What compaction removes -/

/-- C14: for every reachable tape, `gc()` removes exactly the maximal run `a` of blank
cells next to the left boundary and the maximal run `b` of blank cells next to the
right boundary, each run ending at the latest before the cursor cell: the cells were
`a` reversed, the cells kept, then `b`; every cell of `a` and `b` is blank; the kept cell
next to either boundary, if it is not the cursor cell, is not blank.  The cursor cell is
kept, and the cursor index, the symbol under the cursor, `to_string()` and every cell
content are unchanged, so that a following `write` or `move` gives a tape that is
observed (cursor index, symbol, `to_string()`, `to_vec()`) and read exactly as it would
have been without the compaction. -/
theorem gc_removes_blank_runs (t : Tape) (hreach : Reachable t) :
    (∃ a b : List Node, t.left = t.gc.left ++ a ∧ t.right = t.gc.right ++ b
        ∧ (∀ nd ∈ a, nd.content = t.blank) ∧ (∀ nd ∈ b, nd.content = t.blank)
        ∧ t.nodes = a.reverse ++ t.gc.nodes ++ b)
      ∧ (∀ h : t.gc.left ≠ [], (t.gc.left.getLast h).content ≠ t.blank)
      ∧ (∀ h : t.gc.right ≠ [], (t.gc.right.getLast h).content ≠ t.blank)
      ∧ t.gc.cur = t.cur ∧ t.gc.blank = t.blank
      ∧ t.gc.cur_index = t.cur_index ∧ t.gc.cur_sym = t.cur_sym
      ∧ t.gc.to_string = t.to_string
      ∧ (∀ k : Int, t.gc.read_at k = t.read_at k)
      ∧ (∀ ch : Char, (t.gc.write ch).observe = (t.write ch).observe
          ∧ ∀ k : Int, (t.gc.write ch).read_at k = (t.write ch).read_at k)
      ∧ (∀ d : Direction, (t.gc.move d).observe = (t.move d).observe
          ∧ ∀ k : Int, (t.gc.move d).read_at k = (t.move d).read_at k) := by
  have hw := reachable_WF t hreach
  have hg := gc_WF t hw
  obtain ⟨a, ea, pa⟩ := rdropWhile_split (fun nd => nd.content == t.blank) t.left
  obtain ⟨b, eb, pb⟩ := rdropWhile_split (fun nd => nd.content == t.blank) t.right
  refine ⟨⟨a, b, ea, eb, fun nd hnd => by simpa using pa nd hnd,
    fun nd hnd => by simpa using pb nd hnd, ?_⟩, ?_, ?_, rfl, rfl, rfl, rfl,
    gc_to_string t, read_at_gc t hw, ?_, ?_⟩
  · simp only [Tape.nodes, Tape.gc]
    conv_lhs => rw [ea, eb]
    simp
  · intro h
    have h2 : t.left.rdropWhile (fun nd => nd.content == t.blank) ≠ [] := h
    have := List.rdropWhile_last_not (fun nd : Node => nd.content == t.blank) t.left h2
    simpa using this
  · intro h
    have h2 : t.right.rdropWhile (fun nd => nd.content == t.blank) ≠ [] := h
    have := List.rdropWhile_last_not (fun nd : Node => nd.content == t.blank) t.right h2
    simpa using this
  · intro ch
    refine ⟨observe_congr _ _ (write_gc_congr t.gc t ch (gc_gc t)), fun k => ?_⟩
    rw [read_at_write _ _ hg, read_at_write _ _ hw, read_at_gc t hw]
    rfl
  · intro d
    refine ⟨observe_congr _ _ (move_gc_congr t.gc t d hg hw (gc_gc t)), fun k => ?_⟩
    rw [read_at_move _ _ hg, read_at_move _ _ hw, read_at_gc t hw]

theorem gc_removes_blank_runs_witness :
    Reachable sample_tape
      ∧ sample_tape.nodes = [⟨'_', -1⟩].reverse ++ sample_tape.gc.nodes ++ [⟨'_', 1⟩]
      ∧ sample_tape.gc.to_string = sample_tape.to_string
      ∧ (sample_tape.gc.move Direction.L).observe = (sample_tape.move Direction.L).observe :=
  ⟨Reachable.move _ _ (Reachable.move _ _ (Reachable.ctor _ _)), by decide,
    (gc_removes_blank_runs sample_tape
      (Reachable.move _ _ (Reachable.move _ _ (Reachable.ctor _ _)))).2.2.2.2.2.2.2.1,
    ((gc_removes_blank_runs sample_tape
      (Reachable.move _ _ (Reachable.move _ _ (Reachable.ctor _ _)))).2.2.2.2.2.2.2.2.2.2
        Direction.L).1⟩

/-! ### Parsing a written transition list -/

theorem space_skippable (c : Char) (h : parser.isspace c = true) :
    (parser.isblank c || parser.isspace c || c == ';') = true ∧ (c == ';') = false := by
  refine ⟨by simp [h], ?_⟩
  simp only [parser.isspace, Bool.or_eq_true, beq_iff_eq] at h
  rcases h with ((((h | h) | h) | h) | h) | h <;> subst h <;> decide

theorem id_char_not_space (c : Char) (h : parser.is_id_char c = true) :
    (parser.isblank c || parser.isspace c || c == ';') = false := by
  by_contra hc
  simp only [Bool.not_eq_false, Bool.or_eq_true, parser.isblank, parser.isspace,
    beq_iff_eq] at hc
  have key : ∀ d : Char, c = d → parser.is_id_char d = false → False := by
    intro d e hd
    rw [e, hd] at h
    cases h
  rcases hc with ((h1 | h1) | h1) | h1
  · exact key _ h1 (by decide)
  · exact key _ h1 (by decide)
  · rcases h1 with ((((h1 | h1) | h1) | h1) | h1) | h1 <;> exact key _ h1 (by decide)
  · exact key _ h1 (by decide)

theorem skip_space (g rest : List Char) (hg : parser.is_space g) :
    parser.skip_loop false (g ++ rest) = parser.skip_loop false rest := by
  induction g with
  | nil => rfl
  | cons c cs ih =>
    obtain ⟨h1, h2⟩ := space_skippable c (hg c (List.mem_cons_self _ _))
    rw [List.cons_append, parser.skip_loop, if_pos h1]
    simp only [h2, Bool.false_eq_true, if_false]
    exact ih (fun d hd => hg d (List.mem_cons_of_mem _ hd))

theorem skip_stop (c : Char) (r : List Char)
    (h : (parser.isblank c || parser.isspace c || c == ';') = false) :
    parser.skip_loop false (c :: r) = Except.ok (c :: r) := by
  rw [parser.skip_loop]
  simp [h, pure, Except.pure]

/-- Skipping whitespace in front of an identifier stops at the identifier. -/
theorem skip_to_ident (g s rest : List Char) (hg : parser.is_space g) (hs : parser.is_ident s) :
    parser.parse_skip (g ++ (s ++ rest)) = Except.ok (s ++ rest) := by
  unfold parser.parse_skip
  rw [skip_space g _ hg]
  obtain ⟨c, cs, rfl⟩ := List.exists_cons_of_ne_nil hs.1
  exact skip_stop c _ (id_char_not_space c (hs.2 c (List.mem_cons_self _ _)))

theorem takeWhile_ident (s rest : List Char) (hs : ∀ c ∈ s, parser.is_id_char c = true)
    (hrest : ∀ c, rest.head? = some c → parser.is_id_char c = false) :
    (s ++ rest).takeWhile parser.is_id_char = s := by
  induction s with
  | nil =>
    cases rest with
    | nil => rfl
    | cons c r => simp [List.takeWhile_cons, hrest c rfl]
  | cons c cs ih =>
    rw [List.cons_append, List.takeWhile_cons, hs c (List.mem_cons_self _ _),
      ih (fun d hd => hs d (List.mem_cons_of_mem _ hd))]
    rfl

/-- `parse_id` on whitespace, an identifier, and a rest that does not continue the
identifier: the identifier, and the iterator at the rest. -/
theorem parse_id_ident (g s rest : List Char) (hg : parser.is_space g)
    (hs : parser.is_ident s)
    (hrest : ∀ c, rest.head? = some c → parser.is_id_char c = false) :
    parser.parse_id (g ++ (s ++ rest)) = Except.ok (s, rest) := by
  unfold parser.parse_id
  rw [skip_to_ident g s rest hg hs]
  obtain ⟨c, cs, rfl⟩ := List.exists_cons_of_ne_nil hs.1
  have hc : parser.is_id_char c = true := hs.2 c (List.mem_cons_self _ _)
  have hd : (parser.isalnum c || c == '_') = true := hc
  have hcond : (!parser.isalnum (parser.deref (c :: cs ++ rest))
      && parser.deref (c :: cs ++ rest) != '_') = false := by
    simp only [List.cons_append, parser.deref]
    simp only [Bool.or_eq_true, beq_iff_eq] at hd
    rcases hd with h | h
    · simp [h]
    · simp [h]
  have hfound : (c :: cs ++ rest).dropWhile (fun x => !parser.is_id_char x)
      = c :: cs ++ rest := by
    rw [List.cons_append, List.dropWhile_cons]
    simp [hc]
  have htake := takeWhile_ident (c :: cs) rest hs.2 hrest
  simp only [bind, Except.bind, hcond, Bool.false_eq_true, if_false, hfound, htake]
  simp [pure, Except.pure]

theorem space_not_id (c : Char) (h : parser.isspace c = true) :
    parser.is_id_char c = false := by
  by_contra hc
  have := id_char_not_space c (by simpa using hc)
  simp [h] at this

/-- After a non-empty run of whitespace, or at the end, an identifier cannot continue. -/
theorem gap_stops_ident (g rest : List Char) (hg : parser.is_space g)
    (hne : g ≠ [] ∨ rest = []) :
    ∀ c, (g ++ rest).head? = some c → parser.is_id_char c = false := by
  intro c hc
  cases g with
  | nil =>
    rcases hne with h | h
    · exact absurd rfl h
    · rw [h] at hc; cases hc
  | cons x xs =>
    simp only [List.cons_append, List.head?_cons, Option.some.injEq] at hc
    rw [← hc]
    exact space_not_id x (hg x (List.mem_cons_self _ _))

theorem dirs_loop_text (ds rest : List Char) (acc : List Direction)
    (hds : ∀ c ∈ ds, c = 'l' ∨ c = 'r' ∨ c = '*')
    (hrest : ∀ c, rest.head? = some c → c ≠ 'l' ∧ c ≠ 'r' ∧ c ≠ '*') :
    parser.dirs_loop (ds ++ rest) acc = (acc ++ ds.map parser.to_dir, rest) := by
  induction ds generalizing acc with
  | nil =>
    cases rest with
    | nil => simp [parser.dirs_loop]
    | cons c r =>
      obtain ⟨h1, h2, h3⟩ := hrest c rfl
      simp [parser.dirs_loop, h1, h2, h3]
  | cons d ds ih =>
    have hrec := fun acc2 => ih acc2 (fun c hc => hds c (List.mem_cons_of_mem _ hc))
    rw [List.cons_append, parser.dirs_loop]
    rcases hds d (List.mem_cons_self _ _) with h | h | h
    · subst h
      simp [hrec, parser.to_dir]
    · subst h
      simp [hrec, parser.to_dir]
    · subst h
      simp [hrec, parser.to_dir]

theorem dir_char_not_space (c : Char) (h : c = 'l' ∨ c = 'r' ∨ c = '*') :
    (parser.isblank c || parser.isspace c || c == ';') = false := by
  rcases h with h | h | h <;> subst h <;> decide

theorem space_not_dir (c : Char) (h : parser.isspace c = true) :
    c ≠ 'l' ∧ c ≠ 'r' ∧ c ≠ '*' := by
  refine ⟨?_, ?_, ?_⟩ <;> intro e <;> subst e <;> revert h <;> decide

/-- `parse_dirs` on whitespace, a non-empty run of direction characters, and a rest that
does not continue the run. -/
theorem parse_dirs_text (g ds rest : List Char) (hg : parser.is_space g) (hne : ds ≠ [])
    (hds : ∀ c ∈ ds, c = 'l' ∨ c = 'r' ∨ c = '*')
    (hrest : ∀ c, rest.head? = some c → c ≠ 'l' ∧ c ≠ 'r' ∧ c ≠ '*') :
    parser.parse_dirs (g ++ (ds ++ rest)) = Except.ok (ds.map parser.to_dir, rest) := by
  unfold parser.parse_dirs parser.parse_skip
  rw [skip_space g _ hg]
  obtain ⟨d, ds2, rfl⟩ := List.exists_cons_of_ne_nil hne
  rw [List.cons_append, skip_stop d _ (dir_char_not_space d (hds d (List.mem_cons_self _ _)))]
  simp only [bind, Except.bind]
  rw [← List.cons_append, dirs_loop_text (d :: ds2) rest [] hds hrest]
  simp [pure, Except.pure]

theorem gap_stops_dirs (g rest : List Char) (hg : parser.is_space g) (hne : g ≠ []) :
    ∀ c, (g ++ rest).head? = some c → c ≠ 'l' ∧ c ≠ 'r' ∧ c ≠ '*' := by
  intro c hc
  obtain ⟨x, xs, rfl⟩ := List.exists_cons_of_ne_nil hne
  simp only [List.cons_append, List.head?_cons, Option.some.injEq] at hc
  rw [← hc]
  exact space_not_dir x (hg x (List.mem_cons_self _ _))

theorem parse_state_ident (g s rest : List Char) (hg : parser.is_space g)
    (hs : parser.is_ident s)
    (hrest : ∀ c, rest.head? = some c → parser.is_id_char c = false) :
    parser.parse_state (g ++ (s ++ rest)) = Except.ok (⟨s⟩, rest) := by
  unfold parser.parse_state
  rw [parse_id_ident g s rest hg hs hrest]
  rfl

/-- One pass of the loop of `parse_tran` over a well written tuple: the transition is
appended, and the loop goes on after the whitespace that follows. -/
theorem tran_loop_tuple (n f : Nat) (t : parser.Tuple) (rest : List Char)
    (acc : List Transition) (hv : t.valid) (hsep : t.gap5 ≠ [] ∨ rest = []) :
    parser.tran_loop n (f + 1) (t.text ++ rest) acc
      = (parser.parse_skip rest >>= fun it6 =>
          parser.tran_loop n f it6 (acc ++ [t.transition n])) := by
  obtain ⟨h1, h2, h3, h4, ⟨h5, h5b⟩, ⟨g1, s1⟩, ⟨g2, s2⟩, ⟨g3, s3⟩, ⟨g4, s4⟩, s5⟩ := hv
  have hnil : parser.is_space [] := fun c hc => by simp at hc
  have e : t.text ++ rest = [] ++ (t.state ++ (t.gap1 ++ (t.syms1 ++ (t.gap2 ++ (t.syms2
      ++ (t.gap3 ++ (t.dirs ++ (t.gap4 ++ (t.state2 ++ (t.gap5 ++ rest)))))))))) := by
    simp [parser.Tuple.text]
  obtain ⟨c, cs, hc⟩ := List.exists_cons_of_ne_nil h1.1
  have hcons : ∃ x xs, t.text ++ rest = x :: xs := ⟨c, _, by rw [e, hc]; rfl⟩
  obtain ⟨x, xs, hx⟩ := hcons
  rw [hx, parser.tran_loop, ← hx, e]
  rw [parse_state_ident [] t.state _ hnil h1 (gap_stops_ident t.gap1 _ s1 (Or.inl g1))]
  simp only [bind, Except.bind, parser.parse_syms]
  rw [parse_id_ident t.gap1 t.syms1 _ s1 h2 (gap_stops_ident t.gap2 _ s2 (Or.inl g2))]
  simp only
  rw [parse_id_ident t.gap2 t.syms2 _ s2 h3 (gap_stops_ident t.gap3 _ s3 (Or.inl g3))]
  simp only
  rw [parse_dirs_text t.gap3 t.dirs _ s3 h5 h5b (gap_stops_dirs t.gap4 _ s4 g4)]
  simp only
  rw [parse_state_ident t.gap4 t.state2 _ s4 h4 (gap_stops_ident t.gap5 rest s5 hsep)]
  simp only
  unfold parser.parse_skip
  rw [skip_space t.gap5 rest s5]
  rfl

theorem skip_at_token (rest : List Char)
    (h : ∀ c, rest.head? = some c → (parser.isblank c || parser.isspace c || c == ';') = false) :
    parser.parse_skip rest = Except.ok rest := by
  cases rest with
  | nil => rfl
  | cons c r => exact skip_stop c r (h c rfl)

theorem tuple_text_head (t : parser.Tuple) (hv : t.valid) (rest : List Char) :
    ∃ c r, t.text ++ rest = c :: r ∧ parser.is_id_char c = true := by
  obtain ⟨c, cs, hc⟩ := List.exists_cons_of_ne_nil hv.1.1
  refine ⟨c, _, by rw [parser.Tuple.text, hc]; rfl, hv.1.2 c (by rw [hc]; simp)⟩

theorem tuples_text_token (more : Prop) (ts : List parser.Tuple) (rest : List Char)
    (hts : parser.tuples_ok more ts)
    (hrest : ∀ c, rest.head? = some c →
      (parser.isblank c || parser.isspace c || c == ';') = false) :
    ∀ c, (parser.tuples_text ts ++ rest).head? = some c →
      (parser.isblank c || parser.isspace c || c == ';') = false := by
  cases ts with
  | nil => exact hrest
  | cons t ts =>
    intro c hc
    obtain ⟨x, r, e, hx⟩ := tuple_text_head t hts.1 (parser.tuples_text ts ++ rest)
    rw [parser.tuples_text, List.append_assoc, e] at hc
    simp only [List.head?_cons, Option.some.injEq] at hc
    rw [← hc]
    exact id_char_not_space x hx

/-- The loop of `parse_tran` over a list of well written tuples: their transitions are
appended in order, and the loop goes on at what follows the list. -/
theorem tran_loop_tuples (n : Nat) (ts : List parser.Tuple) (rest : List Char)
    (acc : List Transition) (fuel : Nat)
    (hts : parser.tuples_ok (rest ≠ []) ts)
    (hrest : ∀ c, rest.head? = some c →
      (parser.isblank c || parser.isspace c || c == ';') = false)
    (hf : (parser.tuples_text ts ++ rest).length < fuel) :
    ∃ fuel2, rest.length < fuel2
      ∧ parser.tran_loop n fuel (parser.tuples_text ts ++ rest) acc
        = parser.tran_loop n fuel2 rest (acc ++ ts.map (parser.Tuple.transition n)) := by
  induction ts generalizing acc fuel with
  | nil => exact ⟨fuel, by simpa [parser.tuples_text] using hf, by simp [parser.tuples_text]⟩
  | cons t ts ih =>
    obtain ⟨hv, hsep, hok⟩ := hts
    obtain ⟨f, rfl⟩ : ∃ f, fuel = f + 1 := ⟨fuel - 1, by omega⟩
    obtain ⟨x, r, e, -⟩ := tuple_text_head t hv []
    have hlen : 0 < t.text.length := by
      rw [List.append_nil] at e
      rw [e]; simp
    have hsep2 : t.gap5 ≠ [] ∨ parser.tuples_text ts ++ rest = [] := by
      by_cases h1 : ts = []
      · by_cases h2 : rest = []
        · right; rw [h1, h2]; rfl
        · left; exact hsep (Or.inr h2)
      · left; exact hsep (Or.inl h1)
    rw [parser.tuples_text, List.append_assoc] at hf ⊢
    rw [tran_loop_tuple n f t _ acc hv hsep2,
      skip_at_token _ (tuples_text_token _ ts rest hok hrest)]
    simp only [bind, Except.bind]
    obtain ⟨fuel2, h1, h2⟩ := ih (acc ++ [t.transition n]) f hok
      (by simp only [List.length_append] at hf ⊢; omega)
    refine ⟨fuel2, h1, ?_⟩
    rw [h2]
    simp

/-- `parse_tran` on whitespace and then a list of well written tuples up to the end of
the text: the transitions of the tuples, in order. -/
theorem parse_tran_tuples (n : Nat) (g : List Char) (ts : List parser.Tuple)
    (hg : parser.is_space g) (hts : parser.tuples_ok False ts) :
    parser.parse_tran n (g ++ parser.tuples_text ts)
      = Except.ok (ts.map (parser.Tuple.transition n)) := by
  have hnil : ∀ c, ([] : List Char).head? = some c →
      (parser.isblank c || parser.isspace c || c == ';') = false := fun c hc => by cases hc
  have hts2 : parser.tuples_ok (([] : List Char) ≠ []) ts := by
    have : (([] : List Char) ≠ []) = False := by simp
    rw [this]; exact hts
  unfold parser.parse_tran parser.parse_skip
  rw [skip_space g _ hg]
  have hs := skip_at_token (parser.tuples_text ts)
    (by simpa using tuples_text_token _ ts [] hts hnil)
  unfold parser.parse_skip at hs
  rw [hs]
  simp only [bind, Except.bind]
  obtain ⟨fuel2, h1, h2⟩ := tran_loop_tuples n ts [] [] ((parser.tuples_text ts).length + 1)
    hts2 hnil (by simp)
  rw [List.append_nil] at h2
  rw [h2]
  obtain ⟨f, rfl⟩ : ∃ f, fuel2 = f + 1 := ⟨fuel2 - 1, by omega⟩
  simp [parser.tran_loop, pure, Except.pure]

theorem parse_char_at (g rest : List Char) (ch : Char) (hg : parser.is_space g)
    (hch : (parser.isblank ch || parser.isspace ch || ch == ';') = false) :
    parser.parse_char (g ++ ch :: rest) ch = Except.ok (true, rest) := by
  unfold parser.parse_char parser.parse_skip
  rw [skip_space g _ hg, skip_stop ch rest hch]
  simp [bind, Except.bind, pure, Except.pure]

/-- The `#N` section on a written tape count and a written transition list: the machine
built from the count, the input word, the transitions of the tuples and the initial
state parsed before. -/
theorem parse_N_tuples (input : List Char) (v : parser.Vars)
    (ga gb digits g : List Char) (n : Nat) (ts : List parser.Tuple)
    (hc : v.tm_counter = 6) (hga : parser.is_space ga) (hgb : parser.is_space gb)
    (hdig : parser.is_ident digits) (hn : parser.stoi digits = Except.ok n)
    (hg : parser.is_space g) (hsep : ts ≠ [] → g ≠ []) (hts : parser.tuples_ok False ts) :
    parser.parse_N input v (ga ++ '=' :: (gb ++ (digits ++ (g ++ parser.tuples_text ts))))
      = Except.ok (Machine.ctor n input (ts.map (parser.Tuple.transition n))
          v.initial_state) := by
  have hnil : parser.is_space [] := fun c hc => by simp at hc
  have hstop : g ≠ [] ∨ parser.tuples_text ts = [] := by
    by_cases h : ts = []
    · right; rw [h]; rfl
    · left; exact hsep h
  unfold parser.parse_N
  have hcnt : (v.tm_counter != 6) = false := by rw [hc]; rfl
  rw [hcnt]
  simp only [Bool.false_eq_true, if_false]
  rw [parse_char_at ga _ '=' hga (by decide)]
  simp only [bind, Except.bind, Bool.not_true, Bool.false_eq_true, if_false]
  rw [skip_to_ident gb digits _ hgb hdig]
  simp only
  have hid := parse_id_ident [] digits _ hnil hdig (gap_stops_ident g _ hg hstop)
  rw [List.nil_append] at hid
  rw [hid]
  simp only
  rw [hn]
  simp only
  rw [parse_tran_tuples n g ts hg hts]
  rfl

/-- C11: for a specification text in which the `#N` section is reached after six other
sections, is written `#N`, `=`, a tape count, and is followed by a transition list made
of `k` whitespace-separated tuples `STATE SYMS1 SYMS2 DIRS STATE2` up to the end of the
text, `parse` returns a machine whose transition table has exactly `k` transitions in
the order they are written, the `j`-th having trigger state `STATE`, trigger symbols
equal to the characters of `SYMS1` in order, result symbols equal to the characters of
`SYMS2` in order, directions obtained from `DIRS` character by character (`l` to L, `r`
to R, `*` to N), and result state `STATE2`. -/
theorem parse_transition_list (program input : List Char) (v : parser.Vars)
    (it ga gb digits g : List Char) (n : Nat) (ts : List parser.Tuple)
    (hreach : parser.Reaches 6 parser.Vars.init program v it)
    (hN : parser.parse_skip it
      = Except.ok ('#' :: 'N' :: (ga ++ '=' :: (gb ++ (digits ++ (g ++ parser.tuples_text ts))))))
    (hga : parser.is_space ga) (hgb : parser.is_space gb)
    (hdig : parser.is_ident digits) (hn : parser.stoi digits = Except.ok n)
    (hg : parser.is_space g) (hsep : ts ≠ [] → g ≠ []) (hts : parser.tuples_ok False ts) :
    ∃ m : Machine, parser.parse program input = Except.ok m
      ∧ m = Machine.ctor n input (ts.map (parser.Tuple.transition n)) v.initial_state
      ∧ m.transitions.length = ts.length
      ∧ ∀ (j : Nat) (tr : Transition) (t : parser.Tuple),
          m.transitions[j]? = some tr → ts[j]? = some t →
            tr.old_state = ⟨t.state⟩ ∧ tr.old_syms = t.syms1 ∧ tr.new_syms = t.syms2
              ∧ tr.dirs = t.dirs.map parser.to_dir ∧ tr.new_state = ⟨t.state2⟩ := by
  obtain ⟨fuel2, hlt, he⟩ :=
    reaches_loop input 6 _ _ _ _ hreach (program.length + 1) (by omega)
  have hc : v.tm_counter = 6 := by
    have := reaches_counter _ _ _ _ _ hreach
    simpa [parser.Vars.init] using this
  obtain ⟨f, rfl⟩ : ∃ f, fuel2 = f + 1 := ⟨fuel2 - 1, by omega⟩
  have hparse : parser.parse program input
      = Except.ok (Machine.ctor n input (ts.map (parser.Tuple.transition n))
          v.initial_state) := by
    unfold parser.parse
    rw [he]
    cases it with
    | nil => simp [parser.parse_skip, parser.skip_loop, pure, Except.pure] at hN
    | cons c cs =>
      simp only [parser.parse_loop, hN, bind, Except.bind, beq_self_eq_true, if_true]
      exact parse_N_tuples input v ga gb digits g n ts hc hga hgb hdig hn hg hsep hts
  refine ⟨_, hparse, rfl, by simp [Machine.ctor], ?_⟩
  intro j tr t h1 h2
  simp only [Machine.ctor, List.getElem?_map, h2, Option.map_some', Option.some.injEq] at h1
  rw [← h1]
  exact ⟨rfl, rfl, rfl, rfl, rfl⟩

theorem flip_reaches :
    parser.Reaches 6 parser.Vars.init flip_program flip_vars
      "\n#N = 1\nq0 0 1 r q1\n".toList :=
  parser.Reaches.pass 5
    (parser.Vars.init)
    ({ states := [⟨['q', '0']⟩, ⟨['q', '1']⟩], input_syms := [], tape_syms := [], initial_state := ⟨[]⟩, blank := '\x00', tm_counter := 1 })
    flip_vars
    (flip_program)
    (" = \x7bq0,q1\x7d\n#S = \x7b0,1\x7d\n#G = \x7b0,1,_\x7d\n#q0 = q0\n#B = _\n#F = \x7bq1\x7d\n#N = 1\nq0 0 1 r q1\n".toList)
    ("\n#S = \x7b0,1\x7d\n#G = \x7b0,1,_\x7d\n#q0 = q0\n#B = _\n#F = \x7bq1\x7d\n#N = 1\nq0 0 1 r q1\n".toList)
    ("\n#N = 1\nq0 0 1 r q1\n".toList)
    'Q' (by rfl) (by decide) (by rfl)
    (parser.Reaches.pass 4
    ({ states := [⟨['q', '0']⟩, ⟨['q', '1']⟩], input_syms := [], tape_syms := [], initial_state := ⟨[]⟩, blank := '\x00', tm_counter := 1 })
    ({ states := [⟨['q', '0']⟩, ⟨['q', '1']⟩], input_syms := ['0', '1'], tape_syms := [], initial_state := ⟨[]⟩, blank := '\x00', tm_counter := 2 })
    flip_vars
    ("\n#S = \x7b0,1\x7d\n#G = \x7b0,1,_\x7d\n#q0 = q0\n#B = _\n#F = \x7bq1\x7d\n#N = 1\nq0 0 1 r q1\n".toList)
    (" = \x7b0,1\x7d\n#G = \x7b0,1,_\x7d\n#q0 = q0\n#B = _\n#F = \x7bq1\x7d\n#N = 1\nq0 0 1 r q1\n".toList)
    ("\n#G = \x7b0,1,_\x7d\n#q0 = q0\n#B = _\n#F = \x7bq1\x7d\n#N = 1\nq0 0 1 r q1\n".toList)
    ("\n#N = 1\nq0 0 1 r q1\n".toList)
    'S' (by rfl) (by decide) (by rfl)
    (parser.Reaches.pass 3
    ({ states := [⟨['q', '0']⟩, ⟨['q', '1']⟩], input_syms := ['0', '1'], tape_syms := [], initial_state := ⟨[]⟩, blank := '\x00', tm_counter := 2 })
    ({ states := [⟨['q', '0']⟩, ⟨['q', '1']⟩], input_syms := ['0', '1'], tape_syms := ['0', '1', '_'], initial_state := ⟨[]⟩, blank := '\x00', tm_counter := 3 })
    flip_vars
    ("\n#G = \x7b0,1,_\x7d\n#q0 = q0\n#B = _\n#F = \x7bq1\x7d\n#N = 1\nq0 0 1 r q1\n".toList)
    (" = \x7b0,1,_\x7d\n#q0 = q0\n#B = _\n#F = \x7bq1\x7d\n#N = 1\nq0 0 1 r q1\n".toList)
    ("\n#q0 = q0\n#B = _\n#F = \x7bq1\x7d\n#N = 1\nq0 0 1 r q1\n".toList)
    ("\n#N = 1\nq0 0 1 r q1\n".toList)
    'G' (by rfl) (by decide) (by rfl)
    (parser.Reaches.pass 2
    ({ states := [⟨['q', '0']⟩, ⟨['q', '1']⟩], input_syms := ['0', '1'], tape_syms := ['0', '1', '_'], initial_state := ⟨[]⟩, blank := '\x00', tm_counter := 3 })
    ({ states := [⟨['q', '0']⟩, ⟨['q', '1']⟩], input_syms := ['0', '1'], tape_syms := ['0', '1', '_'], initial_state := ⟨['q', '0']⟩, blank := '\x00', tm_counter := 4 })
    flip_vars
    ("\n#q0 = q0\n#B = _\n#F = \x7bq1\x7d\n#N = 1\nq0 0 1 r q1\n".toList)
    ("0 = q0\n#B = _\n#F = \x7bq1\x7d\n#N = 1\nq0 0 1 r q1\n".toList)
    ("\n#B = _\n#F = \x7bq1\x7d\n#N = 1\nq0 0 1 r q1\n".toList)
    ("\n#N = 1\nq0 0 1 r q1\n".toList)
    'q' (by rfl) (by decide) (by rfl)
    (parser.Reaches.pass 1
    ({ states := [⟨['q', '0']⟩, ⟨['q', '1']⟩], input_syms := ['0', '1'], tape_syms := ['0', '1', '_'], initial_state := ⟨['q', '0']⟩, blank := '\x00', tm_counter := 4 })
    ({ states := [⟨['q', '0']⟩, ⟨['q', '1']⟩], input_syms := ['0', '1'], tape_syms := ['0', '1', '_'], initial_state := ⟨['q', '0']⟩, blank := '_', tm_counter := 5 })
    flip_vars
    ("\n#B = _\n#F = \x7bq1\x7d\n#N = 1\nq0 0 1 r q1\n".toList)
    (" = _\n#F = \x7bq1\x7d\n#N = 1\nq0 0 1 r q1\n".toList)
    ("\n#F = \x7bq1\x7d\n#N = 1\nq0 0 1 r q1\n".toList)
    ("\n#N = 1\nq0 0 1 r q1\n".toList)
    'B' (by rfl) (by decide) (by rfl)
    (parser.Reaches.pass 0
    ({ states := [⟨['q', '0']⟩, ⟨['q', '1']⟩], input_syms := ['0', '1'], tape_syms := ['0', '1', '_'], initial_state := ⟨['q', '0']⟩, blank := '_', tm_counter := 5 })
    flip_vars
    flip_vars
    ("\n#F = \x7bq1\x7d\n#N = 1\nq0 0 1 r q1\n".toList)
    (" = \x7bq1\x7d\n#N = 1\nq0 0 1 r q1\n".toList)
    ("\n#N = 1\nq0 0 1 r q1\n".toList)
    ("\n#N = 1\nq0 0 1 r q1\n".toList)
    'F' (by rfl) (by decide) (by rfl)
    (parser.Reaches.start flip_vars _))))))

theorem flip_tuples_ok : parser.tuples_ok False [flip_tuple] := by
  refine ⟨?_, ?_, trivial⟩
  · decide
  · simp [flip_tuple]

theorem parse_transition_list_witness :
    parser.Reaches 6 parser.Vars.init flip_program flip_vars
        "\n#N = 1\nq0 0 1 r q1\n".toList
      ∧ parser.tuples_ok False [flip_tuple]
      ∧ ∃ m : Machine, parser.parse flip_program ['0'] = Except.ok m
          ∧ m.transitions = [flip_tuple].map (parser.Tuple.transition 1) :=
  ⟨flip_reaches, flip_tuples_ok,
    (parse_transition_list flip_program ['0'] flip_vars "\n#N = 1\nq0 0 1 r q1\n".toList
      [' '] [' '] ['1'] ['\n'] 1 [flip_tuple] flip_reaches (by rfl) (by decide) (by decide)
      (by decide) (by rfl) (by decide) (by simp) flip_tuples_ok).imp
      (fun m h => ⟨h.1, by rw [h.2.1]; rfl⟩)⟩

/-! ### No wildcard among the parsed symbols -/

theorem parse_id_chars (it id r : List Char) (h : parser.parse_id it = Except.ok (id, r)) :
    ∀ c ∈ id, parser.is_id_char c = true := by
  unfold parser.parse_id at h
  obtain ⟨it1, -, h2⟩ := bind_ok _ _ _ h
  split at h2
  · simp [throw, throwThe, MonadExceptOf.throw] at h2
  · simp only at h2
    split at h2
    · simp only [pure, Except.pure, Except.ok.injEq, Prod.mk.injEq] at h2
      intro c hc
      rw [← h2.1] at hc
      exact List.mem_takeWhile_imp hc
    · simp [throw, throwThe, MonadExceptOf.throw] at h2

theorem parse_id_no_wildcard (it id r : List Char)
    (h : parser.parse_id it = Except.ok (id, r)) : '*' ∉ id := by
  intro hc
  have := parse_id_chars it id r h '*' hc
  revert this
  decide

theorem tran_loop_no_wildcard (n fuel : Nat) (it : List Char) (acc out : List Transition)
    (h : parser.tran_loop n fuel it acc = Except.ok out)
    (hacc : ∀ t ∈ acc, '*' ∉ t.old_syms ∧ '*' ∉ t.new_syms) :
    ∀ t ∈ out, '*' ∉ t.old_syms ∧ '*' ∉ t.new_syms := by
  induction fuel generalizing it acc with
  | zero => simp [parser.tran_loop, throw, throwThe, MonadExceptOf.throw] at h
  | succ fuel ih =>
    cases it with
    | nil =>
      simp only [parser.tran_loop, pure, Except.pure, Except.ok.injEq] at h
      rw [← h]; exact hacc
    | cons c cs =>
      simp only [parser.tran_loop] at h
      obtain ⟨⟨old_state, it1⟩, -, h2⟩ := bind_ok _ _ _ h
      obtain ⟨⟨old_syms, it2⟩, h3, h4⟩ := bind_ok _ _ _ h2
      obtain ⟨⟨new_syms, it3⟩, h5, h6⟩ := bind_ok _ _ _ h4
      obtain ⟨⟨dirs, it4⟩, -, h8⟩ := bind_ok _ _ _ h6
      obtain ⟨⟨new_state, it5⟩, -, h10⟩ := bind_ok _ _ _ h8
      obtain ⟨it6, -, h12⟩ := bind_ok _ _ _ h10
      apply ih _ _ h12
      intro t ht
      rcases List.mem_append.1 ht with ht | ht
      · exact hacc t ht
      · simp only [List.mem_singleton] at ht
        rw [ht]
        exact ⟨parse_id_no_wildcard _ _ _ h3, parse_id_no_wildcard _ _ _ h5⟩

theorem parse_N_no_wildcard (input : List Char) (v : parser.Vars) (it : List Char)
    (m : Machine) (h : parser.parse_N input v it = Except.ok m) :
    ∀ t ∈ m.transitions, '*' ∉ t.old_syms ∧ '*' ∉ t.new_syms := by
  unfold parser.parse_N at h
  split at h
  · simp [throw, throwThe, MonadExceptOf.throw] at h
  · obtain ⟨⟨eq, it1⟩, -, h2⟩ := bind_ok _ _ _ h
    simp only at h2
    split at h2
    · simp [throw, throwThe, MonadExceptOf.throw] at h2
    · obtain ⟨it2, -, h4⟩ := bind_ok _ _ _ h2
      obtain ⟨⟨id, it3⟩, -, h6⟩ := bind_ok _ _ _ h4
      obtain ⟨n, -, h8⟩ := bind_ok _ _ _ h6
      obtain ⟨ts, h9, h10⟩ := bind_ok _ _ _ h8
      simp only [pure, Except.pure, Except.ok.injEq] at h10
      rw [← h10]
      unfold parser.parse_tran at h9
      obtain ⟨it4, -, h12⟩ := bind_ok _ _ _ h9
      exact tran_loop_no_wildcard _ _ _ _ _ h12 (fun t ht => by simp at ht)

theorem parse_loop_no_wildcard (input : List Char) (fuel : Nat) (v : parser.Vars)
    (it : List Char) (m : Machine) (h : parser.parse_loop input fuel v it = Except.ok m) :
    ∀ t ∈ m.transitions, '*' ∉ t.old_syms ∧ '*' ∉ t.new_syms := by
  induction fuel generalizing v it with
  | zero => simp [parser.parse_loop, throw, throwThe, MonadExceptOf.throw] at h
  | succ fuel ih =>
    cases it with
    | nil => simp [parser.parse_loop, throw, throwThe, MonadExceptOf.throw] at h
    | cons c cs =>
      simp only [parser.parse_loop] at h
      obtain ⟨it1, -, h2⟩ := bind_ok _ _ _ h
      cases it1 with
      | nil => simp [throw, throwThe, MonadExceptOf.throw] at h2
      | cons ch it2 =>
        simp only at h2
        split at h2
        · cases it2 with
          | nil => simp [throw, throwThe, MonadExceptOf.throw] at h2
          | cons ch2 it3 =>
            simp only at h2
            split at h2
            · exact parse_N_no_wildcard _ _ _ _ h2
            · obtain ⟨⟨v1, it4⟩, -, h4⟩ := bind_ok _ _ _ h2
              exact ih _ _ h4
        · simp [throw, throwThe, MonadExceptOf.throw] at h2

theorem parse_id_star (g rest : List Char) (hg : parser.is_space g) :
    parser.parse_id (g ++ '*' :: rest)
      = Except.error (Err.parser_exception "expected identifier") := by
  unfold parser.parse_id parser.parse_skip
  rw [skip_space g _ hg, skip_stop '*' rest (by decide)]
  simp only [bind, Except.bind, parser.deref]
  rw [if_pos (by decide)]
  rfl

theorem star_stops_ident (g rest : List Char) (hg : parser.is_space g) :
    ∀ c, (g ++ '*' :: rest).head? = some c → parser.is_id_char c = false := by
  intro c hc
  cases g with
  | nil =>
    simp only [List.nil_append, List.head?_cons, Option.some.injEq] at hc
    rw [← hc]; decide
  | cons x xs =>
    simp only [List.cons_append, List.head?_cons, Option.some.injEq] at hc
    rw [← hc]
    exact space_not_id x (hg x (List.mem_cons_self _ _))

/-- A tuple whose `SYMS1` begins with `*` stops the loop of `parse_tran`. -/
theorem tran_loop_star1 (n f : Nat) (state gap1 rest : List Char) (acc : List Transition)
    (hs : parser.is_ident state) (hg : parser.is_space gap1) :
    parser.tran_loop n (f + 1) (state ++ (gap1 ++ '*' :: rest)) acc
      = Except.error (Err.parser_exception "expected identifier") := by
  have hnil : parser.is_space [] := fun c hc => by simp at hc
  obtain ⟨c, cs, hc⟩ := List.exists_cons_of_ne_nil hs.1
  have e : state ++ (gap1 ++ '*' :: rest) = c :: (cs ++ (gap1 ++ '*' :: rest)) := by
    rw [hc]; rfl
  rw [e, parser.tran_loop, ← e]
  have h1 := parse_state_ident [] state _ hnil hs (star_stops_ident gap1 rest hg)
  rw [List.nil_append] at h1
  rw [h1]
  simp only [bind, Except.bind, parser.parse_syms]
  rw [parse_id_star gap1 rest hg]

/-- A tuple whose `SYMS2` begins with `*` stops the loop of `parse_tran`. -/
theorem tran_loop_star2 (n f : Nat) (state gap1 syms1 gap2 rest : List Char)
    (acc : List Transition) (hs : parser.is_ident state) (hg : parser.is_space gap1)
    (hne : gap1 ≠ []) (hs1 : parser.is_ident syms1) (hg2 : parser.is_space gap2) :
    parser.tran_loop n (f + 1) (state ++ (gap1 ++ (syms1 ++ (gap2 ++ '*' :: rest)))) acc
      = Except.error (Err.parser_exception "expected identifier") := by
  have hnil : parser.is_space [] := fun c hc => by simp at hc
  obtain ⟨c, cs, hc⟩ := List.exists_cons_of_ne_nil hs.1
  have e : state ++ (gap1 ++ (syms1 ++ (gap2 ++ '*' :: rest)))
      = c :: (cs ++ (gap1 ++ (syms1 ++ (gap2 ++ '*' :: rest)))) := by
    rw [hc]; rfl
  rw [e, parser.tran_loop, ← e]
  have h1 := parse_state_ident [] state _ hnil hs
    (gap_stops_ident gap1 (syms1 ++ (gap2 ++ '*' :: rest)) hg (Or.inl hne))
  rw [List.nil_append] at h1
  rw [h1]
  simp only [bind, Except.bind, parser.parse_syms]
  rw [parse_id_ident gap1 syms1 _ hg hs1 (star_stops_ident gap2 rest hg2)]
  simp only
  rw [parse_id_star gap2 rest hg2]

/-- The `#N` section up to the transition list: what `parse_tran` returns decides. -/
theorem parse_N_count (input : List Char) (v : parser.Vars) (ga gb digits rest : List Char)
    (n : Nat) (hc : v.tm_counter = 6) (hga : parser.is_space ga) (hgb : parser.is_space gb)
    (hdig : parser.is_ident digits) (hn : parser.stoi digits = Except.ok n)
    (hrest : ∀ c, rest.head? = some c → parser.is_id_char c = false) :
    parser.parse_N input v (ga ++ '=' :: (gb ++ (digits ++ rest)))
      = (parser.parse_tran n rest >>= fun ts =>
          Except.ok (Machine.ctor n input ts v.initial_state)) := by
  have hnil : parser.is_space [] := fun c hc => by simp at hc
  unfold parser.parse_N
  have hcnt : (v.tm_counter != 6) = false := by rw [hc]; rfl
  rw [hcnt]
  simp only [Bool.false_eq_true, if_false]
  rw [parse_char_at ga _ '=' hga (by decide)]
  simp only [bind, Except.bind, Bool.not_true, Bool.false_eq_true, if_false]
  rw [skip_to_ident gb digits _ hgb hdig]
  simp only
  have hid := parse_id_ident [] digits _ hnil hdig hrest
  rw [List.nil_append] at hid
  rw [hid]
  simp only
  rw [hn]
  rfl

/-- `parse_tran` on good tuples followed by a text at which the loop fails. -/
theorem parse_tran_fails (n : Nat) (g : List Char) (ts : List parser.Tuple)
    (bad : List Char) (e : Err) (hg : parser.is_space g)
    (hts : parser.tuples_ok True ts)
    (hbad : ∃ c r, bad = c :: r ∧ parser.is_id_char c = true)
    (hfail : ∀ f acc, parser.tran_loop n (f + 1) bad acc = Except.error e) :
    parser.parse_tran n (g ++ (parser.tuples_text ts ++ bad)) = Except.error e := by
  obtain ⟨c, r, hc, hid⟩ := hbad
  have htok : ∀ x, bad.head? = some x →
      (parser.isblank x || parser.isspace x || x == ';') = false := by
    intro x hx
    rw [hc] at hx
    simp only [List.head?_cons, Option.some.injEq] at hx
    rw [← hx]
    exact id_char_not_space c hid
  have hts2 : parser.tuples_ok (bad ≠ []) ts := by
    have : (bad ≠ []) = True := by rw [hc]; simp
    rw [this]; exact hts
  unfold parser.parse_tran parser.parse_skip
  rw [skip_space g _ hg]
  have hs := skip_at_token (parser.tuples_text ts ++ bad)
    (tuples_text_token _ ts bad hts htok)
  unfold parser.parse_skip at hs
  rw [hs]
  simp only [bind, Except.bind]
  obtain ⟨fuel2, h1, h2⟩ := tran_loop_tuples n ts bad []
    ((parser.tuples_text ts ++ bad).length + 1) hts2 htok (by omega)
  rw [h2]
  obtain ⟨f, rfl⟩ : ∃ f, fuel2 = f + 1 := ⟨fuel2 - 1, by omega⟩
  exact hfail f _

/-- When the section loop reaches `#N`, the result of `parse` is that of the `#N` case. -/
theorem parse_at_N (program input : List Char) (k : Nat) (v : parser.Vars)
    (it rest : List Char) (hreach : parser.Reaches k parser.Vars.init program v it)
    (hN : parser.parse_skip it = Except.ok ('#' :: 'N' :: rest)) :
    parser.parse program input = parser.parse_N input v rest := by
  obtain ⟨fuel2, hlt, he⟩ :=
    reaches_loop input k _ _ _ _ hreach (program.length + 1) (by omega)
  obtain ⟨f, rfl⟩ : ∃ f, fuel2 = f + 1 := ⟨fuel2 - 1, by omega⟩
  unfold parser.parse
  rw [he]
  cases it with
  | nil => simp [parser.parse_skip, parser.skip_loop, pure, Except.pure] at hN
  | cons c cs => simp [parser.parse_loop, hN, bind, Except.bind]

/-- C19: for every specification text on which `parse` succeeds, no transition of the
returned machine has the wildcard `*` among its trigger symbols or its result symbols,
because both lists are read by `parse_id`, which accepts only letters, digits and the
underscore.  And in a text whose `#N` section is reached after six sections, is well
written and is followed by well written tuples and then by a tuple whose `SYMS1` (or,
after a well written `SYMS1`, whose `SYMS2`) begins with `*`, `parse` fails with
`parser_exception("expected identifier")`. -/
theorem symbols_without_wildcard (program input : List Char) (v : parser.Vars)
    (it ga gb digits g state gap1 syms1 gap2 rest : List Char) (n : Nat)
    (ts : List parser.Tuple)
    (hreach : parser.Reaches 6 parser.Vars.init program v it)
    (hga : parser.is_space ga) (hgb : parser.is_space gb)
    (hdig : parser.is_ident digits) (hn : parser.stoi digits = Except.ok n)
    (hg : parser.is_space g) (hgne : g ≠ []) (hts : parser.tuples_ok True ts)
    (hstate : parser.is_ident state) (hgap1 : parser.is_space gap1) :
    (∀ (text word : List Char) (m : Machine), parser.parse text word = Except.ok m →
        ∀ t ∈ m.transitions, '*' ∉ t.old_syms ∧ '*' ∉ t.new_syms)
      ∧ (parser.parse_skip it = Except.ok ('#' :: 'N' :: (ga ++ '=' :: (gb ++ (digits
            ++ (g ++ (parser.tuples_text ts ++ (state ++ (gap1 ++ '*' :: rest)))))))) →
          parser.parse program input
            = Except.error (Err.parser_exception "expected identifier"))
      ∧ (gap1 ≠ [] → parser.is_ident syms1 → parser.is_space gap2 →
          parser.parse_skip it = Except.ok ('#' :: 'N' :: (ga ++ '=' :: (gb ++ (digits
            ++ (g ++ (parser.tuples_text ts
              ++ (state ++ (gap1 ++ (syms1 ++ (gap2 ++ '*' :: rest)))))))))) →
          parser.parse program input
            = Except.error (Err.parser_exception "expected identifier")) := by
  have hc : v.tm_counter = 6 := by
    have := reaches_counter _ _ _ _ _ hreach
    simpa [parser.Vars.init] using this
  have hstop : ∀ (R : List Char) (c : Char), (g ++ R).head? = some c →
      parser.is_id_char c = false := fun R => gap_stops_ident g R hg (Or.inl hgne)
  obtain ⟨c0, cs0, hc0⟩ := List.exists_cons_of_ne_nil hstate.1
  have hid0 : parser.is_id_char c0 = true := hstate.2 c0 (by rw [hc0]; simp)
  refine ⟨fun text word m h => parse_loop_no_wildcard _ _ _ _ _ h, ?_, ?_⟩
  · intro hN
    rw [parse_at_N program input 6 v it _ hreach hN,
      parse_N_count input v ga gb digits _ n hc hga hgb hdig hn (hstop _),
      parse_tran_fails n g ts _ (Err.parser_exception "expected identifier") hg hts
        ⟨c0, _, by rw [hc0]; rfl, hid0⟩
        (fun f acc => tran_loop_star1 n f state gap1 rest acc hstate hgap1)]
    rfl
  · intro hne hs1 hg2 hN
    rw [parse_at_N program input 6 v it _ hreach hN,
      parse_N_count input v ga gb digits _ n hc hga hgb hdig hn (hstop _),
      parse_tran_fails n g ts _ (Err.parser_exception "expected identifier") hg hts
        ⟨c0, _, by rw [hc0]; rfl, hid0⟩
        (fun f acc => tran_loop_star2 n f state gap1 syms1 gap2 rest acc hstate hgap1 hne
          hs1 hg2)]
    rfl

theorem star_reaches :
    parser.Reaches 6 parser.Vars.init star_program flip_vars
      "\n#N = 1\nq0 *0 1 r q1\n".toList :=
  parser.Reaches.pass 5
    (parser.Vars.init)
    ({ states := [⟨['q', '0']⟩, ⟨['q', '1']⟩], input_syms := [], tape_syms := [], initial_state := ⟨[]⟩, blank := '\x00', tm_counter := 1 })
    flip_vars
    (star_program)
    (" = \x7bq0,q1\x7d\n#S = \x7b0,1\x7d\n#G = \x7b0,1,_\x7d\n#q0 = q0\n#B = _\n#F = \x7bq1\x7d\n#N = 1\nq0 *0 1 r q1\n".toList)
    ("\n#S = \x7b0,1\x7d\n#G = \x7b0,1,_\x7d\n#q0 = q0\n#B = _\n#F = \x7bq1\x7d\n#N = 1\nq0 *0 1 r q1\n".toList)
    ("\n#N = 1\nq0 *0 1 r q1\n".toList)
    'Q' (by rfl) (by decide) (by rfl)
    (parser.Reaches.pass 4
    ({ states := [⟨['q', '0']⟩, ⟨['q', '1']⟩], input_syms := [], tape_syms := [], initial_state := ⟨[]⟩, blank := '\x00', tm_counter := 1 })
    ({ states := [⟨['q', '0']⟩, ⟨['q', '1']⟩], input_syms := ['0', '1'], tape_syms := [], initial_state := ⟨[]⟩, blank := '\x00', tm_counter := 2 })
    flip_vars
    ("\n#S = \x7b0,1\x7d\n#G = \x7b0,1,_\x7d\n#q0 = q0\n#B = _\n#F = \x7bq1\x7d\n#N = 1\nq0 *0 1 r q1\n".toList)
    (" = \x7b0,1\x7d\n#G = \x7b0,1,_\x7d\n#q0 = q0\n#B = _\n#F = \x7bq1\x7d\n#N = 1\nq0 *0 1 r q1\n".toList)
    ("\n#G = \x7b0,1,_\x7d\n#q0 = q0\n#B = _\n#F = \x7bq1\x7d\n#N = 1\nq0 *0 1 r q1\n".toList)
    ("\n#N = 1\nq0 *0 1 r q1\n".toList)
    'S' (by rfl) (by decide) (by rfl)
    (parser.Reaches.pass 3
    ({ states := [⟨['q', '0']⟩, ⟨['q', '1']⟩], input_syms := ['0', '1'], tape_syms := [], initial_state := ⟨[]⟩, blank := '\x00', tm_counter := 2 })
    ({ states := [⟨['q', '0']⟩, ⟨['q', '1']⟩], input_syms := ['0', '1'], tape_syms := ['0', '1', '_'], initial_state := ⟨[]⟩, blank := '\x00', tm_counter := 3 })
    flip_vars
    ("\n#G = \x7b0,1,_\x7d\n#q0 = q0\n#B = _\n#F = \x7bq1\x7d\n#N = 1\nq0 *0 1 r q1\n".toList)
    (" = \x7b0,1,_\x7d\n#q0 = q0\n#B = _\n#F = \x7bq1\x7d\n#N = 1\nq0 *0 1 r q1\n".toList)
    ("\n#q0 = q0\n#B = _\n#F = \x7bq1\x7d\n#N = 1\nq0 *0 1 r q1\n".toList)
    ("\n#N = 1\nq0 *0 1 r q1\n".toList)
    'G' (by rfl) (by decide) (by rfl)
    (parser.Reaches.pass 2
    ({ states := [⟨['q', '0']⟩, ⟨['q', '1']⟩], input_syms := ['0', '1'], tape_syms := ['0', '1', '_'], initial_state := ⟨[]⟩, blank := '\x00', tm_counter := 3 })
    ({ states := [⟨['q', '0']⟩, ⟨['q', '1']⟩], input_syms := ['0', '1'], tape_syms := ['0', '1', '_'], initial_state := ⟨['q', '0']⟩, blank := '\x00', tm_counter := 4 })
    flip_vars
    ("\n#q0 = q0\n#B = _\n#F = \x7bq1\x7d\n#N = 1\nq0 *0 1 r q1\n".toList)
    ("0 = q0\n#B = _\n#F = \x7bq1\x7d\n#N = 1\nq0 *0 1 r q1\n".toList)
    ("\n#B = _\n#F = \x7bq1\x7d\n#N = 1\nq0 *0 1 r q1\n".toList)
    ("\n#N = 1\nq0 *0 1 r q1\n".toList)
    'q' (by rfl) (by decide) (by rfl)
    (parser.Reaches.pass 1
    ({ states := [⟨['q', '0']⟩, ⟨['q', '1']⟩], input_syms := ['0', '1'], tape_syms := ['0', '1', '_'], initial_state := ⟨['q', '0']⟩, blank := '\x00', tm_counter := 4 })
    ({ states := [⟨['q', '0']⟩, ⟨['q', '1']⟩], input_syms := ['0', '1'], tape_syms := ['0', '1', '_'], initial_state := ⟨['q', '0']⟩, blank := '_', tm_counter := 5 })
    flip_vars
    ("\n#B = _\n#F = \x7bq1\x7d\n#N = 1\nq0 *0 1 r q1\n".toList)
    (" = _\n#F = \x7bq1\x7d\n#N = 1\nq0 *0 1 r q1\n".toList)
    ("\n#F = \x7bq1\x7d\n#N = 1\nq0 *0 1 r q1\n".toList)
    ("\n#N = 1\nq0 *0 1 r q1\n".toList)
    'B' (by rfl) (by decide) (by rfl)
    (parser.Reaches.pass 0
    ({ states := [⟨['q', '0']⟩, ⟨['q', '1']⟩], input_syms := ['0', '1'], tape_syms := ['0', '1', '_'], initial_state := ⟨['q', '0']⟩, blank := '_', tm_counter := 5 })
    (flip_vars)
    flip_vars
    ("\n#F = \x7bq1\x7d\n#N = 1\nq0 *0 1 r q1\n".toList)
    (" = \x7bq1\x7d\n#N = 1\nq0 *0 1 r q1\n".toList)
    ("\n#N = 1\nq0 *0 1 r q1\n".toList)
    ("\n#N = 1\nq0 *0 1 r q1\n".toList)
    'F' (by rfl) (by decide) (by rfl)
    (parser.Reaches.start flip_vars _))))))

theorem symbols_without_wildcard_witness :
    parser.Reaches 6 parser.Vars.init star_program flip_vars
        "\n#N = 1\nq0 *0 1 r q1\n".toList
      ∧ parser.parse star_program ['0']
          = Except.error (Err.parser_exception "expected identifier")
      ∧ ∀ t ∈ flip_machine.transitions, '*' ∉ t.old_syms ∧ '*' ∉ t.new_syms :=
  ⟨star_reaches,
    (symbols_without_wildcard star_program ['0'] flip_vars "\n#N = 1\nq0 *0 1 r q1\n".toList
      [' '] [' '] ['1'] ['\n'] ['q', '0'] [' '] [] [] "0 1 r q1\n".toList 1 []
      star_reaches (by decide) (by decide) (by decide) (by rfl) (by decide) (by simp)
      trivial (by decide) (by decide)).2.1 (by rfl),
    (symbols_without_wildcard star_program ['0'] flip_vars "\n#N = 1\nq0 *0 1 r q1\n".toList
      [' '] [' '] ['1'] ['\n'] ['q', '0'] [' '] [] [] "0 1 r q1\n".toList 1 []
      star_reaches (by decide) (by decide) (by decide) (by rfl) (by decide) (by simp)
      trivial (by decide) (by decide)).1 flip_program ['0'] flip_machine (by rfl)⟩

/-! ### The parsing functions read the text only up to where they stop -/

/-- When `parse_skip` stops before the last `s.length` characters of the text, it has
not read them: it stops at the same place whatever stands there. -/
theorem skip_loop_local (b : Bool) (x s r : List Char)
    (h : parser.skip_loop b (x ++ s) = Except.ok r) (hl : s.length < r.length) :
    ∃ y, r = y ++ s ∧ ∀ s2, parser.skip_loop b (x ++ s2) = Except.ok (y ++ s2) := by
  induction x generalizing b with
  | nil =>
    have := skip_loop_length b _ _ h
    simp only [List.nil_append] at this
    omega
  | cons c x ih =>
    cases b with
    | false =>
      simp only [List.cons_append, parser.skip_loop] at h ⊢
      by_cases hc : (parser.isblank c || parser.isspace c || c == ';') = true
      · simp only [hc, if_true] at h ⊢
        by_cases hs : (c == ';') = true
        · simp only [hs, if_true] at h ⊢
          exact ih true h
        · simp only [hs] at h ⊢
          exact ih false h
      · rw [if_neg hc] at h
        simp only [pure, Except.pure, Except.ok.injEq, List.append_eq] at h
        refine ⟨c :: x, by rw [← h]; rfl, fun s2 => ?_⟩
        rw [if_neg hc]
        rfl
    | true =>
      simp only [List.cons_append, parser.skip_loop] at h ⊢
      by_cases hc : (c != '\n') = true
      · simp only [hc, if_true] at h ⊢
        exact ih true h
      · simp only [hc] at h ⊢
        exact ih false h

/-- When `parse_skip` stops at a character, it stops at any character that is not
skipped put in its place. -/
theorem skip_loop_boundary (b : Bool) (x : List Char) (c d : Char) (post : List Char)
    (h : parser.skip_loop b (x ++ c :: post) = Except.ok (c :: post))
    (hd : (parser.isblank d || parser.isspace d || d == ';') = false) :
    parser.skip_loop b (x ++ d :: post) = Except.ok (d :: post) := by
  induction x generalizing b with
  | nil =>
    cases b with
    | false => exact skip_stop d post hd
    | true =>
      simp only [List.nil_append, parser.skip_loop] at h
      split at h
      · have := skip_loop_length _ _ _ h
        simp only [List.length_cons] at this
        omega
      · have := skip_loop_length _ _ _ h
        simp only [List.length_cons] at this
        omega
  | cons e x ih =>
    cases b with
    | false =>
      simp only [List.cons_append, parser.skip_loop] at h ⊢
      by_cases hc : (parser.isblank e || parser.isspace e || e == ';') = true
      · simp only [hc, if_true] at h ⊢
        by_cases hs : (e == ';') = true
        · simp only [hs, if_true] at h ⊢
          exact ih true h
        · simp only [hs] at h ⊢
          exact ih false h
      · rw [if_neg hc] at h
        simp only [pure, Except.pure, Except.ok.injEq, List.append_eq] at h
        have := congrArg List.length h
        simp only [List.length_cons, List.length_append] at this
        omega
    | true =>
      simp only [List.cons_append, parser.skip_loop] at h ⊢
      by_cases hc : (e != '\n') = true
      · simp only [hc, if_true] at h ⊢
        exact ih true h
      · simp only [hc] at h ⊢
        exact ih false h

/-- `parse_char` that stops before the last `s.length` characters has not read them. -/
theorem parse_char_local (x s r : List Char) (ch : Char) (b : Bool)
    (h : parser.parse_char (x ++ s) ch = Except.ok (b, r)) (hl : s.length < r.length) :
    ∃ y, r = y ++ s ∧ ∀ s2, parser.parse_char (x ++ s2) ch = Except.ok (b, y ++ s2) := by
  unfold parser.parse_char at h
  obtain ⟨it, h1, h2⟩ := bind_ok _ _ _ h
  cases it with
  | nil =>
    simp only at h2
    split at h2
    · simp [throw, throwThe, MonadExceptOf.throw] at h2
    · simp only [pure, Except.pure, Except.ok.injEq, Prod.mk.injEq] at h2
      rw [← h2.2] at hl
      simp at hl
  | cons c rest =>
    simp only at h2
    split at h2
    · rename_i hc
      simp only [pure, Except.pure, Except.ok.injEq, Prod.mk.injEq] at h2
      obtain ⟨hb, hr⟩ := h2
      subst hb hr
      obtain ⟨y, hy, hall⟩ := skip_loop_local false x s (c :: rest) h1
        (by simp only [List.length_cons]; omega)
      cases y with
      | nil =>
        have := congrArg List.length hy
        simp only [List.length_cons, List.nil_append] at this
        omega
      | cons e y =>
        simp only [List.cons_append, List.cons.injEq] at hy
        refine ⟨y, hy.2, fun s2 => ?_⟩
        unfold parser.parse_char
        simp only [parser.parse_skip, hall s2, bind, Except.bind, List.cons_append]
        rw [← hy.1]
        simp [hc, pure, Except.pure]
    · rename_i hc
      simp only [pure, Except.pure, Except.ok.injEq, Prod.mk.injEq] at h2
      obtain ⟨hb, hr⟩ := h2
      subst hb hr
      obtain ⟨y, hy, hall⟩ := skip_loop_local false x s (c :: rest) h1 hl
      cases y with
      | nil =>
        have := congrArg List.length hy
        simp only [List.length_cons, List.nil_append] at this hl
        omega
      | cons e y =>
        have hy2 := hy
        simp only [List.cons_append, List.cons.injEq] at hy2
        refine ⟨e :: y, hy, fun s2 => ?_⟩
        unfold parser.parse_char
        simp only [parser.parse_skip, hall s2, bind, Except.bind, List.cons_append]
        rw [← hy2.1]
        simp [hc, pure, Except.pure]

/-- `parse_char` that has found its character just before the last `s.length`
characters, or earlier, has not read them. -/
theorem parse_char_true_local (x s r : List Char) (ch : Char)
    (h : parser.parse_char (x ++ s) ch = Except.ok (true, r)) (hl : s.length ≤ r.length) :
    ∃ y, r = y ++ s ∧ ∀ s2, parser.parse_char (x ++ s2) ch = Except.ok (true, y ++ s2) := by
  unfold parser.parse_char at h
  obtain ⟨it, h1, h2⟩ := bind_ok _ _ _ h
  cases it with
  | nil =>
    simp only at h2
    split at h2
    · simp [throw, throwThe, MonadExceptOf.throw] at h2
    · simp [pure, Except.pure] at h2
  | cons c rest =>
    simp only at h2
    split at h2
    · rename_i hc
      simp only [pure, Except.pure, Except.ok.injEq, Prod.mk.injEq, true_and] at h2
      subst h2
      obtain ⟨y, hy, hall⟩ := skip_loop_local false x s (c :: rest) h1
        (by simp only [List.length_cons]; omega)
      cases y with
      | nil =>
        have := congrArg List.length hy
        simp only [List.length_cons, List.nil_append] at this
        omega
      | cons e y =>
        simp only [List.cons_append, List.cons.injEq] at hy
        refine ⟨y, hy.2, fun s2 => ?_⟩
        unfold parser.parse_char
        simp only [parser.parse_skip, hall s2, bind, Except.bind, List.cons_append]
        rw [← hy.1]
        simp [hc, pure, Except.pure]
    · simp [pure, Except.pure] at h2

theorem takeWhile_local (p : Char → Bool) (y s : List Char)
    (h : s.length < ((y ++ s).drop ((y ++ s).takeWhile p).length).length) :
    (y ++ s).drop ((y ++ s).takeWhile p).length = y.drop (y.takeWhile p).length ++ s
      ∧ ∀ s2 : List Char, (y ++ s2).takeWhile p = y.takeWhile p
        ∧ (y ++ s2).drop (y.takeWhile p).length = y.drop (y.takeWhile p).length ++ s2 := by
  induction y with
  | nil =>
    simp only [List.nil_append, List.length_drop] at h
    omega
  | cons c y ih =>
    by_cases hc : p c = true
    · simp only [List.cons_append, List.takeWhile_cons, hc, if_true, List.length_cons,
        List.drop_succ_cons] at h ⊢
      obtain ⟨e1, e2⟩ := ih h
      exact ⟨e1, fun s2 => ⟨by rw [(e2 s2).1], (e2 s2).2⟩⟩
    · simp only [List.cons_append, List.takeWhile_cons, hc] at h ⊢
      simp

/-- At a place where `parse_skip` stops, it stops at once. -/
theorem skip_loop_again (b : Bool) (it r : List Char)
    (h : parser.skip_loop b it = Except.ok r) : parser.skip_loop false r = Except.ok r := by
  cases r with
  | nil => rfl
  | cons c r => exact skip_stop c r (skip_loop_stops b it c r h)

/-- `parse_id` that stops before the last `s.length` characters has not read them. -/
theorem parse_id_local (x s id r : List Char)
    (h : parser.parse_id (x ++ s) = Except.ok (id, r)) (hl : s.length < r.length) :
    ∃ y, r = y ++ s ∧ ∀ s2, parser.parse_id (x ++ s2) = Except.ok (id, y ++ s2) := by
  unfold parser.parse_id at h
  obtain ⟨it, h1, h2⟩ := bind_ok _ _ _ h
  split at h2
  · simp [throw, throwThe, MonadExceptOf.throw] at h2
  · rename_i hcond
    simp only at h2
    split at h2
    · rename_i hfound
      simp only [pure, Except.pure, Except.ok.injEq, Prod.mk.injEq] at h2
      obtain ⟨hid, hr⟩ := h2
      have hlen : s.length < it.length := by
        rw [← hr] at hl
        simp only [List.length_drop] at hl
        omega
      obtain ⟨y0, hy0, hall⟩ := skip_loop_local false x s it h1 hlen
      subst hy0
      cases y0 with
      | nil => simp at hlen
      | cons c y0 =>
        have hc : parser.is_id_char c = true := by
          simp only [List.cons_append, parser.deref] at hcond
          simp only [parser.is_id_char]
          cases h3 : parser.isalnum c
          · simp only [h3, Bool.not_false, Bool.true_and, bne_iff_ne, ne_eq,
              Decidable.not_not] at hcond
            simp [hcond]
          · rfl
        have hdrop : ∀ s2 : List Char,
            (c :: y0 ++ s2).dropWhile (fun c => !parser.is_id_char c) = c :: y0 ++ s2 := by
          intro s2
          rw [List.cons_append, List.dropWhile_cons]
          simp [hc]
        rw [hdrop] at hid hr
        rw [← hr] at hl
        obtain ⟨e1, e2⟩ := takeWhile_local parser.is_id_char (c :: y0) s hl
        refine ⟨(c :: y0).drop ((c :: y0).takeWhile parser.is_id_char).length, ?_, ?_⟩
        · rw [← hr, e1]
        · intro s2
          unfold parser.parse_id
          have hcond2 : (!parser.isalnum (parser.deref (c :: y0 ++ s2))
              && parser.deref (c :: y0 ++ s2) != '_') = false := by
            simpa [parser.deref] using hcond
          simp only [parser.parse_skip, hall s2, bind, Except.bind, hcond2,
            Bool.false_eq_true, if_false, hdrop s2]
          rw [(e2 s2).1, (e2 s2).2]
          have hne : ((c :: y0).takeWhile parser.is_id_char != []) = true := by
            simp [List.takeWhile_cons, hc]
          rw [← hid, (e2 s).1]
          simp [pure, Except.pure]
    · simp [throw, throwThe, MonadExceptOf.throw] at h2

theorem id_list_loop_local (fuel : Nat) (x s r : List Char) (acc res : List (List Char))
    (h : parser.id_list_loop fuel (x ++ s) acc = Except.ok (res, r))
    (hl : s.length < r.length) :
    ∃ y, r = y ++ s
      ∧ ∀ s2, parser.id_list_loop fuel (x ++ s2) acc = Except.ok (res, y ++ s2) := by
  induction fuel generalizing x acc with
  | zero => simp [parser.id_list_loop, throw, throwThe, MonadExceptOf.throw] at h
  | succ fuel ih =>
    cases x with
    | nil =>
      have := id_list_loop_length _ _ _ _ _ h
      simp only [List.nil_append] at this
      omega
    | cons c x =>
      simp only [List.cons_append, parser.id_list_loop] at h
      obtain ⟨⟨comma, it1⟩, h1, h2⟩ := bind_ok _ _ _ h
      simp only at h2
      split at h2
      · rename_i hcomma
        obtain ⟨⟨id, it2⟩, h3, h4⟩ := bind_ok _ _ _ h2
        simp only at h4
        have l4 := id_list_loop_length _ _ _ _ _ h4
        have l3 := parse_id_length _ _ _ h3
        obtain ⟨y1, hy1, a1⟩ := parse_char_local (c :: x) s it1 ',' comma h1 (by omega)
        subst hy1
        obtain ⟨y2, hy2, a2⟩ := parse_id_local y1 s id it2 h3 (by omega)
        subst hy2
        obtain ⟨y, hy, a3⟩ := ih y2 (acc ++ [id]) h4
        refine ⟨y, hy, fun s2 => ?_⟩
        have b1 := a1 s2
        simp only [List.cons_append] at b1
        simp only [List.cons_append, parser.id_list_loop, b1, bind, Except.bind, hcomma,
          if_true, a2 s2, a3 s2]
      · rename_i hcomma
        simp only [pure, Except.pure, Except.ok.injEq, Prod.mk.injEq] at h2
        obtain ⟨hres, hr⟩ := h2
        subst hres hr
        obtain ⟨y1, hy1, a1⟩ := parse_char_local (c :: x) s it1 ',' comma h1 hl
        refine ⟨y1, hy1, fun s2 => ?_⟩
        have b1 := a1 s2
        simp only [List.cons_append] at b1
        simp only [List.cons_append, parser.id_list_loop, b1, bind, Except.bind, hcomma]
        rfl

/-- `parse_id_list` that stops before the last `s.length` characters has not read
them. -/
theorem parse_id_list_local (x s r : List Char) (res : List (List Char))
    (h : parser.parse_id_list (x ++ s) = Except.ok (res, r)) (hl : s.length < r.length) :
    ∃ y, r = y ++ s ∧ ∀ s2 : List Char, s2.length = s.length →
      parser.parse_id_list (x ++ s2) = Except.ok (res, y ++ s2) := by
  unfold parser.parse_id_list at h
  obtain ⟨⟨ob, it1⟩, h1, h2⟩ := bind_ok _ _ _ h
  simp only at h2
  split at h2
  · simp [throw, throwThe, MonadExceptOf.throw] at h2
  · rename_i hob
    obtain ⟨⟨id, it2⟩, h3, h4⟩ := bind_ok _ _ _ h2
    simp only at h4
    obtain ⟨⟨result, it3⟩, h5, h6⟩ := bind_ok _ _ _ h4
    simp only at h6
    obtain ⟨⟨cb, it4⟩, h7, h8⟩ := bind_ok _ _ _ h6
    simp only at h8
    split at h8
    · simp [throw, throwThe, MonadExceptOf.throw] at h8
    · rename_i hcb
      split at h8
      · simp [throw, throwThe, MonadExceptOf.throw] at h8
      · rename_i hemp
        simp only [pure, Except.pure, Except.ok.injEq, Prod.mk.injEq] at h8
        obtain ⟨hres, hr⟩ := h8
        subst hres hr
        have l7 := parse_char_length _ _ _ _ h7
        have l5 := id_list_loop_length _ _ _ _ _ h5
        have l3 := parse_id_length _ _ _ h3
        obtain ⟨y1, hy1, a1⟩ := parse_char_local x s it1 _ ob h1 (by omega)
        subst hy1
        obtain ⟨y2, hy2, a2⟩ := parse_id_local y1 s id it2 h3 (by omega)
        subst hy2
        obtain ⟨y3, hy3, a3⟩ := id_list_loop_local _ y2 s it3 [id] result h5 (by omega)
        subst hy3
        obtain ⟨y4, hy4, a4⟩ := parse_char_local y3 s it4 _ cb h7 hl
        refine ⟨y4, hy4, fun s2 hs2 => ?_⟩
        have hfuel : (y2 ++ s2).length + 1 = (y2 ++ s).length + 1 := by
          simp only [List.length_append, hs2]
        unfold parser.parse_id_list
        simp only [a1 s2, bind, Except.bind, hob, a2 s2, hfuel, a3 s2, a4 s2, hcb, hemp]
        rfl

/-- A section other than `#N` that ends before the last `s.length` characters of the
text is parsed in the same way whatever stands there. -/
theorem parse_section_local (ch : Char) (v v1 : parser.Vars) (x s r : List Char)
    (h : parser.parse_section ch v (x ++ s) = Except.ok (v1, r)) (hl : s.length < r.length) :
    ∃ y, r = y ++ s ∧ ∀ s2 : List Char, s2.length = s.length →
      parser.parse_section ch v (x ++ s2) = Except.ok (v1, y ++ s2) := by
  unfold parser.parse_section at h
  simp only at h
  split at h
  · rename_i hQ
    obtain ⟨⟨eq, it1⟩, h1, h2⟩ := bind_ok _ _ _ h
    simp only at h2
    split at h2
    · simp [throw, throwThe, MonadExceptOf.throw] at h2
    · rename_i heq
      obtain ⟨⟨ids, it2⟩, h3, h4⟩ := bind_ok _ _ _ h2
      simp only [pure, Except.pure, Except.ok.injEq, Prod.mk.injEq] at h4
      obtain ⟨hv, hr⟩ := h4
      subst hr
      have l3 := parse_id_list_length _ _ _ h3
      obtain ⟨y1, hy1, a1⟩ := parse_char_local x s it1 _ eq h1 (by omega)
      subst hy1
      obtain ⟨y2, hy2, a2⟩ := parse_id_list_local y1 s it2 ids h3 hl
      refine ⟨y2, hy2, fun s2 hs2 => ?_⟩
      unfold parser.parse_section
      simp only [hQ, if_true, a1 s2, bind, Except.bind, heq, a2 s2 hs2, pure, Except.pure, hv]
      rfl
  · rename_i hQ
    split at h
    · rename_i hS
      obtain ⟨⟨eq, it1⟩, h1, h2⟩ := bind_ok _ _ _ h
      simp only at h2
      split at h2
      · simp [throw, throwThe, MonadExceptOf.throw] at h2
      · rename_i heq
        obtain ⟨⟨ids, it2⟩, h3, h4⟩ := bind_ok _ _ _ h2
        simp only at h4
        obtain ⟨cs, h5, h6⟩ := bind_ok _ _ _ h4
        simp only [pure, Except.pure, Except.ok.injEq, Prod.mk.injEq] at h6
        obtain ⟨hv, hr⟩ := h6
        subst hr
        have l3 := parse_id_list_length _ _ _ h3
        obtain ⟨y1, hy1, a1⟩ := parse_char_local x s it1 _ eq h1 (by omega)
        subst hy1
        obtain ⟨y2, hy2, a2⟩ := parse_id_list_local y1 s it2 ids h3 hl
        refine ⟨y2, hy2, fun s2 hs2 => ?_⟩
        unfold parser.parse_section
        simp only [hQ, hS, if_true, a1 s2, bind, Except.bind, heq, a2 s2 hs2, h5, pure,
          Except.pure, hv]
        rfl
    · rename_i hS
      split at h
      · rename_i hG
        obtain ⟨⟨eq, it1⟩, h1, h2⟩ := bind_ok _ _ _ h
        simp only at h2
        split at h2
        · simp [throw, throwThe, MonadExceptOf.throw] at h2
        · rename_i heq
          obtain ⟨⟨ids, it2⟩, h3, h4⟩ := bind_ok _ _ _ h2
          simp only at h4
          obtain ⟨cs, h5, h6⟩ := bind_ok _ _ _ h4
          simp only [pure, Except.pure, Except.ok.injEq, Prod.mk.injEq] at h6
          obtain ⟨hv, hr⟩ := h6
          subst hr
          have l3 := parse_id_list_length _ _ _ h3
          obtain ⟨y1, hy1, a1⟩ := parse_char_local x s it1 _ eq h1 (by omega)
          subst hy1
          obtain ⟨y2, hy2, a2⟩ := parse_id_list_local y1 s it2 ids h3 hl
          refine ⟨y2, hy2, fun s2 hs2 => ?_⟩
          unfold parser.parse_section
          simp only [hQ, hS, hG, if_true, a1 s2, bind, Except.bind, heq, a2 s2 hs2, h5, pure,
            Except.pure, hv]
          rfl
      · rename_i hG
        split at h
        · rename_i hq
          obtain ⟨⟨zero, it1⟩, h1, h2⟩ := bind_ok _ _ _ h
          simp only at h2
          split at h2
          · simp [throw, throwThe, MonadExceptOf.throw] at h2
          · rename_i hzero
            obtain ⟨⟨eq, it2⟩, h3, h4⟩ := bind_ok _ _ _ h2
            simp only at h4
            split at h4
            · simp [throw, throwThe, MonadExceptOf.throw] at h4
            · rename_i heq
              obtain ⟨⟨id, it3⟩, h5, h6⟩ := bind_ok _ _ _ h4
              simp only [pure, Except.pure, Except.ok.injEq, Prod.mk.injEq] at h6
              obtain ⟨hv, hr⟩ := h6
              subst hr
              have l5 := parse_id_length _ _ _ h5
              have l3 := parse_char_length _ _ _ _ h3
              obtain ⟨y1, hy1, a1⟩ := parse_char_local x s it1 _ zero h1 (by omega)
              subst hy1
              obtain ⟨y2, hy2, a2⟩ := parse_char_local y1 s it2 _ eq h3 (by omega)
              subst hy2
              obtain ⟨y3, hy3, a3⟩ := parse_id_local y2 s id it3 h5 hl
              refine ⟨y3, hy3, fun s2 hs2 => ?_⟩
              unfold parser.parse_section
              simp only [hQ, hS, hG, hq, if_true, a1 s2, bind, Except.bind, hzero, a2 s2, heq,
                a3 s2, pure, Except.pure, hv]
              rfl
        · rename_i hq
          split at h
          · rename_i hB
            obtain ⟨⟨eq, it1⟩, h1, h2⟩ := bind_ok _ _ _ h
            simp only at h2
            split at h2
            · simp [throw, throwThe, MonadExceptOf.throw] at h2
            · rename_i heq
              obtain ⟨it2, h3, h4⟩ := bind_ok _ _ _ h2
              cases it2 with
              | nil => simp [throw, throwThe, MonadExceptOf.throw] at h4
              | cons b it3 =>
                simp only [pure, Except.pure, Except.ok.injEq, Prod.mk.injEq] at h4
                obtain ⟨hv, hr⟩ := h4
                subst hr
                have l3 := parse_skip_length _ _ h3
                simp only [List.length_cons] at l3
                obtain ⟨y1, hy1, a1⟩ := parse_char_local x s it1 _ eq h1 (by omega)
                subst hy1
                obtain ⟨y2, hy2, a2⟩ := skip_loop_local false y1 s (b :: it3) h3
                  (by simp only [List.length_cons]; omega)
                cases y2 with
                | nil =>
                  have := congrArg List.length hy2
                  simp only [List.length_cons, List.nil_append] at this
                  omega
                | cons e y2 =>
                  simp only [List.cons_append, List.cons.injEq] at hy2
                  obtain ⟨hb, hy2⟩ := hy2
                  subst hb
                  refine ⟨y2, hy2, fun s2 hs2 => ?_⟩
                  unfold parser.parse_section
                  simp only [hQ, hS, hG, hq, hB, if_true, a1 s2, bind, Except.bind, heq,
                    parser.parse_skip, a2 s2, List.cons_append, pure, Except.pure, hv]
                  rfl
          · rename_i hB
            split at h
            · rename_i hF
              obtain ⟨⟨eq, it1⟩, h1, h2⟩ := bind_ok _ _ _ h
              simp only at h2
              split at h2
              · simp [throw, throwThe, MonadExceptOf.throw] at h2
              · rename_i heq
                obtain ⟨⟨ids, it2⟩, h3, h4⟩ := bind_ok _ _ _ h2
                simp only [pure, Except.pure, Except.ok.injEq, Prod.mk.injEq] at h4
                obtain ⟨hv, hr⟩ := h4
                subst hr
                have l3 := parse_id_list_length _ _ _ h3
                obtain ⟨y1, hy1, a1⟩ := parse_char_local x s it1 _ eq h1 (by omega)
                subst hy1
                obtain ⟨y2, hy2, a2⟩ := parse_id_list_local y1 s it2 ids h3 hl
                refine ⟨y2, hy2, fun s2 hs2 => ?_⟩
                unfold parser.parse_section
                simp only [hQ, hS, hG, hq, hB, hF, if_true, a1 s2, bind, Except.bind, heq,
                  a2 s2 hs2, pure, Except.pure, hv]
                rfl
            · simp [throw, throwThe, MonadExceptOf.throw] at h

theorem reaches_length (k : Nat) (v w : parser.Vars) (it jt : List Char)
    (h : parser.Reaches k v it w jt) : jt.length ≤ it.length := by
  induction h with
  | start v it => exact Nat.le_refl _
  | pass k v v1 w it it3 it4 jt ch hskip _ hs _ ih =>
    have l1 := parse_skip_length _ _ hskip
    have l2 := (parse_section_spec _ _ _ _ _ hs).1
    simp only [List.length_cons] at l1
    omega

/-- Passes of the section loop that end before the last `s.length` characters of the
text go the same way whatever stands there. -/
theorem reaches_local (k : Nat) (v w : parser.Vars) (it jt : List Char)
    (h : parser.Reaches k v it w jt) (x s : List Char) (hit : it = x ++ s)
    (hl : s.length < jt.length) :
    ∃ y, jt = y ++ s ∧ ∀ s2 : List Char, s2.length = s.length →
      parser.Reaches k v (x ++ s2) w (y ++ s2) := by
  induction h generalizing x with
  | start v it => exact ⟨x, hit, fun s2 _ => parser.Reaches.start _ _⟩
  | pass k v v1 w it it3 it4 jt ch hskip hch hs hr ih =>
    subst hit
    have l1 := reaches_length _ _ _ _ _ hr
    have l2 := (parse_section_spec _ _ _ _ _ hs).1
    obtain ⟨y0, hy0, a0⟩ := skip_loop_local false x s _ hskip
      (by simp only [List.length_cons]; omega)
    have hlen := congrArg List.length hy0
    simp only [List.length_cons, List.length_append] at hlen
    cases y0 with
    | nil => simp only [List.length_nil] at hlen; omega
    | cons a y0 =>
      cases y0 with
      | nil => simp only [List.length_cons, List.length_nil] at hlen; omega
      | cons b y3 =>
        simp only [List.cons_append, List.cons.injEq] at hy0
        obtain ⟨ha, hb, hy3⟩ := hy0
        subst ha hb hy3
        obtain ⟨y4, hy4, a4⟩ := parse_section_local _ _ _ y3 s it4 hs (by omega)
        obtain ⟨y, hy, a5⟩ := ih y4 hy4 hl
        refine ⟨y, hy, fun s2 hs2 => ?_⟩
        exact parser.Reaches.pass k v v1 w (x ++ s2) (y3 ++ s2) (y4 ++ s2) (y ++ s2) _
          (a0 s2) hch (a4 s2 hs2) (a5 s2 hs2)

/-- The section loop uses one unit of fuel for each pass. -/
theorem reaches_loop_fuel (input : List Char) (k : Nat) (v w : parser.Vars)
    (it jt : List Char) (h : parser.Reaches k v it w jt) (fuel : Nat)
    (hf : it.length < fuel) :
    jt.length + k < fuel
      ∧ parser.parse_loop input fuel v it = parser.parse_loop input (fuel - k) w jt := by
  induction h generalizing fuel with
  | start v it => exact ⟨hf, rfl⟩
  | pass k v v1 w it it3 it4 jt ch hskip hch hs _ ih =>
    obtain ⟨f, rfl⟩ : ∃ f, fuel = f + 1 := ⟨fuel - 1, by omega⟩
    have l1 := parse_skip_length _ _ hskip
    have l2 := (parse_section_spec _ _ _ _ _ hs).1
    simp only [List.length_cons] at l1
    obtain ⟨hlt, he⟩ := ih f (by omega)
    refine ⟨by omega, ?_⟩
    have hsub : f + 1 - (k + 1) = f - k := by omega
    rw [hsub, ← he]
    cases it with
    | nil => simp [parser.parse_skip, parser.skip_loop, pure, Except.pure] at hskip
    | cons c cs =>
      have hN : (ch == 'N') = false := by simpa using hch
      simp [parser.parse_loop, hskip, hs, hN, bind, Except.bind]

/-! ### The declared blank symbol is not used -/

/-- The sections other than `#N` do not read the variable `blank`; only `#B` writes
it. -/
theorem parse_section_blank (ch : Char) (v : parser.Vars) (it : List Char) (b : Char) :
    parser.parse_section ch { v with blank := b } it
      = (parser.parse_section ch v it).map
          (fun p => ({ p.1 with blank := if ch == 'B' then p.1.blank else b }, p.2)) := by
  unfold parser.parse_section
  simp only
  by_cases hQ : (ch == 'Q') = true
  · have hB : (ch == 'B') = false := by
      rw [beq_iff_eq] at hQ; subst hQ; decide
    simp only [hQ, hB, if_true, bind, Except.bind]
    cases parser.parse_char it '=' with
    | error e => rfl
    | ok p =>
      obtain ⟨eq, it1⟩ := p
      cases eq
      · rfl
      · simp only [Bool.not_true, Bool.false_eq_true, if_false]
        cases parser.parse_id_list it1 with
        | error e => rfl
        | ok q => rfl
  by_cases hS : (ch == 'S') = true
  · have hB : (ch == 'B') = false := by
      rw [beq_iff_eq] at hS; subst hS; decide
    simp only [hQ, hS, hB, if_true, bind, Except.bind]
    cases parser.parse_char it '=' with
    | error e => rfl
    | ok p =>
      obtain ⟨eq, it1⟩ := p
      cases eq
      · rfl
      · simp only [Bool.not_true, Bool.false_eq_true, if_false]
        cases parser.parse_id_list it1 with
        | error e => rfl
        | ok q =>
          simp only
          cases parser.first_chars q.1 with
          | error e => rfl
          | ok cs => rfl
  by_cases hG : (ch == 'G') = true
  · have hB : (ch == 'B') = false := by
      rw [beq_iff_eq] at hG; subst hG; decide
    simp only [hQ, hS, hG, hB, if_true, bind, Except.bind]
    cases parser.parse_char it '=' with
    | error e => rfl
    | ok p =>
      obtain ⟨eq, it1⟩ := p
      cases eq
      · rfl
      · simp only [Bool.not_true, Bool.false_eq_true, if_false]
        cases parser.parse_id_list it1 with
        | error e => rfl
        | ok q =>
          simp only
          cases parser.first_chars q.1 with
          | error e => rfl
          | ok cs => rfl
  by_cases hq : (ch == 'q') = true
  · have hB : (ch == 'B') = false := by
      rw [beq_iff_eq] at hq; subst hq; decide
    simp only [hQ, hS, hG, hq, hB, if_true, bind, Except.bind]
    cases parser.parse_char it '0' with
    | error e => rfl
    | ok p =>
      obtain ⟨zero, it1⟩ := p
      cases zero
      · rfl
      · simp only [Bool.not_true, Bool.false_eq_true, if_false]
        cases parser.parse_char it1 '=' with
        | error e => rfl
        | ok p2 =>
          obtain ⟨eq, it2⟩ := p2
          cases eq
          · rfl
          · simp only [Bool.not_true, Bool.false_eq_true, if_false]
            cases parser.parse_id it2 with
            | error e => rfl
            | ok q => rfl
  by_cases hB : (ch == 'B') = true
  · simp only [hQ, hS, hG, hq, hB, if_true, bind, Except.bind]
    cases parser.parse_char it '=' with
    | error e => rfl
    | ok p =>
      obtain ⟨eq, it1⟩ := p
      cases eq
      · rfl
      · simp only [Bool.not_true, Bool.false_eq_true, if_false]
        cases parser.parse_skip it1 with
        | error e => rfl
        | ok it2 =>
          cases it2 with
          | nil => rfl
          | cons c it3 => rfl
  by_cases hF : (ch == 'F') = true
  · simp only [hQ, hS, hG, hq, hB, hF, if_true, bind, Except.bind]
    cases parser.parse_char it '=' with
    | error e => rfl
    | ok p =>
      obtain ⟨eq, it1⟩ := p
      cases eq
      · rfl
      · simp only [Bool.not_true, Bool.false_eq_true, if_false]
        cases parser.parse_id_list it1 with
        | error e => rfl
        | ok q => rfl
  · simp only [hQ, hS, hG, hq, hB, hF]
    rfl

/-- The section loop does not read the variable `blank`. -/
theorem parse_loop_blank (input : List Char) (fuel : Nat) (v : parser.Vars)
    (it : List Char) (b : Char) :
    parser.parse_loop input fuel { v with blank := b } it
      = parser.parse_loop input fuel v it := by
  induction fuel generalizing v it b with
  | zero => rfl
  | succ fuel ih =>
    cases it with
    | nil => rfl
    | cons c cs =>
      simp only [parser.parse_loop, bind, Except.bind]
      cases parser.parse_skip (c :: cs) with
      | error e => rfl
      | ok it1 =>
        simp only
        cases it1 with
        | nil => rfl
        | cons ch it2 =>
          simp only
          split
          · cases it2 with
            | nil => rfl
            | cons ch2 it3 =>
              simp only
              split
              · rfl
              · rw [parse_section_blank]
                cases parser.parse_section ch2 v it3 with
                | error e => rfl
                | ok p =>
                  simp only [Except.map]
                  exact ih _ _ _
          · rfl

/-- Every tape of a machine built by the constructor has the blank symbol `_`. -/
theorem ctor_tapes_blank (n : Nat) (input : List Char) (ts : List Transition) (st : State) :
    ∀ t ∈ (Machine.ctor n input ts st).tapes, t.blank = '_' := by
  intro t ht
  simp only [Machine.ctor, Machine.blank_tapes, List.mem_cons, List.mem_map] at ht
  rcases ht with e | ⟨i, -, e⟩
  · rw [e, ctor_blank_eq]
  · rw [← e, Tape.ctor_blank, ctor_blank_eq]

theorem parse_N_machine (input : List Char) (v : parser.Vars) (it : List Char)
    (m : Machine) (h : parser.parse_N input v it = Except.ok m) :
    ∃ n ts, m = Machine.ctor n input ts v.initial_state := by
  unfold parser.parse_N at h
  split at h
  · simp [throw, throwThe, MonadExceptOf.throw] at h
  · obtain ⟨⟨eq, it1⟩, -, h2⟩ := bind_ok _ _ _ h
    simp only at h2
    split at h2
    · simp [throw, throwThe, MonadExceptOf.throw] at h2
    · obtain ⟨it2, -, h4⟩ := bind_ok _ _ _ h2
      obtain ⟨⟨id, it3⟩, -, h6⟩ := bind_ok _ _ _ h4
      simp only at h6
      obtain ⟨n, -, h8⟩ := bind_ok _ _ _ h6
      obtain ⟨ts, -, h10⟩ := bind_ok _ _ _ h8
      simp only [pure, Except.pure, Except.ok.injEq] at h10
      exact ⟨n, ts, h10.symm⟩

/-- Every tape of a machine returned by the section loop has the blank symbol `_`. -/
theorem parse_loop_tapes_blank (input : List Char) (fuel : Nat) (v : parser.Vars)
    (it : List Char) (m : Machine) (h : parser.parse_loop input fuel v it = Except.ok m) :
    ∀ t ∈ m.tapes, t.blank = '_' := by
  induction fuel generalizing v it with
  | zero => simp [parser.parse_loop, throw, throwThe, MonadExceptOf.throw] at h
  | succ fuel ih =>
    cases it with
    | nil => simp [parser.parse_loop, throw, throwThe, MonadExceptOf.throw] at h
    | cons c cs =>
      simp only [parser.parse_loop] at h
      obtain ⟨it1, -, h2⟩ := bind_ok _ _ _ h
      cases it1 with
      | nil => simp [throw, throwThe, MonadExceptOf.throw] at h2
      | cons ch it2 =>
        simp only at h2
        split at h2
        · cases it2 with
          | nil => simp [throw, throwThe, MonadExceptOf.throw] at h2
          | cons ch2 it3 =>
            simp only at h2
            split at h2
            · obtain ⟨n, ts, rfl⟩ := parse_N_machine _ _ _ _ h2
              exact ctor_tapes_blank _ _ _ _
            · obtain ⟨⟨v1, it4⟩, -, h4⟩ := bind_ok _ _ _ h2
              exact ih _ _ h4
        · simp [throw, throwThe, MonadExceptOf.throw] at h2

/-- A pass of the section loop through a `#B` section goes on with the variables it
had, the counter one higher, whatever character the section declares. -/
theorem parse_loop_B (input : List Char) (f : Nat) (v : parser.Vars)
    (it it3 it1 rest : List Char) (b : Char)
    (hB : parser.parse_skip it = Except.ok ('#' :: 'B' :: it3))
    (heq : parser.parse_char it3 '=' = Except.ok (true, it1))
    (hval : parser.parse_skip it1 = Except.ok (b :: rest)) :
    parser.parse_loop input (f + 1) v it
      = parser.parse_loop input f { v with tm_counter := v.tm_counter + 1 } rest := by
  have hs : parser.parse_section 'B' v it3
      = Except.ok ({ v with tm_counter := v.tm_counter + 1, blank := b }, rest) := by
    unfold parser.parse_section
    simp [heq, hval, bind, Except.bind, pure, Except.pure]
  cases it with
  | nil => simp [parser.parse_skip, parser.skip_loop, pure, Except.pure] at hB
  | cons c cs =>
    simp only [parser.parse_loop, hB, bind, Except.bind, beq_self_eq_true, if_true, hs]
    exact parse_loop_blank input f { v with tm_counter := v.tm_counter + 1 } rest b

/-- C17: the blank symbol of the tapes is the literal `_`, not the declared one.  Take a
specification text `pre ++ c :: post` in which the section loop of `parse` comes, after
some sections, to a `#B` section whose `=` is found and whose value, the character read
by `blank = *it++`, is the `c` between `pre` and `post`.  For every character `d` that
is neither whitespace nor the start of a comment and every input word, `parse` gives on
the text `pre ++ d :: post` exactly what it gives on `pre ++ c :: post`: the same
failure or the same machine, and every tape of that machine has the blank symbol `_`. -/
theorem declared_blank_ignored (pre post input : List Char) (c d : Char) (k : Nat)
    (v : parser.Vars) (it it3 it1 : List Char)
    (hreach : parser.Reaches k parser.Vars.init (pre ++ c :: post) v it)
    (hB : parser.parse_skip it = Except.ok ('#' :: 'B' :: it3))
    (heq : parser.parse_char it3 '=' = Except.ok (true, it1))
    (hval : parser.parse_skip it1 = Except.ok (c :: post))
    (hd : parser.isspace d = false) (hd2 : d ≠ ';') :
    parser.parse (pre ++ d :: post) input = parser.parse (pre ++ c :: post) input
      ∧ ∀ m, parser.parse (pre ++ c :: post) input = Except.ok m →
          (∀ t ∈ m.tapes, t.blank = '_')
            ∧ parser.parse (pre ++ d :: post) input = Except.ok m := by
  have l1 := parse_skip_length _ _ hval
  have l2 := parse_char_length _ _ _ _ heq
  have l3 := parse_skip_length _ _ hB
  simp only [List.length_cons] at l1 l3
  have hskip : (parser.isblank d || parser.isspace d || d == ';') = false := by
    have h1 : parser.isblank d = false := by
      simp only [parser.isspace, Bool.or_eq_false_iff] at hd
      simp [parser.isblank, hd.1.1.1.1.1, hd.1.1.1.1.2]
    simp [h1, hd, hd2]
  obtain ⟨y, hy, a0⟩ := reaches_local _ _ _ _ _ hreach pre (c :: post) rfl
    (by simp only [List.length_cons]; omega)
  subst hy
  obtain ⟨y0, hy0, a1⟩ := skip_loop_local false y (c :: post) _ hB
    (by simp only [List.length_cons]; omega)
  have hlen := congrArg List.length hy0
  simp only [List.length_cons, List.length_append] at hlen
  cases y0 with
  | nil => simp only [List.length_nil] at hlen; omega
  | cons a y0 =>
    cases y0 with
    | nil => simp only [List.length_cons, List.length_nil] at hlen; omega
    | cons b y3 =>
      simp only [List.cons_append, List.cons.injEq] at hy0
      obtain ⟨ha, hb, hy3⟩ := hy0
      subst ha hb hy3
      obtain ⟨y1, hy1, a2⟩ := parse_char_true_local y3 (c :: post) it1 '=' heq
        (by simp only [List.length_cons]; omega)
      subst hy1
      have hval2 := skip_loop_boundary false y1 c d post hval hskip
      have r1 := reaches_loop_fuel input _ _ _ _ _ hreach ((pre ++ c :: post).length + 1)
        (by omega)
      have r2 := reaches_loop_fuel input _ _ _ _ _ (a0 (d :: post) rfl)
        ((pre ++ d :: post).length + 1) (by omega)
      have hF : (pre ++ d :: post).length + 1 = (pre ++ c :: post).length + 1 := by
        simp only [List.length_append, List.length_cons]
      obtain ⟨f, hf⟩ : ∃ f, (pre ++ c :: post).length + 1 - k = f + 1 :=
        ⟨(pre ++ c :: post).length + 1 - k - 1, by omega⟩
      have e1 : parser.parse (pre ++ c :: post) input
          = parser.parse_loop input f { v with tm_counter := v.tm_counter + 1 } post := by
        unfold parser.parse
        rw [r1.2, hf]
        exact parse_loop_B input f v _ _ _ post c hB heq hval
      have e2 : parser.parse (pre ++ d :: post) input
          = parser.parse_loop input f { v with tm_counter := v.tm_counter + 1 } post := by
        unfold parser.parse
        rw [r2.2, hF, hf]
        exact parse_loop_B input f v _ _ _ post d (a1 (d :: post)) (a2 (d :: post)) hval2
      refine ⟨by rw [e1, e2], fun m hm => ⟨?_, by rw [e2, ← e1, hm]⟩⟩
      rw [e1] at hm
      exact parse_loop_tapes_blank _ _ _ _ _ hm

theorem blank_reaches :
    parser.Reaches 4 parser.Vars.init (blank_pre ++ '_' :: blank_post) before_blank_vars
      "\n#B = _\n#F = \x7bq1\x7d\n#N = 1\nq0 0 1 r q1\n".toList :=
  parser.Reaches.pass 3
    (parser.Vars.init)
    ({ states := [⟨['q', '0']⟩, ⟨['q', '1']⟩], input_syms := [], tape_syms := [], initial_state := ⟨[]⟩, blank := '\x00', tm_counter := 1 })
    before_blank_vars
    ((blank_pre ++ '_' :: blank_post))
    (" = \x7bq0,q1\x7d\n#S = \x7b0,1\x7d\n#G = \x7b0,1,_\x7d\n#q0 = q0\n#B = _\n#F = \x7bq1\x7d\n#N = 1\nq0 0 1 r q1\n".toList)
    ("\n#S = \x7b0,1\x7d\n#G = \x7b0,1,_\x7d\n#q0 = q0\n#B = _\n#F = \x7bq1\x7d\n#N = 1\nq0 0 1 r q1\n".toList)
    ("\n#B = _\n#F = \x7bq1\x7d\n#N = 1\nq0 0 1 r q1\n".toList)
    'Q' (by rfl) (by decide) (by rfl)
    (parser.Reaches.pass 2
    ({ states := [⟨['q', '0']⟩, ⟨['q', '1']⟩], input_syms := [], tape_syms := [], initial_state := ⟨[]⟩, blank := '\x00', tm_counter := 1 })
    ({ states := [⟨['q', '0']⟩, ⟨['q', '1']⟩], input_syms := ['0', '1'], tape_syms := [], initial_state := ⟨[]⟩, blank := '\x00', tm_counter := 2 })
    before_blank_vars
    ("\n#S = \x7b0,1\x7d\n#G = \x7b0,1,_\x7d\n#q0 = q0\n#B = _\n#F = \x7bq1\x7d\n#N = 1\nq0 0 1 r q1\n".toList)
    (" = \x7b0,1\x7d\n#G = \x7b0,1,_\x7d\n#q0 = q0\n#B = _\n#F = \x7bq1\x7d\n#N = 1\nq0 0 1 r q1\n".toList)
    ("\n#G = \x7b0,1,_\x7d\n#q0 = q0\n#B = _\n#F = \x7bq1\x7d\n#N = 1\nq0 0 1 r q1\n".toList)
    ("\n#B = _\n#F = \x7bq1\x7d\n#N = 1\nq0 0 1 r q1\n".toList)
    'S' (by rfl) (by decide) (by rfl)
    (parser.Reaches.pass 1
    ({ states := [⟨['q', '0']⟩, ⟨['q', '1']⟩], input_syms := ['0', '1'], tape_syms := [], initial_state := ⟨[]⟩, blank := '\x00', tm_counter := 2 })
    ({ states := [⟨['q', '0']⟩, ⟨['q', '1']⟩], input_syms := ['0', '1'], tape_syms := ['0', '1', '_'], initial_state := ⟨[]⟩, blank := '\x00', tm_counter := 3 })
    before_blank_vars
    ("\n#G = \x7b0,1,_\x7d\n#q0 = q0\n#B = _\n#F = \x7bq1\x7d\n#N = 1\nq0 0 1 r q1\n".toList)
    (" = \x7b0,1,_\x7d\n#q0 = q0\n#B = _\n#F = \x7bq1\x7d\n#N = 1\nq0 0 1 r q1\n".toList)
    ("\n#q0 = q0\n#B = _\n#F = \x7bq1\x7d\n#N = 1\nq0 0 1 r q1\n".toList)
    ("\n#B = _\n#F = \x7bq1\x7d\n#N = 1\nq0 0 1 r q1\n".toList)
    'G' (by rfl) (by decide) (by rfl)
    (parser.Reaches.pass 0
    ({ states := [⟨['q', '0']⟩, ⟨['q', '1']⟩], input_syms := ['0', '1'], tape_syms := ['0', '1', '_'], initial_state := ⟨[]⟩, blank := '\x00', tm_counter := 3 })
    (before_blank_vars)
    before_blank_vars
    ("\n#q0 = q0\n#B = _\n#F = \x7bq1\x7d\n#N = 1\nq0 0 1 r q1\n".toList)
    ("0 = q0\n#B = _\n#F = \x7bq1\x7d\n#N = 1\nq0 0 1 r q1\n".toList)
    ("\n#B = _\n#F = \x7bq1\x7d\n#N = 1\nq0 0 1 r q1\n".toList)
    ("\n#B = _\n#F = \x7bq1\x7d\n#N = 1\nq0 0 1 r q1\n".toList)
    'q' (by rfl) (by decide) (by rfl)
    (parser.Reaches.start before_blank_vars _))))

theorem declared_blank_ignored_witness :
    parser.parse_skip " _\n#F = \x7bq1\x7d\n#N = 1\nq0 0 1 r q1\n".toList
        = Except.ok ('_' :: blank_post)
      ∧ parser.parse (blank_pre ++ 'x' :: blank_post) ['0']
          = parser.parse (blank_pre ++ '_' :: blank_post) ['0']
      ∧ (∀ t ∈ flip_machine.tapes, t.blank = '_')
      ∧ parser.parse (blank_pre ++ 'x' :: blank_post) ['0'] = Except.ok flip_machine :=
  ⟨by rfl,
    (declared_blank_ignored blank_pre blank_post ['0'] '_' 'x' 4 before_blank_vars
      "\n#B = _\n#F = \x7bq1\x7d\n#N = 1\nq0 0 1 r q1\n".toList
      " = _\n#F = \x7bq1\x7d\n#N = 1\nq0 0 1 r q1\n".toList
      " _\n#F = \x7bq1\x7d\n#N = 1\nq0 0 1 r q1\n".toList
      blank_reaches (by rfl) (by rfl) (by rfl) (by decide) (by decide)).1,
    (declared_blank_ignored blank_pre blank_post ['0'] '_' 'x' 4 before_blank_vars
      "\n#B = _\n#F = \x7bq1\x7d\n#N = 1\nq0 0 1 r q1\n".toList
      " = _\n#F = \x7bq1\x7d\n#N = 1\nq0 0 1 r q1\n".toList
      " _\n#F = \x7bq1\x7d\n#N = 1\nq0 0 1 r q1\n".toList
      blank_reaches (by rfl) (by rfl) (by rfl) (by decide) (by decide)).2 flip_machine
      (by rfl)⟩

/-! ### The tape at the level of nodes and links -/

/-- Links that are kept where a chain uses them keep the chain. -/
theorem links_frame (h k : Nat → HeapNode) (l : List Nat) (hc : l.Chain' (linked h))
    (hn : ∀ a ∈ l.dropLast, (k a).next = (h a).next)
    (hp : ∀ b ∈ l.tail, (k b).prev = (h b).prev) : l.Chain' (linked k) := by
  induction l with
  | nil => exact List.chain'_nil
  | cons a l ih =>
    cases l with
    | nil => exact List.chain'_singleton a
    | cons b l =>
      rw [List.chain'_cons] at hc ⊢
      refine ⟨⟨?_, ?_⟩, ih hc.2 (fun x hx => hn x ?_) (fun x hx => hp x ?_)⟩
      · rw [hn a (by simp), hc.1.1]
      · rw [hp b (by simp), hc.1.2]
      · simp only [List.dropLast_cons₂, List.mem_cons]
        exact Or.inr hx
      · simp only [List.tail_cons, List.mem_cons] at hx ⊢
        exact Or.inr hx

/-- The addresses of a represented tape are distinct. -/
theorem rep_distinct (t : HeapTape) (z : Tape) (ls rs : List Nat) (h : t.Rep z ls rs) :
    (t.lm ≠ t.rm ∧ t.lm ≠ t.cur ∧ t.lm ∉ ls ∧ t.lm ∉ rs)
      ∧ (t.rm ≠ t.cur ∧ t.rm ∉ ls ∧ t.rm ∉ rs)
      ∧ (t.cur ∉ ls ∧ t.cur ∉ rs)
      ∧ ls.Nodup ∧ rs.Nodup ∧ ls.Disjoint rs := by
  have hnd := h.nodup
  simp only [List.nodup_cons, List.nodup_append, List.mem_cons, List.mem_append, not_or]
    at hnd
  tauto

/-- The representation is kept by `write`. -/
theorem rep_write (t : HeapTape) (z : Tape) (ls rs : List Nat) (ch : Char)
    (h : t.Rep z ls rs) : (t.write ch).Rep (z.write ch) ls rs := by
  obtain ⟨-, -, ⟨hcl, hcr⟩, -⟩ := rep_distinct t z ls rs h
  have hnode : ∀ a, a ≠ t.cur → (t.write ch).node a = t.node a := by
    intro a ha
    simp [HeapTape.node, HeapTape.write, Function.update_apply, ha]
  refine ⟨h.blank, ?_, ?_, ?_, h.nodup, ?_, h.bound⟩
  · refine Eq.trans (List.map_congr_left (fun a ha => hnode a ?_)) h.left
    rintro rfl
    exact hcl ha
  · have := h.cur
    simp only [HeapTape.node, HeapTape.write, Function.update_same, Tape.write] at this ⊢
    rw [← this]
  · refine Eq.trans (List.map_congr_left (fun a ha => hnode a ?_)) h.right
    rintro rfl
    exact hcr ha
  · refine links_frame t.heap _ _ h.links (fun a _ => ?_) (fun a _ => ?_)
    · simp only [HeapTape.write, Function.update_apply]
      split
      · rename_i e; rw [e]
      · rfl
    · simp only [HeapTape.write, Function.update_apply]
      split
      · rename_i e; rw [e]
      · rfl

theorem nodup_shift (a b c p : Nat) (ps rs : List Nat)
    (h : (a :: b :: c :: ((p :: ps) ++ rs)).Nodup) :
    (a :: b :: p :: (ps ++ c :: rs)).Nodup := by
  refine (List.Perm.nodup_iff ?_).1 h
  refine List.Perm.cons a (List.Perm.cons b ?_)
  simp only [List.cons_append]
  refine (List.Perm.swap p c _).trans (List.Perm.cons p ?_)
  exact List.perm_middle.symm

/-- The heap after the allocating branch of `move(L)`. -/
theorem move_L_alloc (t : HeapTape) (hprev : (t.heap t.cur).prev = t.lm)
    (h1 : t.cur ≠ t.top) (h2 : t.lm ≠ t.top) (h3 : t.lm ≠ t.cur) :
    (t.move Direction.L).cur = t.top ∧ (t.move Direction.L).top = t.top + 1
      ∧ (t.move Direction.L).lm = t.lm ∧ (t.move Direction.L).rm = t.rm
      ∧ (t.move Direction.L).blank = t.blank
      ∧ (t.move Direction.L).heap t.top = ⟨t.cur, t.lm, t.blank, (t.heap t.cur).index - 1⟩
      ∧ (t.move Direction.L).heap t.cur = { t.heap t.cur with prev := t.top }
      ∧ (t.move Direction.L).heap t.lm = { t.heap t.lm with next := t.top }
      ∧ ∀ a, a ≠ t.top → a ≠ t.cur → a ≠ t.lm → (t.move Direction.L).heap a = t.heap a := by
  simp only [HeapTape.move, hprev, beq_self_eq_true, if_true, Function.update_apply,
    h1, h2, h3, h3.symm, h1.symm, h2.symm, if_false]
  refine ⟨trivial, trivial, trivial, trivial, trivial, trivial, trivial, trivial, ?_⟩
  intro a ha hb hc
  simp only [ha, hb, hc, if_false]

/-- The representation is kept by `move(L)`. -/
theorem rep_move_L (t : HeapTape) (z : Tape) (ls rs : List Nat) (h : t.Rep z ls rs) :
    ∃ ls2 rs2, (t.move Direction.L).Rep (z.move Direction.L) ls2 rs2 := by
  obtain ⟨⟨d1, d2, d3, d4⟩, ⟨d5, d6, d7⟩, ⟨d8, d9⟩, d10, d11, d12⟩ := rep_distinct t z ls rs h
  have hb := h.bound
  have hlinks := h.links
  cases ls with
  | nil =>
    simp only [List.reverse_nil, List.nil_append] at hlinks
    rw [List.chain'_cons] at hlinks
    obtain ⟨⟨-, hprev⟩, hrest⟩ := hlinks
    have b1 : t.cur ≠ t.top := Nat.ne_of_lt (hb _ (by simp))
    have b2 : t.lm ≠ t.top := Nat.ne_of_lt (hb _ (by simp))
    obtain ⟨e1, e2, e3, e4, e5, e6, e7, e8, e9⟩ := move_L_alloc t hprev b1 b2 d2
    have hzl : z.left = [] := by rw [← h.left]; rfl
    have hz : z.move Direction.L
        = { z with left := [], cur := ⟨z.blank, z.cur.index - 1⟩, right := z.cur :: z.right } := by
      simp only [Tape.move, hzl]
    have hnode : ∀ a ∈ rs, (t.move Direction.L).node a = t.node a := by
      intro a ha
      have a1 : a ≠ t.top := Nat.ne_of_lt (hb _ (by simp [ha]))
      have a2 : a ≠ t.cur := by rintro rfl; exact d9 ha
      have a3 : a ≠ t.lm := by rintro rfl; exact d4 ha
      simp only [HeapTape.node, e9 a a1 a2 a3]
    refine ⟨[], t.cur :: rs, ?_, ?_, ?_, ?_, ?_, ?_, ?_⟩
    · rw [e5, hz]; exact h.blank
    · rw [hz]; rfl
    · have := h.cur
      rw [hz, e1]
      simp only [HeapTape.node, e6]
      rw [← this, h.blank]
      rfl
    · rw [hz]
      simp only [List.map_cons]
      rw [List.map_congr_left hnode, h.right, ← h.cur]
      simp only [HeapTape.node, e7]
    · rw [e1, e3, e4]
      have c1 : ∀ a ∈ t.lm :: t.rm :: t.cur :: ([] ++ rs), a ≠ t.top :=
        fun a ha => Nat.ne_of_lt (hb a ha)
      have hn := h.nodup
      simp only [List.nil_append, List.nodup_cons, List.mem_cons, not_or] at hn c1 ⊢
      have q1 := c1 t.lm (Or.inl rfl)
      have q2 := c1 t.rm (Or.inr (Or.inl rfl))
      have q3 := c1 t.cur (Or.inr (Or.inr (Or.inl rfl)))
      have q4 : t.top ∉ rs := fun hm => c1 t.top (Or.inr (Or.inr (Or.inr hm))) rfl
      tauto
    · rw [e1, e3, e4]
      simp only [List.reverse_nil, List.nil_append, List.cons_append]
      rw [List.chain'_cons, List.chain'_cons]
      refine ⟨⟨by rw [e8], by rw [e6]⟩, ⟨by rw [e6], by rw [e7]⟩, ?_⟩
      refine links_frame t.heap _ _ hrest (fun a ha => ?_) (fun a ha => ?_)
      · have hdl : (t.cur :: (rs ++ [t.rm])).dropLast = t.cur :: rs :=
          @List.dropLast_concat Nat (t.cur :: rs) t.rm
        rw [hdl] at ha
        rcases List.mem_cons.1 ha with e | ha
        · rw [e, e7]
        · have a1 : a ≠ t.top := Nat.ne_of_lt (hb _ (by simp [ha]))
          have a2 : a ≠ t.cur := by rintro rfl; exact d9 ha
          have a3 : a ≠ t.lm := by rintro rfl; exact d4 ha
          rw [e9 a a1 a2 a3]
      · simp only [List.tail_cons, List.mem_append, List.mem_singleton] at ha
        rcases ha with ha | e
        · have a1 : a ≠ t.top := Nat.ne_of_lt (hb _ (by simp [ha]))
          have a2 : a ≠ t.cur := by rintro rfl; exact d9 ha
          have a3 : a ≠ t.lm := by rintro rfl; exact d4 ha
          rw [e9 a a1 a2 a3]
        · have a1 : t.rm ≠ t.top := Nat.ne_of_lt (hb _ (by simp))
          rw [e, e9 t.rm a1 d5 d1.symm]
    · intro a ha
      rw [e1, e2, e3, e4] at *
      simp only [List.nil_append, List.mem_cons] at ha hb
      rcases ha with e | e | e | e | e
      · exact Nat.lt_succ_of_lt (hb a (Or.inl e))
      · exact Nat.lt_succ_of_lt (hb a (Or.inr (Or.inl e)))
      · rw [e]; exact Nat.lt_succ_self _
      · exact Nat.lt_succ_of_lt (hb a (Or.inr (Or.inr (Or.inl e))))
      · exact Nat.lt_succ_of_lt (hb a (Or.inr (Or.inr (Or.inr e))))
  | cons p ps =>
    have hchain : t.lm :: ((p :: ps).reverse ++ t.cur :: (rs ++ [t.rm]))
        = (t.lm :: ps.reverse) ++ p :: t.cur :: (rs ++ [t.rm]) := by
      simp only [List.reverse_cons, List.append_assoc, List.singleton_append, List.cons_append,
        List.nil_append]
    rw [hchain, List.chain'_append_cons_cons] at hlinks
    obtain ⟨-, ⟨-, hprev⟩, -⟩ := hlinks
    have hpl : p ≠ t.lm := by rintro rfl; exact d3 (List.mem_cons_self _ _)
    have hm : t.move Direction.L = { t with cur := p } := by
      simp only [HeapTape.move, hprev, beq_iff_eq, hpl, if_false]
    have hzl : z.left = t.node p :: ps.map t.node := by rw [← h.left]; rfl
    have hz : z.move Direction.L
        = { z with left := ps.map t.node, cur := t.node p, right := z.cur :: z.right } := by
      simp only [Tape.move, hzl]
    rw [hm, hz]
    refine ⟨ps, t.cur :: rs, h.blank, rfl, rfl, ?_, ?_, ?_, ?_⟩
    · show List.map t.node (t.cur :: rs) = z.cur :: z.right
      rw [List.map_cons, h.cur, h.right]
    · exact nodup_shift _ _ _ _ _ _ h.nodup
    · show (t.lm :: (ps.reverse ++ p :: (t.cur :: rs ++ [t.rm]))).Chain' (linked t.heap)
      have := h.links
      rw [hchain] at this
      simpa using this
    · intro a ha
      apply hb
      simp only [List.mem_cons, List.mem_append] at ha ⊢
      tauto

theorem nodup_shift_right (a b c p : Nat) (ls ps : List Nat)
    (h : (a :: b :: c :: (ls ++ p :: ps)).Nodup) :
    (a :: b :: p :: ((c :: ls) ++ ps)).Nodup := by
  refine (List.Perm.nodup_iff ?_).1 h
  refine List.Perm.cons a (List.Perm.cons b ?_)
  simp only [List.cons_append]
  refine (List.Perm.cons c List.perm_middle).trans ?_
  exact List.Perm.swap p c _

/-- The heap after the allocating branch of `move(R)`. -/
theorem move_R_alloc (t : HeapTape) (hnext : (t.heap t.cur).next = t.rm)
    (h1 : t.cur ≠ t.top) (h2 : t.rm ≠ t.top) (h3 : t.rm ≠ t.cur) :
    (t.move Direction.R).cur = t.top ∧ (t.move Direction.R).top = t.top + 1
      ∧ (t.move Direction.R).lm = t.lm ∧ (t.move Direction.R).rm = t.rm
      ∧ (t.move Direction.R).blank = t.blank
      ∧ (t.move Direction.R).heap t.top = ⟨t.rm, t.cur, t.blank, (t.heap t.cur).index + 1⟩
      ∧ (t.move Direction.R).heap t.cur = { t.heap t.cur with next := t.top }
      ∧ (t.move Direction.R).heap t.rm = { t.heap t.rm with prev := t.top }
      ∧ ∀ a, a ≠ t.top → a ≠ t.cur → a ≠ t.rm → (t.move Direction.R).heap a = t.heap a := by
  simp only [HeapTape.move, hnext, beq_self_eq_true, if_true, Function.update_apply,
    h1, h2, h3, h3.symm, h1.symm, h2.symm, if_false]
  refine ⟨trivial, trivial, trivial, trivial, trivial, trivial, trivial, trivial, ?_⟩
  intro a ha hb hc
  simp only [ha, hb, hc, if_false]

/-- The representation is kept by `move(R)`. -/
theorem rep_move_R (t : HeapTape) (z : Tape) (ls rs : List Nat) (h : t.Rep z ls rs) :
    ∃ ls2 rs2, (t.move Direction.R).Rep (z.move Direction.R) ls2 rs2 := by
  obtain ⟨⟨d1, d2, d3, d4⟩, ⟨d5, d6, d7⟩, ⟨d8, d9⟩, d10, d11, d12⟩ := rep_distinct t z ls rs h
  have hb := h.bound
  have hlinks := h.links
  cases rs with
  | nil =>
    have hchain : t.lm :: (ls.reverse ++ t.cur :: ([] ++ [t.rm]))
        = (t.lm :: ls.reverse) ++ t.cur :: t.rm :: [] := by
      simp only [List.nil_append, List.cons_append]
    rw [hchain, List.chain'_append_cons_cons] at hlinks
    obtain ⟨hrest, ⟨hnext, -⟩, -⟩ := hlinks
    have b1 : t.cur ≠ t.top := Nat.ne_of_lt (hb _ (by simp))
    have b2 : t.rm ≠ t.top := Nat.ne_of_lt (hb _ (by simp))
    obtain ⟨e1, e2, e3, e4, e5, e6, e7, e8, e9⟩ := move_R_alloc t hnext b1 b2 d5
    have hzr : z.right = [] := by rw [← h.right]; rfl
    have hz : z.move Direction.R
        = { z with right := [], cur := ⟨z.blank, z.cur.index + 1⟩, left := z.cur :: z.left } := by
      simp only [Tape.move, hzr]
    have hother : ∀ a ∈ ls, (t.move Direction.R).heap a = t.heap a := by
      intro a ha
      have a1 : a ≠ t.top := Nat.ne_of_lt (hb _ (by simp [ha]))
      have a2 : a ≠ t.cur := by rintro rfl; exact d8 ha
      have a3 : a ≠ t.rm := by rintro rfl; exact d6 ha
      exact e9 a a1 a2 a3
    have hnode : ∀ a ∈ ls, (t.move Direction.R).node a = t.node a := by
      intro a ha
      simp only [HeapTape.node, hother a ha]
    refine ⟨t.cur :: ls, [], ?_, ?_, ?_, ?_, ?_, ?_, ?_⟩
    · rw [e5, hz]; exact h.blank
    · rw [hz]
      simp only [List.map_cons]
      rw [List.map_congr_left hnode, h.left, ← h.cur]
      simp only [HeapTape.node, e7]
    · have := h.cur
      rw [hz, e1]
      simp only [HeapTape.node, e6]
      rw [← this, h.blank]
      rfl
    · rw [hz]; rfl
    · rw [e1, e3, e4]
      have c1 : ∀ a ∈ t.lm :: t.rm :: t.cur :: (ls ++ []), a ≠ t.top :=
        fun a ha => Nat.ne_of_lt (hb a ha)
      have hn := h.nodup
      simp only [List.append_nil, List.nodup_cons, List.mem_cons, not_or] at hn c1 ⊢
      have q1 := c1 t.lm (Or.inl rfl)
      have q2 := c1 t.rm (Or.inr (Or.inl rfl))
      have q3 := c1 t.cur (Or.inr (Or.inr (Or.inl rfl)))
      have q4 : t.top ∉ ls := fun hm => c1 t.top (Or.inr (Or.inr (Or.inr hm))) rfl
      tauto
    · rw [e1, e3, e4]
      have hchain2 : t.lm :: ((t.cur :: ls).reverse ++ t.top :: ([] ++ [t.rm]))
          = (t.lm :: ls.reverse) ++ t.cur :: t.top :: [t.rm] := by
        simp only [List.reverse_cons, List.append_assoc, List.singleton_append,
          List.cons_append, List.nil_append]
      rw [hchain2, List.chain'_append_cons_cons]
      refine ⟨?_, ⟨by rw [e7], by rw [e6]⟩, ?_⟩
      · refine links_frame t.heap _ _ hrest (fun a ha => ?_) (fun a ha => ?_)
        · have hdl : (t.lm :: ls.reverse ++ [t.cur]).dropLast = t.lm :: ls.reverse :=
            @List.dropLast_concat Nat (t.lm :: ls.reverse) t.cur
          rw [hdl] at ha
          rcases List.mem_cons.1 ha with e | ha
          · have a1 : t.lm ≠ t.top := Nat.ne_of_lt (hb _ (by simp))
            rw [e, e9 t.lm a1 d2 d1]
          · rw [hother a (List.mem_reverse.1 ha)]
        · simp only [List.cons_append, List.tail_cons, List.mem_append, List.mem_reverse,
            List.mem_singleton] at ha
          rcases ha with ha | e
          · rw [hother a ha]
          · rw [e, e7]
      · rw [List.chain'_cons]
        exact ⟨⟨by rw [e6], by rw [e8]⟩, List.chain'_singleton _⟩
    · intro a ha
      rw [e1, e2, e3, e4] at *
      simp only [List.append_nil, List.mem_cons] at ha hb
      rcases ha with e | e | e | e | e
      · exact Nat.lt_succ_of_lt (hb a (Or.inl e))
      · exact Nat.lt_succ_of_lt (hb a (Or.inr (Or.inl e)))
      · rw [e]; exact Nat.lt_succ_self _
      · exact Nat.lt_succ_of_lt (hb a (Or.inr (Or.inr (Or.inl e))))
      · exact Nat.lt_succ_of_lt (hb a (Or.inr (Or.inr (Or.inr e))))
  | cons p ps =>
    have hchain : t.lm :: (ls.reverse ++ t.cur :: ((p :: ps) ++ [t.rm]))
        = (t.lm :: ls.reverse) ++ t.cur :: p :: (ps ++ [t.rm]) := by
      simp only [List.cons_append]
    rw [hchain, List.chain'_append_cons_cons] at hlinks
    obtain ⟨-, ⟨hnext, -⟩, -⟩ := hlinks
    have hpr : p ≠ t.rm := by rintro rfl; exact d7 (List.mem_cons_self _ _)
    have hm : t.move Direction.R = { t with cur := p } := by
      simp only [HeapTape.move, hnext, beq_iff_eq, hpr, if_false]
    have hzr : z.right = t.node p :: ps.map t.node := by rw [← h.right]; rfl
    have hz : z.move Direction.R
        = { z with right := ps.map t.node, cur := t.node p, left := z.cur :: z.left } := by
      simp only [Tape.move, hzr]
    rw [hm, hz]
    refine ⟨t.cur :: ls, ps, h.blank, ?_, rfl, rfl, ?_, ?_, ?_⟩
    · show List.map t.node (t.cur :: ls) = z.cur :: z.left
      rw [List.map_cons, h.cur, h.left]
    · exact nodup_shift_right _ _ _ _ _ _ h.nodup
    · show (t.lm :: ((t.cur :: ls).reverse ++ p :: (ps ++ [t.rm]))).Chain' (linked t.heap)
      have := h.links
      rw [hchain] at this
      simpa using this
    · intro a ha
      apply hb
      simp only [List.mem_cons, List.mem_append] at ha ⊢
      tauto

/-- The representation is kept by `move`. -/
theorem rep_move (t : HeapTape) (z : Tape) (ls rs : List Nat) (d : Direction)
    (h : t.Rep z ls rs) : ∃ ls2 rs2, (t.move d).Rep (z.move d) ls2 rs2 := by
  cases d with
  | L => exact rep_move_L t z ls rs h
  | R => exact rep_move_R t z ls rs h
  | N => exact ⟨ls, rs, h⟩

/-- The chain from `_lm` to `_rm` has no address twice. -/
theorem rep_chain_nodup (t : HeapTape) (z : Tape) (ls rs : List Nat) (h : t.Rep z ls rs) :
    (t.lm :: (ls.reverse ++ t.cur :: (rs ++ [t.rm]))).Nodup := by
  refine (List.Perm.nodup_iff ?_).2 h.nodup
  refine List.Perm.cons _ ?_
  refine List.perm_middle.trans ?_
  refine (List.Perm.cons _ ?_).trans (List.Perm.swap _ _ _)
  rw [← List.append_assoc]
  refine (List.perm_append_singleton _ _).trans (List.Perm.cons _ ?_)
  exact List.Perm.append_right _ (List.reverse_perm _)

/-- The heap after one pass of the first loop of `gc`, when `_lm->_next` is `a` and
`a->_next` is `b`. -/
theorem unlink_left_heap (h : Nat → HeapNode) (lm a b : Nat) (h1 : (h lm).next = a)
    (h2 : (h a).next = b) (n : lm ≠ b) :
    Function.update (Function.update h lm { h lm with next := (h (h lm).next).next })
        ((Function.update h lm { h lm with next := (h (h lm).next).next }) lm).next
        { (Function.update h lm { h lm with next := (h (h lm).next).next })
            ((Function.update h lm { h lm with next := (h (h lm).next).next }) lm).next
          with prev := lm }
      = Function.update (Function.update h lm { h lm with next := b }) b
          { h b with prev := lm } := by
  have e0 : (h (h lm).next).next = b := by rw [h1, h2]
  have e1 : ((Function.update h lm { h lm with next := (h (h lm).next).next }) lm).next = b := by
    rw [Function.update_same]
    exact e0
  rw [e1, e0, Function.update_noteq n.symm]

/-- One pass of the first loop of `gc` on a chain `_lm, a, b, ...`: the node `a` is
unlinked. -/
theorem unlink_left (h : Nat → HeapNode) (lm a b : Nat) (l : List Nat)
    (hc : (lm :: a :: b :: l).Chain' (linked h)) (hn : (lm :: a :: b :: l).Nodup) :
    (lm :: b :: l).Chain' (linked
      (Function.update (Function.update h lm { h lm with next := b }) b
        { h b with prev := lm })) := by
  rw [List.chain'_cons, List.chain'_cons] at hc
  obtain ⟨-, -, hrest⟩ := hc
  simp only [List.nodup_cons, List.mem_cons, not_or] at hn
  obtain ⟨⟨n1, n2, n3⟩, ⟨n4, n5⟩, n6, n7⟩ := hn
  rw [List.chain'_cons]
  refine ⟨⟨?_, ?_⟩, ?_⟩
  · simp [Function.update_apply, n2]
  · simp [Function.update_apply]
  · refine links_frame h _ _ hrest (fun x hx => ?_) (fun x hx => ?_)
    · have hx2 : x ∈ b :: l := List.mem_of_mem_dropLast hx
      have hxl : x ≠ lm := by rintro rfl; simp only [List.mem_cons] at hx2; tauto
      simp only [Function.update_apply, hxl, if_false]
      split
      · rename_i e; rw [e]
      · rfl
    · simp only [List.tail_cons] at hx
      have hxl : x ≠ lm := by rintro rfl; exact n3 hx
      have hxb : x ≠ b := by rintro rfl; exact n6 hx
      simp only [Function.update_apply, hxl, hxb, if_false]

theorem tape_with_left (z : Tape) (l : List Node) (h : l = z.left) : { z with left := l } = z := by
  subst h
  rfl

/-- The first loop of `gc` ends, and does to the heap what dropping the blank far end of
`left` does to the zipper. -/
theorem rep_gc_left (fl : List Nat) (t : HeapTape) (z : Tape) (rs : List Nat) (fuel : Nat)
    (h : t.Rep z fl.reverse rs) (hf : fl.length < fuel) :
    ∃ u ls2, t.gc_left fuel = Except.ok u
      ∧ u.Rep { z with left := z.left.rdropWhile (fun nd => nd.content == z.blank) } ls2 rs
      ∧ u.top = t.top := by
  induction fl generalizing t z fuel with
  | nil =>
    obtain ⟨f, rfl⟩ : ∃ f, fuel = f + 1 := ⟨fuel - 1, by simp at hf; omega⟩
    have hlinks := h.links
    simp only [List.reverse_nil, List.nil_append] at hlinks
    rw [List.chain'_cons] at hlinks
    have hnext : (t.heap t.lm).next = t.cur := hlinks.1.1
    have hzl : z.left = [] := by rw [← h.left]; rfl
    refine ⟨t, [], ?_, ?_, rfl⟩
    · simp [HeapTape.gc_left, hnext, pure, Except.pure]
    · rw [tape_with_left z _ (by rw [hzl]; rfl)]
      exact h
  | cons a fl0 ih =>
    obtain ⟨f, rfl⟩ : ∃ f, fuel = f + 1 := ⟨fuel - 1, by simp at hf; omega⟩
    obtain ⟨⟨d1, d2, d3, d4⟩, ⟨d5, d6, d7⟩, ⟨d8, d9⟩, d10, d11, d12⟩ :=
      rep_distinct t z _ rs h
    have hnd := rep_chain_nodup t z _ rs h
    have hlinks := h.links
    obtain ⟨b, l, hT⟩ : ∃ b l, fl0 ++ t.cur :: (rs ++ [t.rm]) = b :: l := by
      cases fl0 with
      | nil => exact ⟨_, _, rfl⟩
      | cons c fl1 => exact ⟨_, _, rfl⟩
    have hchain : t.lm :: ((a :: fl0).reverse.reverse ++ t.cur :: (rs ++ [t.rm]))
        = t.lm :: a :: b :: l := by
      rw [List.reverse_reverse, List.cons_append, hT]
    rw [hchain] at hlinks hnd
    have hl2 := hlinks
    rw [List.chain'_cons, List.chain'_cons] at hl2
    obtain ⟨⟨h1, -⟩, ⟨h2, -⟩, -⟩ := hl2
    have hac : a ≠ t.cur := by
      rintro rfl
      exact d8 (by simp)
    have hlb : t.lm ≠ b := by
      have := hnd
      simp only [List.nodup_cons, List.mem_cons, not_or] at this
      exact this.1.2.1
    have hzl : z.left = fl0.reverse.map t.node ++ [t.node a] := by
      rw [← h.left]
      simp
    by_cases hcont : (t.heap a).content = t.blank
    · obtain ⟨k, hk⟩ : ∃ k : Nat → HeapNode, k = Function.update
          (Function.update t.heap t.lm { t.heap t.lm with next := b }) b
          { t.heap b with prev := t.lm } := ⟨_, rfl⟩
      have hstep : t.gc_left (f + 1) = HeapTape.gc_left f { t with heap := k } := by
        simp only [HeapTape.gc_left]
        rw [if_pos (by simp [h1, hcont, hac]), unlink_left_heap t.heap t.lm a b h1 h2 hlb, hk]
      have hnode : ∀ x, HeapTape.node { t with heap := k } x = t.node x := by
        intro x
        by_cases e1 : x = b
        · subst e1
          simp [HeapTape.node, hk, Function.update_apply]
        · by_cases e2 : x = t.lm
          · subst e2
            simp [HeapTape.node, hk, Function.update_apply, e1]
          · simp [HeapTape.node, hk, Function.update_apply, e1, e2]
      have hrep2 : HeapTape.Rep { t with heap := k }
          { z with left := fl0.reverse.map t.node } fl0.reverse rs := by
        refine ⟨h.blank, List.map_congr_left (fun x _ => hnode x),
          (hnode _).trans h.cur, (List.map_congr_left (fun x _ => hnode x)).trans h.right,
          ?_, ?_, ?_⟩
        · refine List.Nodup.sublist ?_ h.nodup
          refine List.Sublist.cons₂ _ (List.Sublist.cons₂ _ (List.Sublist.cons₂ _ ?_))
          rw [List.reverse_cons]
          exact (List.sublist_append_left _ _).append_right rs
        · show (t.lm :: (fl0.reverse.reverse ++ t.cur :: (rs ++ [t.rm]))).Chain' _
          rw [List.reverse_reverse, hT]
          show (t.lm :: b :: l).Chain' (linked k)
          rw [hk]
          exact unlink_left t.heap t.lm a b l hlinks hnd
        · intro x hx
          apply h.bound
          simp only [List.mem_cons, List.mem_append, List.mem_reverse] at hx ⊢
          tauto
      obtain ⟨u, ls2, hu, hrepu, htop⟩ := ih _ _ f hrep2 (by simp at hf; omega)
      refine ⟨u, ls2, hstep.trans hu, ?_, htop⟩
      have hp : ((fun nd : Node => nd.content == z.blank) (t.node a)) = true := by
        simp only [HeapTape.node, beq_iff_eq]
        rw [← h.blank]
        exact hcont
      have hdrop : z.left.rdropWhile (fun nd => nd.content == z.blank)
          = (fl0.reverse.map t.node).rdropWhile (fun nd => nd.content == z.blank) := by
        rw [hzl, List.rdropWhile_concat_pos (fun nd : Node => nd.content == z.blank) _ (t.node a) hp]
      rw [hdrop]
      exact hrepu
    · refine ⟨t, (a :: fl0).reverse, ?_, ?_, rfl⟩
      · simp [HeapTape.gc_left, h1, hcont, pure, Except.pure]
      · have hp : ((fun nd : Node => nd.content == z.blank) (t.node a)) = false := by
          simp only [HeapTape.node, beq_eq_false_iff_ne, ne_eq]
          rw [← h.blank]
          exact hcont
        rw [tape_with_left z _ (by rw [hzl, List.rdropWhile_concat_neg _ _ _ (by simpa using hp)])]
        exact h

theorem chain_reverse (lm rm cur : Nat) (ls rs : List Nat) :
    (lm :: (ls.reverse ++ cur :: (rs ++ [rm]))).reverse
      = rm :: (rs.reverse ++ cur :: (ls ++ [lm])) := by
  simp only [List.reverse_cons, List.reverse_append, List.reverse_reverse, List.reverse_nil,
    List.nil_append, List.append_assoc, List.singleton_append, List.cons_append]

/-- The chain read from `_rm` back to `_lm`. -/
theorem links_rev_iff (h : Nat → HeapNode) (lm rm cur : Nat) (ls rs : List Nat) :
    (lm :: (ls.reverse ++ cur :: (rs ++ [rm]))).Chain' (linked h)
      ↔ (rm :: (rs.reverse ++ cur :: (ls ++ [lm]))).Chain' (fun x y => linked h y x) := by
  rw [← chain_reverse, List.chain'_reverse]
  rfl

theorem links_frame_rev (h k : Nat → HeapNode) (l : List Nat)
    (hc : l.Chain' (fun x y => linked h y x))
    (hp : ∀ a ∈ l.dropLast, (k a).prev = (h a).prev)
    (hn : ∀ b ∈ l.tail, (k b).next = (h b).next) : l.Chain' (fun x y => linked k y x) := by
  induction l with
  | nil => exact List.chain'_nil
  | cons a l ih =>
    cases l with
    | nil => exact List.chain'_singleton a
    | cons b l =>
      rw [List.chain'_cons] at hc ⊢
      refine ⟨⟨?_, ?_⟩, ih hc.2 (fun x hx => hp x ?_) (fun x hx => hn x ?_)⟩
      · rw [hn b (by simp), hc.1.1]
      · rw [hp a (by simp), hc.1.2]
      · simp only [List.dropLast_cons₂, List.mem_cons]
        exact Or.inr hx
      · simp only [List.tail_cons, List.mem_cons] at hx ⊢
        exact Or.inr hx

/-- The heap after one pass of the second loop of `gc`, when `_rm->_prev` is `a` and
`a->_prev` is `b`. -/
theorem unlink_right_heap (h : Nat → HeapNode) (rm a b : Nat) (h1 : (h rm).prev = a)
    (h2 : (h a).prev = b) (n : rm ≠ b) :
    Function.update (Function.update h rm { h rm with prev := (h (h rm).prev).prev })
        ((Function.update h rm { h rm with prev := (h (h rm).prev).prev }) rm).prev
        { (Function.update h rm { h rm with prev := (h (h rm).prev).prev })
            ((Function.update h rm { h rm with prev := (h (h rm).prev).prev }) rm).prev
          with next := rm }
      = Function.update (Function.update h rm { h rm with prev := b }) b
          { h b with next := rm } := by
  have e0 : (h (h rm).prev).prev = b := by rw [h1, h2]
  have e1 : ((Function.update h rm { h rm with prev := (h (h rm).prev).prev }) rm).prev = b := by
    rw [Function.update_same]
    exact e0
  rw [e1, e0, Function.update_noteq n.symm]

/-- One pass of the second loop of `gc` on a chain that ends `..., b, a, _rm`, read
backwards: the node `a` is unlinked. -/
theorem unlink_right (h : Nat → HeapNode) (rm a b : Nat) (l : List Nat)
    (hc : (rm :: a :: b :: l).Chain' (fun x y => linked h y x))
    (hn : (rm :: a :: b :: l).Nodup) :
    (rm :: b :: l).Chain' (fun x y => linked
      (Function.update (Function.update h rm { h rm with prev := b }) b
        { h b with next := rm }) y x) := by
  rw [List.chain'_cons, List.chain'_cons] at hc
  obtain ⟨-, -, hrest⟩ := hc
  simp only [List.nodup_cons, List.mem_cons, not_or] at hn
  obtain ⟨⟨n1, n2, n3⟩, ⟨n4, n5⟩, n6, n7⟩ := hn
  rw [List.chain'_cons]
  refine ⟨⟨?_, ?_⟩, ?_⟩
  · simp [Function.update_apply]
  · simp [Function.update_apply, n2]
  · refine links_frame_rev h _ _ hrest (fun x hx => ?_) (fun x hx => ?_)
    · have hx2 : x ∈ b :: l := List.mem_of_mem_dropLast hx
      have hxl : x ≠ rm := by rintro rfl; simp only [List.mem_cons] at hx2; tauto
      simp only [Function.update_apply, hxl, if_false]
      split
      · rename_i e; rw [e]
      · rfl
    · simp only [List.tail_cons] at hx
      have hxl : x ≠ rm := by rintro rfl; exact n3 hx
      have hxb : x ≠ b := by rintro rfl; exact n6 hx
      simp only [Function.update_apply, hxl, hxb, if_false]

theorem tape_with_right (z : Tape) (l : List Node) (h : l = z.right) :
    { z with right := l } = z := by
  subst h
  rfl

/-- The second loop of `gc` ends, and does to the heap what dropping the blank far end
of `right` does to the zipper. -/
theorem rep_gc_right (fr : List Nat) (t : HeapTape) (z : Tape) (ls : List Nat) (fuel : Nat)
    (h : t.Rep z ls fr.reverse) (hf : fr.length < fuel) :
    ∃ u rs2, t.gc_right fuel = Except.ok u
      ∧ u.Rep { z with right := z.right.rdropWhile (fun nd => nd.content == z.blank) } ls rs2
      ∧ u.top = t.top := by
  induction fr generalizing t z fuel with
  | nil =>
    obtain ⟨f, rfl⟩ : ∃ f, fuel = f + 1 := ⟨fuel - 1, by simp at hf; omega⟩
    have hlinks := (links_rev_iff _ _ _ _ _ _).1 h.links
    simp only [List.reverse_nil, List.nil_append] at hlinks
    rw [List.chain'_cons] at hlinks
    have hprev : (t.heap t.rm).prev = t.cur := hlinks.1.2
    have hzr : z.right = [] := by rw [← h.right]; rfl
    refine ⟨t, [], ?_, ?_, rfl⟩
    · simp [HeapTape.gc_right, hprev, pure, Except.pure]
    · rw [tape_with_right z _ (by rw [hzr]; rfl)]
      exact h
  | cons a fr0 ih =>
    obtain ⟨f, rfl⟩ : ∃ f, fuel = f + 1 := ⟨fuel - 1, by simp at hf; omega⟩
    obtain ⟨⟨d1, d2, d3, d4⟩, ⟨d5, d6, d7⟩, ⟨d8, d9⟩, d10, d11, d12⟩ :=
      rep_distinct t z ls _ h
    have hnd := List.nodup_reverse.2 (rep_chain_nodup t z ls _ h)
    rw [chain_reverse] at hnd
    have hlinks := (links_rev_iff _ _ _ _ _ _).1 h.links
    obtain ⟨b, l, hT⟩ : ∃ b l, fr0 ++ t.cur :: (ls ++ [t.lm]) = b :: l := by
      cases fr0 with
      | nil => exact ⟨_, _, rfl⟩
      | cons c fr1 => exact ⟨_, _, rfl⟩
    have hchain : t.rm :: ((a :: fr0).reverse.reverse ++ t.cur :: (ls ++ [t.lm]))
        = t.rm :: a :: b :: l := by
      rw [List.reverse_reverse, List.cons_append, hT]
    rw [hchain] at hlinks hnd
    have hl2 := hlinks
    rw [List.chain'_cons, List.chain'_cons] at hl2
    obtain ⟨⟨-, h1⟩, ⟨-, h2⟩, -⟩ := hl2
    have hac : a ≠ t.cur := by
      rintro rfl
      exact d9 (by simp)
    have hrb : t.rm ≠ b := by
      have := hnd
      simp only [List.nodup_cons, List.mem_cons, not_or] at this
      exact this.1.2.1
    have hzr : z.right = fr0.reverse.map t.node ++ [t.node a] := by
      rw [← h.right]
      simp
    by_cases hcont : (t.heap a).content = t.blank
    · obtain ⟨k, hk⟩ : ∃ k : Nat → HeapNode, k = Function.update
          (Function.update t.heap t.rm { t.heap t.rm with prev := b }) b
          { t.heap b with next := t.rm } := ⟨_, rfl⟩
      have hstep : t.gc_right (f + 1) = HeapTape.gc_right f { t with heap := k } := by
        simp only [HeapTape.gc_right]
        rw [if_pos (by simp [h1, hcont, hac]), unlink_right_heap t.heap t.rm a b h1 h2 hrb, hk]
      have hnode : ∀ x, HeapTape.node { t with heap := k } x = t.node x := by
        intro x
        by_cases e1 : x = b
        · subst e1
          simp [HeapTape.node, hk, Function.update_apply]
        · by_cases e2 : x = t.rm
          · subst e2
            simp [HeapTape.node, hk, Function.update_apply, e1]
          · simp [HeapTape.node, hk, Function.update_apply, e1, e2]
      have hrep2 : HeapTape.Rep { t with heap := k }
          { z with right := fr0.reverse.map t.node } ls fr0.reverse := by
        refine ⟨h.blank, (List.map_congr_left (fun x _ => hnode x)).trans h.left,
          (hnode _).trans h.cur, List.map_congr_left (fun x _ => hnode x),
          ?_, ?_, ?_⟩
        · refine List.Nodup.sublist ?_ h.nodup
          refine List.Sublist.cons₂ _ (List.Sublist.cons₂ _ (List.Sublist.cons₂ _ ?_))
          rw [List.reverse_cons]
          exact (List.sublist_append_left _ _).append_left ls
        · refine (links_rev_iff _ _ _ _ _ _).2 ?_
          show (t.rm :: (fr0.reverse.reverse ++ t.cur :: (ls ++ [t.lm]))).Chain' _
          rw [List.reverse_reverse, hT]
          show (t.rm :: b :: l).Chain' (fun x y => linked k y x)
          rw [hk]
          exact unlink_right t.heap t.rm a b l hlinks hnd
        · intro x hx
          apply h.bound
          simp only [List.mem_cons, List.mem_append, List.mem_reverse] at hx ⊢
          tauto
      obtain ⟨u, rs2, hu, hrepu, htop⟩ := ih _ _ f hrep2 (by simp at hf; omega)
      refine ⟨u, rs2, hstep.trans hu, ?_, htop⟩
      have hp : ((fun nd : Node => nd.content == z.blank) (t.node a)) = true := by
        simp only [HeapTape.node, beq_iff_eq]
        rw [← h.blank]
        exact hcont
      have hdrop : z.right.rdropWhile (fun nd => nd.content == z.blank)
          = (fr0.reverse.map t.node).rdropWhile (fun nd => nd.content == z.blank) := by
        rw [hzr, List.rdropWhile_concat_pos (fun nd : Node => nd.content == z.blank) _
          (t.node a) hp]
      rw [hdrop]
      exact hrepu
    · refine ⟨t, (a :: fr0).reverse, ?_, ?_, rfl⟩
      · simp [HeapTape.gc_right, h1, hcont, pure, Except.pure]
      · have hp : ((fun nd : Node => nd.content == z.blank) (t.node a)) = false := by
          simp only [HeapTape.node, beq_eq_false_iff_ne, ne_eq]
          rw [← h.blank]
          exact hcont
        rw [tape_with_right z _ (by rw [hzr, List.rdropWhile_concat_neg _ _ _ (by simpa using hp)])]
        exact h

/-- The linked nodes are among the allocated ones. -/
theorem rep_size (t : HeapTape) (z : Tape) (ls rs : List Nat) (h : t.Rep z ls rs) :
    ls.length + rs.length + 3 ≤ t.top := by
  have h1 : (t.lm :: t.rm :: t.cur :: (ls ++ rs)) ⊆ List.range t.top := by
    intro a ha
    exact List.mem_range.2 (h.bound a ha)
  have h2 := (List.subperm_of_subset h.nodup h1).length_le
  simp only [List.length_cons, List.length_append, List.length_range] at h2
  omega

/-- On a represented tape `gc` ends, and the result represents the zipper after its
`gc`. -/
theorem rep_gc (t : HeapTape) (z : Tape) (ls rs : List Nat) (h : t.Rep z ls rs) :
    ∃ u ls2 rs2, t.gc = Except.ok u ∧ u.Rep z.gc ls2 rs2 := by
  have hsize := rep_size t z ls rs h
  have h0 : t.Rep z ls.reverse.reverse rs := by rw [List.reverse_reverse]; exact h
  obtain ⟨u1, ls2, e1, r1, -⟩ := rep_gc_left ls.reverse t z rs (t.top + 1) h0
    (by rw [List.length_reverse]; omega)
  have h1 : u1.Rep { z with left := z.left.rdropWhile (fun nd => nd.content == z.blank) }
      ls2 rs.reverse.reverse := by rw [List.reverse_reverse]; exact r1
  obtain ⟨u2, rs2, e2, r2, -⟩ := rep_gc_right rs.reverse u1 _ ls2 (t.top + 1) h1
    (by rw [List.length_reverse]; omega)
  refine ⟨u2, ls2, rs2, ?_, r2⟩
  simp only [HeapTape.gc, e1, bind, Except.bind, e2]

/-- The tape before the constructor writes the input represents the zipper with the
single cell `_cur`. -/
theorem rep_init (b : Char) (n : Nat) :
    (HeapTape.init b n).Rep ⟨b, [], ⟨b, (n : Int) - 1⟩, []⟩ [] [] := by
  refine ⟨rfl, rfl, rfl, rfl, ?_, ?_, ?_⟩
  · show ([1, 2, 0] : List Nat).Nodup
    decide
  · simp only [HeapTape.init, List.reverse_nil, List.nil_append]
    rw [List.chain'_cons, List.chain'_cons]
    exact ⟨⟨rfl, rfl⟩, ⟨rfl, rfl⟩, List.chain'_singleton _⟩
  · intro a ha
    simp only [HeapTape.init, List.nil_append, List.mem_cons, List.mem_singleton,
      List.not_mem_nil, or_false] at ha ⊢
    omega

theorem rep_fold (w : List Char) (t : HeapTape) (z : Tape) (ls rs : List Nat)
    (h : t.Rep z ls rs) :
    ∃ ls2 rs2, (w.foldl (fun t ch => (t.write ch).move Direction.L) t).Rep
      (w.foldl (fun t ch => (t.write ch).move Direction.L) z) ls2 rs2 := by
  induction w generalizing t z ls rs with
  | nil => exact ⟨ls, rs, h⟩
  | cons c w ih =>
    obtain ⟨ls1, rs1, h1⟩ := rep_move _ _ _ _ Direction.L (rep_write t z ls rs c h)
    exact ih _ _ _ _ h1

/-- The constructor on the heap builds a representation of the zipper that the
constructor of the zipper builds. -/
theorem rep_ctor (b : Char) (w : List Char) :
    ∃ ls rs, (HeapTape.ctor b w).Rep (Tape.ctor b w) ls rs := by
  obtain ⟨ls1, rs1, h1⟩ := rep_fold w.reverse _ _ _ _ (rep_init b w.length)
  exact rep_move _ _ _ _ Direction.R h1

/-- Every reachable heap tape represents a reachable zipper: the two embeddings of the
tape agree. -/
theorem heap_reachable_rep (t : HeapTape) (h : HeapReachable t) :
    ∃ z ls rs, Reachable z ∧ t.Rep z ls rs := by
  induction h with
  | ctor b w =>
    obtain ⟨ls, rs, h⟩ := rep_ctor b w
    exact ⟨_, ls, rs, Reachable.ctor b w, h⟩
  | write t ch _ ih =>
    obtain ⟨z, ls, rs, hz, h⟩ := ih
    exact ⟨_, ls, rs, Reachable.write z ch hz, rep_write t z ls rs ch h⟩
  | move t d _ ih =>
    obtain ⟨z, ls, rs, hz, h⟩ := ih
    obtain ⟨ls2, rs2, h2⟩ := rep_move t z ls rs d h
    exact ⟨_, ls2, rs2, Reachable.move z d hz, h2⟩
  | gc t u _ hgc ih =>
    obtain ⟨z, ls, rs, hz, h⟩ := ih
    obtain ⟨u2, ls2, rs2, e, h2⟩ := rep_gc t z ls rs h
    rw [hgc] at e
    cases e
    exact ⟨_, ls2, rs2, Reachable.gc z hz, h2⟩

/-- The loop of `to_vec` along a chain that ends in `_rm` visits the chain. -/
theorem walk_chain (t : HeapTape) (l : List Nat) (a : Nat) (fuel : Nat)
    (hc : (a :: (l ++ [t.rm])).Chain' (linked t.heap)) (hn : t.rm ∉ a :: l)
    (hf : l.length + 1 < fuel) : t.walk fuel a = Except.ok (a :: l) := by
  induction l generalizing a fuel with
  | nil =>
    obtain ⟨f, rfl⟩ : ∃ f, fuel = f + 2 := ⟨fuel - 2, by simp at hf; omega⟩
    simp only [List.nil_append, List.chain'_cons] at hc
    have ha : a ≠ t.rm := fun e => hn (by simp [e])
    simp [HeapTape.walk, ha, hc.1.1, bind, Except.bind, pure, Except.pure]
  | cons b l ih =>
    obtain ⟨f, rfl⟩ : ∃ f, fuel = f + 1 := ⟨fuel - 1, by omega⟩
    rw [List.cons_append, List.chain'_cons] at hc
    have ha : a ≠ t.rm := fun e => hn (by simp [e])
    have := ih b f hc.2 (fun hm => hn (List.mem_cons_of_mem _ hm))
      (by simp only [List.length_cons] at hf; omega)
    simp [HeapTape.walk, ha, hc.1.1, this, bind, Except.bind, pure, Except.pure]

theorem chain_right_chain (i : Int) (r : List Node) (x : Node) (hx : x.index = i)
    (h : Tape.chain_right i r = true) :
    List.Chain (fun a b : Node => b.index = a.index + 1) x r := by
  induction r generalizing i x with
  | nil => exact List.Chain.nil
  | cons nd nds ih =>
    simp only [Tape.chain_right, Bool.and_eq_true, beq_iff_eq] at h
    exact List.Chain.cons (by rw [h.1, hx]) (ih (i + 1) nd h.1 h.2)

theorem chain_left_chain (i : Int) (l : List Node) (x : Node) (hx : x.index = i)
    (h : Tape.chain_left i l = true) :
    List.Chain (fun a b : Node => a.index = b.index + 1) x l := by
  induction l generalizing i x with
  | nil => exact List.Chain.nil
  | cons nd nds ih =>
    simp only [Tape.chain_left, Bool.and_eq_true, beq_iff_eq] at h
    exact List.Chain.cons (by rw [h.1, hx]; omega) (ih (i - 1) nd h.1 h.2)

/-- The cells of a well-formed zipper carry consecutive indices in `_next` order. -/
theorem nodes_consecutive (z : Tape) (h : z.WF) :
    z.nodes.Chain' (fun a b : Node => b.index = a.index + 1) := by
  obtain ⟨hl, hr⟩ := h
  rw [Tape.nodes, List.chain'_split]
  refine ⟨?_, chain_right_chain _ _ _ rfl hr⟩
  have := chain_left_chain _ _ _ rfl hl
  have h2 : (z.cur :: z.left).Chain' (fun a b : Node => a.index = b.index + 1) := this
  rw [← List.reverse_cons, List.chain'_reverse]
  exact h2

/-- C15: the tape invariant, on the nodes and links themselves.  For every tape built by
`Tape(blank, word)` and then changed by any sequence of `write`, `move` (left, right or
stay) and `gc`: `gc` ends on it; the cursor is neither of the two sentinels `_lm` and
`_rm`; and the traversal from `_lm->_next` along `_next` up to `_rm` ends and visits a
non-empty list of cells that contains the cursor cell and neither sentinel, that is
linked in both directions from `_lm` to `_rm`, and whose indices go up by one from each
cell to the next. -/
theorem tape_invariant (t : HeapTape) (h : HeapReachable t) :
    t.cur ≠ t.lm ∧ t.cur ≠ t.rm
      ∧ (∃ u, t.gc = Except.ok u)
      ∧ ∃ cs, t.cells = Except.ok cs ∧ cs ≠ [] ∧ t.cur ∈ cs ∧ t.lm ∉ cs ∧ t.rm ∉ cs
          ∧ (t.lm :: (cs ++ [t.rm])).Chain' (linked t.heap)
          ∧ cs.Chain' (fun a b => (t.heap b).index = (t.heap a).index + 1) := by
  obtain ⟨z, ls, rs, hz, hrep⟩ := heap_reachable_rep t h
  obtain ⟨⟨d1, d2, d3, d4⟩, ⟨d5, d6, d7⟩, ⟨d8, d9⟩, d10, d11, d12⟩ :=
    rep_distinct t z ls rs hrep
  obtain ⟨u, -, -, hu, -⟩ := rep_gc t z ls rs hrep
  have hsize := rep_size t z ls rs hrep
  have hlinks := hrep.links
  have hcs : t.lm :: (ls.reverse ++ t.cur :: (rs ++ [t.rm]))
      = t.lm :: ((ls.reverse ++ t.cur :: rs) ++ [t.rm]) := by
    simp only [List.append_assoc, List.cons_append]
  rw [hcs] at hlinks
  refine ⟨Ne.symm d2, Ne.symm d5, ⟨u, hu⟩, ls.reverse ++ t.cur :: rs, ?_, by simp, by simp,
    ?_, ?_, hlinks, ?_⟩
  · obtain ⟨a, l, hal⟩ : ∃ a l, ls.reverse ++ t.cur :: rs = a :: l := by
      cases ls.reverse with
      | nil => exact ⟨_, _, rfl⟩
      | cons c l => exact ⟨_, _, rfl⟩
    have hlen := congrArg List.length hal
    simp only [List.length_append, List.length_reverse, List.length_cons] at hlen
    have hrm : t.rm ∉ a :: l := by
      rw [← hal]
      simp only [List.mem_append, List.mem_reverse, List.mem_cons, not_or]
      exact ⟨d6, d5, d7⟩
    rw [hal, List.cons_append, List.chain'_cons] at hlinks
    rw [HeapTape.cells, hlinks.1.1, hal]
    exact walk_chain t l a (t.top + 1) hlinks.2 hrm (by omega)
  · simp only [List.mem_append, List.mem_reverse, List.mem_cons, not_or]
    exact ⟨d3, d2, d4⟩
  · simp only [List.mem_append, List.mem_reverse, List.mem_cons, not_or]
    exact ⟨d6, d5, d7⟩
  · have hn := nodes_consecutive z (reachable_WF z hz)
    have hmap : z.nodes = (ls.reverse ++ t.cur :: rs).map t.node := by
      rw [Tape.nodes, ← hrep.left, ← hrep.cur, ← hrep.right]
      simp only [List.map_append, List.map_reverse, List.map_cons]
    rw [hmap, List.chain'_map] at hn
    exact hn

theorem tape_invariant_witness :
    HeapReachable sample_heap_tape
      ∧ sample_heap_tape.cur ≠ sample_heap_tape.lm ∧ sample_heap_tape.cur ≠ sample_heap_tape.rm
      ∧ (∃ u, sample_heap_tape.gc = Except.ok u)
      ∧ ∃ cs, sample_heap_tape.cells = Except.ok cs ∧ cs ≠ [] ∧ sample_heap_tape.cur ∈ cs
          ∧ sample_heap_tape.lm ∉ cs ∧ sample_heap_tape.rm ∉ cs
          ∧ (sample_heap_tape.lm :: (cs ++ [sample_heap_tape.rm])).Chain'
              (linked sample_heap_tape.heap)
          ∧ cs.Chain' (fun a b =>
              (sample_heap_tape.heap b).index = (sample_heap_tape.heap a).index + 1) :=
  ⟨HeapReachable.write _ _ (HeapReachable.move _ _ (HeapReachable.ctor _ _)),
    tape_invariant sample_heap_tape
      (HeapReachable.write _ _ (HeapReachable.move _ _ (HeapReachable.ctor _ _)))⟩

end TuringSim
